/-
Verification development for the mdflow-extension conversion pipeline.

The TypeScript source is shallowly embedded in Lean:
  * strings are `List Char` (JS strings of the relevant inputs are ASCII),
  * JS regular expressions are embedded as terms of a small `RE` syntax
    together with an executable backtracking matcher that mirrors the JS
    semantics (leftmost match, preference order of alternatives, greedy and
    lazy character-class quantifiers, multiline `^`, word boundaries,
    `lastIndex` state for `g`-flagged `test`, `$`-substitution in string
    replacements),
  * the DOM is a rose tree of element/text nodes; in-place mutation is made
    explicit by returning the updated tree,
  * the task queue is a state machine with an explicit step relation.
-/
import Mathlib

namespace MDFlow

/-! ## A small JS regular-expression engine

Each regular expression appearing in the source is embedded as an `RE` term.
Quantifiers in every regex used by the claims range over single-character
classes, so the star/plus/repeat constructors take a character class; this
keeps the matcher structurally recursive while reproducing the JS
backtracking order exactly (greedy prefers long, lazy prefers short, the
left alternative is preferred).
-/

/-- Character classes are decidable character predicates. -/
abbrev CharCls := Char → Bool

/-- Embedded regular-expression syntax.  `grp n a` marks capture group `n`. -/
inductive RE where
  | eps
  | sym (p : CharCls)
  | seq (a b : RE)
  | alt (a b : RE)
  | starG (p : CharCls)
  | starL (p : CharCls)
  | repG (p : CharCls) (lo hi : Nat)
  | bol
  | wordB
  | grp (n : Nat) (a : RE)

/-- Capture state: group index with start/end span; the head entry for an
index is the most recent capture. -/
abbrev Groups := List (Nat × Nat × Nat)

/-- The span captured by group `n`, if any. -/
def groupSpan (g : Groups) (n : Nat) : Option (Nat × Nat) :=
  (g.find? (fun e => e.1 = n)).map (fun e => e.2)

/-- JS `\w`: ASCII letters, digits and the underscore. -/
def isWordChar (c : Char) : Bool :=
  (('a' ≤ c && c ≤ 'z') || ('A' ≤ c && c ≤ 'Z') || ('0' ≤ c && c ≤ '9') || c = '_')

/-- JS `\s` restricted to the ASCII whitespace characters that occur in the
inputs of this development. -/
def isSpaceChar (c : Char) : Bool :=
  (c = ' ' || c = '\t' || c = '\n' || c = '\r' || c = Char.ofNat 11 || c = Char.ofNat 12)

/-- JS `\d`. -/
def isDigitChar (c : Char) : Bool := ('0' ≤ c && c ≤ '9')

/-- The character preceding position `i`, if any. -/
def prevChar (s : List Char) (i : Nat) : Option Char :=
  if i = 0 then none else s.get? (i - 1)

/-- Length of the maximal run of characters satisfying `p` starting at `i`. -/
def clsRun (p : CharCls) (s : List Char) (i : Nat) : Nat :=
  ((s.drop i).takeWhile p).length

/-- All ways to match `r` at position `i` of `s`, as pairs of an end position
and the capture state, in JS backtracking preference order. -/
def mrun : RE → List Char → Nat → Groups → List (Nat × Groups)
  | .eps, _, i, g => [(i, g)]
  | .sym p, s, i, g =>
      match s.get? i with
      | some c => if p c then [(i + 1, g)] else []
      | none => []
  | .seq a b, s, i, g => ((mrun a s i g).map (fun r => mrun b s r.1 r.2)).flatten
  | .alt a b, s, i, g => mrun a s i g ++ mrun b s i g
  | .starG p, s, i, g =>
      ((List.range (clsRun p s i + 1)).reverse).map (fun k => (i + k, g))
  | .starL p, s, i, g =>
      (List.range (clsRun p s i + 1)).map (fun k => (i + k, g))
  | .repG p lo hi, s, i, g =>
      let n := min (clsRun p s i) hi
      if n < lo then []
      else ((List.range (n - lo + 1)).reverse).map (fun k => (i + lo + k, g))
  | .bol, s, i, g =>
      if i = 0 || prevChar s i = some '\n' then [(i, g)] else []
  | .wordB, s, i, g =>
      let a := (prevChar s i).elim false isWordChar
      let b := (s.get? i).elim false isWordChar
      if a ≠ b then [(i, g)] else []
  | .grp n a, s, i, g =>
      (mrun a s i g).map (fun r => (r.1, (n, i, r.1) :: r.2))

/-- Search for the leftmost match of `r` starting at position `i` or later;
`k` is fuel that bounds the number of start positions still to try. -/
def searchAux (r : RE) (s : List Char) : Nat → Nat → Option (Nat × Nat × Groups)
  | 0, _ => none
  | k + 1, i =>
      if i ≤ s.length then
        match (mrun r s i []).head? with
        | some (e, g) => some (i, e, g)
        | none => searchAux r s k (i + 1)
      else none

/-- Leftmost match of `r` in `s` whose start is `≥ i`:
start position, end position, captures. -/
def firstMatchFrom (r : RE) (s : List Char) (i : Nat) : Option (Nat × Nat × Groups) :=
  searchAux r s (s.length + 1 - i) i

/-- Number of matches found by a `g`-flagged JS regex (`String.match(...).length`):
repeated leftmost search, resuming at the match end (advancing one position
after an empty match). -/
def countMatchesAux (r : RE) (s : List Char) : Nat → Nat → Nat
  | 0, _ => 0
  | fuel + 1, i =>
      match firstMatchFrom r s i with
      | none => 0
      | some (ms, me, _) =>
          1 + countMatchesAux r s fuel (if ms < me then me else ms + 1)

def countMatches (r : RE) (s : List Char) : Nat :=
  countMatchesAux r s (s.length + 1) 0

/-- JS `regex.test(str)` for a `g`-flagged regex: the search starts at the
regex object's `lastIndex`; on success `lastIndex` becomes the match end, on
failure it is reset to `0`.  Returns the result and the new `lastIndex`. -/
def jsTestG (r : RE) (s : List Char) (lastIndex : Nat) : Bool × Nat :=
  if lastIndex ≤ s.length then
    match firstMatchFrom r s lastIndex with
    | some (_, e, _) => (true, e)
    | none => (false, 0)
  else (false, 0)

/-- Substring of `s` from `a` (inclusive) to `b` (exclusive). -/
def slice (s : List Char) (a b : Nat) : List Char :=
  (s.drop a).take (b - a)

/-- JS `String.replace` with a `g`-flagged regex and a callback: the callback
receives the matched text and the captured group texts and threads a state.
After an empty match the scan advances one character. -/
def replaceAllStAux {σ : Type} (r : RE) (s : List Char)
    (f : List Char → (Nat → Option (List Char)) → σ → List Char × σ) :
    Nat → Nat → List Char → σ → List Char × σ
  | 0, i, acc, st => (acc ++ s.drop i, st)
  | fuel + 1, i, acc, st =>
      match firstMatchFrom r s i with
      | none => (acc ++ s.drop i, st)
      | some (ms, me, g) =>
          let matched := slice s ms me
          let gstr := fun n => (groupSpan g n).map (fun p => slice s p.1 p.2)
          let rep := f matched gstr st
          let acc2 := acc ++ slice s i ms ++ rep.1
          if ms < me then replaceAllStAux r s f fuel me acc2 rep.2
          else replaceAllStAux r s f fuel (me + 1) (acc2 ++ slice s me (me + 1)) rep.2

def replaceAllSt {σ : Type} (r : RE) (s : List Char)
    (f : List Char → (Nat → Option (List Char)) → σ → List Char × σ) (st : σ) : List Char × σ :=
  replaceAllStAux r s f (s.length + 1) 0 [] st

/-- Stateless `g`-flagged replace with a callback. -/
def replaceAllG (r : RE) (s : List Char)
    (f : List Char → (Nat → Option (List Char)) → List Char) : List Char :=
  (replaceAllSt r s (fun m g _ => (f m g, ())) ()).1

/-- First index at which `pat` occurs as a substring of `s`. -/
def findSubstrAux (pat : List Char) : List Char → Nat → Option Nat
  | [], i => if pat = [] then some i else none
  | c :: rest, i =>
      if pat.isPrefixOf (c :: rest) then some i else findSubstrAux pat rest (i + 1)

def findSubstr (s pat : List Char) : Option Nat := findSubstrAux pat s 0

/-- JS `String.includes`. -/
def jsIncludes (s pat : List Char) : Bool := (findSubstr s pat).isSome

/-- JS `getSubstitution` for a string replacement with a string pattern (no
capture groups): `$$` is a literal dollar, `$&` the matched text, a backtick
after `$` the text before the match, an apostrophe after `$` the text after
the match; anything else is literal. -/
def dollarSubst (matched before after : List Char) : List Char → List Char
  | [] => []
  | '$' :: c :: rest =>
      if c = '$' then '$' :: dollarSubst matched before after rest
      else if c = '&' then matched ++ dollarSubst matched before after rest
      else if c = Char.ofNat 96 then before ++ dollarSubst matched before after rest
      else if c = Char.ofNat 39 then after ++ dollarSubst matched before after rest
      else '$' :: c :: dollarSubst matched before after rest
  | c :: rest => c :: dollarSubst matched before after rest

/-- JS `String.replace(pat, rep)` with string arguments: replaces the first
occurrence only, applying `$`-substitution to the replacement. -/
def jsReplaceFirstStr (s pat rep : List Char) : List Char :=
  match findSubstr s pat with
  | none => s
  | some i =>
      let before := s.take i
      let after := s.drop (i + pat.length)
      before ++ dollarSubst pat before after rep ++ after

/-! ### RE construction helpers -/

/-- Character equality, optionally case-insensitive (the `i` flag). -/
def chEq (ci : Bool) (c : Char) : CharCls :=
  fun x => if ci then x.toLower = c.toLower else x = c

/-- A literal string, as a sequence of single-character matches. -/
def lit (ci : Bool) : List Char → RE
  | [] => .eps
  | [c] => .sym (chEq ci c)
  | c :: rest => .seq (.sym (chEq ci c)) (lit ci rest)

def litS (ci : Bool) (s : String) : RE := lit ci s.data

/-- Alternation of a list of branches, preferring earlier entries. -/
def alts : List RE → RE
  | [] => .eps
  | [r] => r
  | r :: rest => .alt r (alts rest)

/-- `\b(w1|w2|...)\b` over literal words, as used by the language catalogue. -/
def wordAlts (ci : Bool) (ws : List String) : RE :=
  .seq .wordB (.seq (.grp 1 (alts (ws.map (litS ci)))) .wordB)

/-- Global replacement of a literal substring (a JS regex of a literal string
with the `g` flag), replacement inserted verbatim. -/
def replaceAllLit (s pat rep : List Char) : List Char :=
  if pat = [] then s else replaceAllG (lit false pat) s (fun _ _ => rep)

/-- `\bkw\b` with the `i` flag: the regex built for each keyword. -/
def keywordRE (kw : String) : RE :=
  .seq .wordB (.seq (litS true kw) .wordB)

/-- `+` over a character class (greedy). -/
def plusG (p : CharCls) : RE := .seq (.sym p) (.starG p)

/-- Membership character class. -/
def oneOf (cs : List Char) : CharCls := fun c => cs.contains c

/-- Negated membership character class. -/
def noneOf (cs : List Char) : CharCls := fun c => !cs.contains c

/-- `.` with the `s` (dotall) flag. -/
def anyChar : CharCls := fun _ => true

/-- `.` without the `s` flag. -/
def dotNoNl : CharCls := fun c => !(c = '\n' || c = '\r')

/-- `\s*`. -/
def spaceStar : RE := .starG isSpaceChar

/-- Opening curly brace. -/
def braceL : Char := Char.ofNat 123

/-- Closing curly brace. -/
def braceR : Char := Char.ofNat 125

/-- Wrap text in curly braces, as the LaTeX templates do. -/
def braceWrap (s : List Char) : List Char := braceL :: s ++ [braceR]

/-- JS `String.trim` (restricted to the ASCII whitespace in scope). -/
def jsTrim (s : List Char) : List Char :=
  ((s.dropWhile isSpaceChar).reverse.dropWhile isSpaceChar).reverse

/-! ## MathFormatter

Embedded from the `MathFormatter` class: the six formula patterns, the
MathML-to-LaTeX table-driven conversion, placeholder extraction and
restoration, and the `g`-flagged `containsMath` test with its per-pattern
`lastIndex` state. -/

/-- Pattern `\$\$([^$]+)\$\$` (`g`). -/
def blockDollarRE : RE :=
  .seq (litS false "$$") (.seq (.grp 1 (plusG (noneOf ['$']))) (litS false "$$"))

/-- Pattern `\$([^$]+)\$` (`g`). -/
def inlineDollarRE : RE :=
  .seq (litS false "$") (.seq (.grp 1 (plusG (noneOf ['$']))) (litS false "$"))

/-- Pattern for a span with a math class (`gis`):
open tag fragment, attribute filler, the `class="math...` attribute,
attribute filler, `>`, lazy body, close tag. -/
def mathSpanRE : RE :=
  .seq (litS true "<span")
  (.seq (.starG (noneOf ['>']))
  (.seq (litS true "class=\"math")
  (.seq (.starG (noneOf ['"']))
  (.seq (litS true "\"")
  (.seq (.starG (noneOf ['>']))
  (.seq (litS true ">")
  (.seq (.grp 1 (.starL anyChar))
  (litS true "</span>"))))))))

/-- Pattern for a div with a math class (`gis`). -/
def mathDivRE : RE :=
  .seq (litS true "<div")
  (.seq (.starG (noneOf ['>']))
  (.seq (litS true "class=\"math")
  (.seq (.starG (noneOf ['"']))
  (.seq (litS true "\"")
  (.seq (.starG (noneOf ['>']))
  (.seq (litS true ">")
  (.seq (.grp 1 (.starL anyChar))
  (litS true "</div>"))))))))

/-- Pattern `<math[^>]*>([\s\S]*?)<\/math>` (`gis`). -/
def mathmlRE : RE :=
  .seq (litS true "<math")
  (.seq (.starG (noneOf ['>']))
  (.seq (litS true ">")
  (.seq (.grp 1 (.starL anyChar))
  (litS true "</math>"))))

/-- Pattern `<img[^>]*class="math[^"]*"[^>]*alt="([^"]*)"[^>]*>` (`gi`). -/
def imgMathRE : RE :=
  .seq (litS true "<img")
  (.seq (.starG (noneOf ['>']))
  (.seq (litS true "class=\"math")
  (.seq (.starG (noneOf ['"']))
  (.seq (litS true "\"")
  (.seq (.starG (noneOf ['>']))
  (.seq (litS true "alt=\"")
  (.seq (.grp 1 (.starG (noneOf ['"'])))
  (.seq (litS true "\"")
  (.seq (.starG (noneOf ['>']))
  (litS true ">"))))))))))

/-- Pattern `<[^>]*>` (`g`), used by `stripHtml` and tag removal. -/
def tagRE : RE :=
  .seq (litS false "<") (.seq (.starG (noneOf ['>'])) (litS false ">"))

/-- `stripHtml`: remove tags, then trim. -/
def stripHtml (s : List Char) : List Char :=
  jsTrim (replaceAllG tagRE s (fun _ _ => []))

/-- The `[icn]` class in the MathML patterns. -/
def micnCls : CharCls := oneOf ['i', 'c', 'n']

/-- `<mX>([^<]*)<\/mX>` for `X ∈ [icn]`, capturing into group `g`. -/
def micnTag (g : Nat) : RE :=
  .seq (litS false "<m")
  (.seq (.sym micnCls)
  (.seq (litS false ">")
  (.seq (.grp g (.starG (noneOf ['<'])))
  (.seq (litS false "</m")
  (.seq (.sym micnCls)
  (litS false ">"))))))

/-- One `mn`-or-`mi` pair of the four source mfrac regexes: the tag letter of
group 1 position is `a`, of group 2 position is `b`. -/
def mfracPairRE (a b : Char) : RE :=
  .seq (litS false "<mfrac>")
  (.seq spaceStar
  (.seq (.seq (litS false ("<m" ++ String.mk [a] ++ ">"))
        (.seq (.grp 1 (.starG (noneOf ['<'])))
        (litS false ("</m" ++ String.mk [a] ++ ">"))))
  (.seq spaceStar
  (.seq (.seq (litS false ("<m" ++ String.mk [b] ++ ">"))
        (.seq (.grp 2 (.starG (noneOf ['<'])))
        (litS false ("</m" ++ String.mk [b] ++ ">"))))
  (.seq spaceStar
  (litS false "</mfrac>"))))))

/-- The `msqrt` body `(<m[icn]>[^<]*<\/m[icn]>+)`: note the `+` of the source
regex quantifies the final `>` character. -/
def msqrtBodyRE : RE :=
  .seq (litS false "<m")
  (.seq (.sym micnCls)
  (.seq (litS false ">")
  (.seq (.starG (noneOf ['<']))
  (.seq (litS false "</m")
  (.seq (.sym micnCls)
  (plusG (chEq false '>')))))))

/-- `<msqrt>\s*(...)\s*<\/msqrt>` (`g`). -/
def msqrtRE : RE :=
  .seq (litS false "<msqrt>")
  (.seq spaceStar
  (.seq (.grp 1 msqrtBodyRE)
  (.seq spaceStar
  (litS false "</msqrt>"))))

/-- `<msup>\s*<m[icn]>([^<]*)<\/m[icn]>\s*<m[icn]>([^<]*)<\/m[icn]>\s*<\/msup>` (`g`). -/
def msupRE : RE :=
  .seq (litS false "<msup>")
  (.seq spaceStar
  (.seq (micnTag 1)
  (.seq spaceStar
  (.seq (micnTag 2)
  (.seq spaceStar
  (litS false "</msup>"))))))

/-- The `msub` analogue. -/
def msubRE : RE :=
  .seq (litS false "<msub>")
  (.seq spaceStar
  (.seq (micnTag 1)
  (.seq spaceStar
  (.seq (micnTag 2)
  (.seq spaceStar
  (litS false "</msub>"))))))

/-- Greek-letter entity table. -/
def greekLetters : List (String × String) :=
  [("&alpha;", "\\alpha"), ("&beta;", "\\beta"), ("&gamma;", "\\gamma"),
   ("&delta;", "\\delta"), ("&epsilon;", "\\epsilon"), ("&theta;", "\\theta"),
   ("&lambda;", "\\lambda"), ("&mu;", "\\mu"), ("&pi;", "\\pi"),
   ("&sigma;", "\\sigma"), ("&phi;", "\\phi"), ("&omega;", "\\omega"),
   ("&Alpha;", "\\Alpha"), ("&Beta;", "\\Beta"), ("&Gamma;", "\\Gamma"),
   ("&Delta;", "\\Delta"), ("&Theta;", "\\Theta"), ("&Lambda;", "\\Lambda"),
   ("&Pi;", "\\Pi"), ("&Sigma;", "\\Sigma"), ("&Phi;", "\\Phi"),
   ("&Omega;", "\\Omega")]

/-- Operator entity table. -/
def mathOperators : List (String × String) :=
  [("&plus;", "+"), ("&minus;", "-"), ("&times;", "\\times"),
   ("&div;", "\\div"), ("&sum;", "\\sum"), ("&prod;", "\\prod"),
   ("&int;", "\\int")]

/-- Relation entity table. -/
def mathRelations : List (String × String) :=
  [("&lt;", "<"), ("&gt;", ">"), ("&le;", "\\le"), ("&ge;", "\\ge"),
   ("&ne;", "\\ne"), ("&approx;", "\\approx")]

/-- Apply a list of literal entity-to-symbol replacements in order. -/
def applyEntityTable (tbl : List (String × String)) (s : List Char) : List Char :=
  tbl.foldl (fun acc p => replaceAllLit acc p.1.data p.2.data) s

/-- `mathmlToLatex`: the table-driven MathML conversion.  The fraction,
superscript and subscript templates (`\frac{$1}{$2}`, an exponent or an
index in braces) are realised through the captured groups. -/
def mathmlToLatex (mathml : List Char) : List Char :=
  let fracsStep := fun (pair : Char × Char) (s : List Char) =>
    replaceAllG (mfracPairRE pair.1 pair.2) s (fun _ g =>
      "\\frac".data ++ braceWrap ((g 1).getD []) ++ braceWrap ((g 2).getD []))
  let l0 := fracsStep ('n', 'n') mathml
  let l1 := fracsStep ('i', 'n') l0
  let l2 := fracsStep ('n', 'i') l1
  let l3 := fracsStep ('i', 'i') l2
  let l4 := replaceAllG msqrtRE l3 (fun _ g =>
    let text := replaceAllG tagRE ((g 1).getD []) (fun _ _ => [])
    "\\sqrt".data ++ braceWrap text)
  let l5 := replaceAllG msupRE l4 (fun _ g =>
    braceWrap ((g 1).getD []) ++ ['^'] ++ braceWrap ((g 2).getD []))
  let l6 := replaceAllG msubRE l5 (fun _ g =>
    braceWrap ((g 1).getD []) ++ ['_'] ++ braceWrap ((g 2).getD []))
  let l7 := applyEntityTable greekLetters l6
  let l8 := applyEntityTable mathOperators l7
  let l9 := applyEntityTable mathRelations l8
  replaceAllG tagRE l9 (fun _ _ => [])

/-- One entry of the `patterns` array: regex, block/inline type, extractor. -/
structure MFPattern where
  re : RE
  block : Bool
  extractor : List Char → (Nat → Option (List Char)) → List Char

/-- The `patterns` array of `MathFormatter`, in source order. -/
def mathPatterns : List MFPattern :=
  [⟨blockDollarRE, true, fun _ g => (g 1).getD []⟩,
   ⟨inlineDollarRE, false, fun _ g => (g 1).getD []⟩,
   ⟨mathSpanRE, false, fun _ g => stripHtml ((g 1).getD [])⟩,
   ⟨mathDivRE, true, fun _ g => stripHtml ((g 1).getD [])⟩,
   ⟨mathmlRE, false, fun _ g => mathmlToLatex ((g 1).getD [])⟩,
   ⟨imgMathRE, false, fun _ g => (g 1).getD []⟩]

/-- The text placeholder `__MATH_FORMULA_i__`. -/
def placeholderStr (i : Nat) : List Char :=
  ("__MATH_FORMULA_" ++ toString i ++ "__").data

/-- The inline placeholder span inserted by `extractWithReplacement`. -/
def inlinePlaceholder (i : Nat) : List Char :=
  ("<span class=\"math-formula-inline\" data-placeholder=\"__MATH_FORMULA_"
    ++ toString i ++ "__\"></span>").data

/-- The block placeholder div inserted by `extractWithReplacement`. -/
def blockPlaceholder (i : Nat) : List Char :=
  ("<div class=\"math-formula-block\" data-placeholder=\"__MATH_FORMULA_"
    ++ toString i ++ "__\"></div>").data

/-- `extractWithReplacement`: each pattern in order is replaced globally; the
shared running index is the current length of the formula list. -/
def extractWithReplacement (html : List Char) : List Char × List (List Char) :=
  mathPatterns.foldl
    (fun acc pat =>
      replaceAllSt pat.re acc.1
        (fun m g formulas =>
          let formula := pat.extractor m g
          let idx := formulas.length
          (if pat.block then blockPlaceholder idx else inlinePlaceholder idx,
           formulas ++ [formula]))
        acc.2)
    (html, [])

/-- `restoreFormulas`: for each formula, decide block/inline from the formula
text, then substitute the first occurrence of the element placeholder and of
the bare text placeholder.  These are JS string `replace` calls, so the
replacement text undergoes `$`-substitution. -/
def restoreFormulas (markdown : List Char) (formulas : List (List Char)) : List Char :=
  (formulas.enum).foldl
    (fun processed e =>
      let idx := e.1
      let formula := e.2
      let isBlock := jsIncludes formula ['\\'] && decide (formula.length > 50)
      if isBlock then
        let rep := "\n$$\n".data ++ formula ++ "\n$$\n".data
        jsReplaceFirstStr (jsReplaceFirstStr processed (blockPlaceholder idx) rep)
          (placeholderStr idx) rep
      else
        let rep := '$' :: formula ++ ['$']
        jsReplaceFirstStr (jsReplaceFirstStr processed (inlinePlaceholder idx) rep)
          (placeholderStr idx) rep)
    markdown

/-- `containsMath`: `pattern.test(content)` for each pattern in order, with
early exit on the first hit.  Every pattern object carries the `g` flag, so
each keeps a `lastIndex` between calls; the state is the `lastIndex` list,
positionally matching `mathPatterns`.  Patterns after the first hit are not
run, so their `lastIndex` entries are untouched. -/
def containsMathGo (s : List Char) : List MFPattern → List Nat → Bool × List Nat
  | [], _ => (false, [])
  | _ :: _, [] => (false, [])
  | p :: ps, li :: ls =>
      let r := jsTestG p.re s li
      if r.1 then (true, r.2 :: ls)
      else
        let rest := containsMathGo s ps ls
        (rest.1, r.2 :: rest.2)

/-- One call of `containsMath` on a formatter whose pattern states are `st`. -/
def containsMath (st : List Nat) (s : List Char) : Bool × List Nat :=
  containsMathGo s mathPatterns st

/-- The pattern states of a freshly constructed `MathFormatter`. -/
def freshMathFormatter : List Nat :=
  List.replicate mathPatterns.length 0

/-! ## CodeFormatter

Embedded from `CodeFormatter`: the fixed language-signature catalogue and
`detectLanguage`. -/

/-- One entry of the `languagePatterns` catalogue. -/
structure LanguagePattern where
  name : String
  patterns : List RE
  keywords : List String
  extensions : List String

/-- `[a-z]` under the `i` flag. -/
def letterCI : CharCls := fun c => ('a' ≤ c.toLower && c.toLower ≤ 'z')

/-- `[\w-]`. -/
def wordDash : CharCls := fun c => (isWordChar c || c = '-')

/-- `\b(...)\s*=`-shaped pattern (left word boundary only). -/
def attrListRE (ws : List String) : RE :=
  .seq .wordB (.seq (.grp 1 (alts (ws.map (litS true)))) (.seq spaceStar (litS false "=")))

/-- `\b(...)\s*:`-shaped pattern (left word boundary only). -/
def propListRE (ws : List String) : RE :=
  .seq .wordB (.seq (.grp 1 (alts (ws.map (litS true)))) (.seq spaceStar (litS false ":")))

/-- The html open-tag pattern `<(...)` with `h[1-6]` in the alternation. -/
def htmlOpenRE : RE :=
  .seq (litS false "<")
  (.grp 1 (alts
    [litS true "!DOCTYPE", litS true "html", litS true "head", litS true "body",
     litS true "div", litS true "span", litS true "a", litS true "p",
     .seq (litS true "h") (.sym (fun c => '1' ≤ c && c ≤ '6')),
     litS true "ul", litS true "ol", litS true "li", litS true "table",
     litS true "tr", litS true "td", litS true "th"]))

/-- The `languagePatterns` catalogue, in source order. -/
def languagePatterns : List LanguagePattern :=
  [⟨"javascript",
    [wordAlts true ["const", "let", "var", "async", "await", "promise", "function", "=>"],
     wordAlts true ["console", "document", "window", "navigator"]],
    ["const", "let", "var", "function", "async", "await", "=>", "console", "document"],
    [".js", ".jsx", ".mjs"]⟩,
   ⟨"typescript",
    [wordAlts true ["interface", "type", "enum", "namespace", "declare", "readonly", "abstract"],
     wordAlts true ["const", "let", "var", "async", "await", "promise", "function", "=>"]],
    ["interface", "type", "enum", "namespace", "declare", "readonly", "abstract", "const", "let"],
    [".ts", ".tsx"]⟩,
   ⟨"python",
    [wordAlts true ["def", "class", "import", "from", "as", "if __name__", "print"],
     .seq .bol (.seq spaceStar (.seq (.grp 1 (alts [litS false "def", litS false "class"]))
       (plusG isSpaceChar)))],
    ["def", "class", "import", "from", "as", "if", "else", "elif", "for", "while", "try",
     "except"],
    [".py", ".pyw"]⟩,
   ⟨"java",
    [wordAlts true ["public", "private", "protected", "static", "final", "abstract", "class",
       "interface", "extends", "implements"],
     wordAlts true ["System", "out", "println", "String", "int", "boolean", "void"]],
    ["public", "private", "protected", "static", "final", "abstract", "class", "interface"],
    [".java"]⟩,
   ⟨"cpp",
    [wordAlts true ["include", "using namespace", "std::", "cout", "cin", "endl"],
     wordAlts true ["class", "struct", "public", "private", "protected", "virtual", "override"]],
    ["include", "using", "namespace", "std", "class", "struct", "public", "private"],
    [".cpp", ".cc", ".cxx", ".hpp", ".h"]⟩,
   ⟨"csharp",
    [wordAlts true ["using", "namespace", "class", "struct", "interface", "enum", "delegate"],
     wordAlts true ["public", "private", "protected", "internal", "static", "readonly", "get",
       "set", "value"]],
    ["using", "namespace", "class", "struct", "interface", "enum", "delegate"],
    [".cs"]⟩,
   ⟨"go",
    [wordAlts true ["func", "var", "const", "type", "struct", "interface", "range", "chan",
       "go", "select"],
     wordAlts true ["fmt", "package", "import", "defer"]],
    ["func", "var", "const", "type", "struct", "interface", "range", "chan", "go", "select"],
    [".go"]⟩,
   ⟨"rust",
    [wordAlts true ["fn", "let", "mut", "const", "static", "impl", "struct", "enum", "trait",
       "use", "mod", "crate"],
     wordAlts true ["match", "Some", "None", "Ok", "Err", "Result", "Option", "Vec", "String"]],
    ["fn", "let", "mut", "const", "static", "impl", "struct", "enum", "trait", "use", "mod"],
    [".rs"]⟩,
   ⟨"php",
    [.alt (litS true "<?php") (litS true "?>"),
     wordAlts true ["function", "class", "extends", "implements", "public", "private",
       "protected", "static", "final"],
     .seq (litS false "$") (.seq (plusG isWordChar) (.seq spaceStar (litS false "=>")))],
    ["function", "class", "extends", "implements", "public", "private", "protected"],
    [".php"]⟩,
   ⟨"ruby",
    [wordAlts true ["def", "class", "module", "include", "require", "attr_accessor", "do",
       "end"],
     wordAlts true ["print", "puts", "p", "gets"]],
    ["def", "class", "module", "include", "require", "attr_accessor", "do", "end"],
    [".rb"]⟩,
   ⟨"swift",
    [wordAlts true ["func", "var", "let", "struct", "class", "enum", "protocol", "extension",
       "init", "deinit"],
     wordAlts true ["import", "private", "fileprivate", "internal", "public", "open", "static",
       "mutating"]],
    ["func", "var", "let", "struct", "class", "enum", "protocol", "extension"],
    [".swift"]⟩,
   ⟨"kotlin",
    [wordAlts true ["fun", "val", "var", "class", "object", "interface", "enum", "sealed",
       "data", "when"],
     wordAlts true ["package", "import", "public", "private", "protected", "internal",
       "companion"]],
    ["fun", "val", "var", "class", "object", "interface", "enum", "sealed", "data"],
    [".kt", ".kts"]⟩,
   ⟨"html",
    [htmlOpenRE,
     attrListRE ["class", "id", "style", "href", "src", "alt", "title"]],
    ["html", "head", "body", "div", "span", "class", "id"],
    [".html", ".htm"]⟩,
   ⟨"css",
    [.seq (litS false ".") (.seq (.sym letterCI) (.seq (.starG wordDash)
       (.seq spaceStar (.sym (chEq false braceL))))),
     .seq (litS false "#") (.seq (.sym letterCI) (.seq (.starG wordDash)
       (.seq spaceStar (.sym (chEq false braceL))))),
     propListRE ["width", "height", "color", "background", "margin", "padding", "border",
       "display", "position"]],
    ["width", "height", "color", "background", "margin", "padding", "border", "display"],
    [".css", ".scss", ".sass", ".less"]⟩,
   ⟨"sql",
    [wordAlts true ["SELECT", "FROM", "WHERE", "INSERT", "INTO", "VALUES", "UPDATE", "DELETE",
       "CREATE", "TABLE", "DROP", "ALTER"],
     wordAlts true ["JOIN", "LEFT", "RIGHT", "INNER", "OUTER", "ON", "AS", "ORDER BY",
       "GROUP BY", "HAVING"]],
    ["SELECT", "FROM", "WHERE", "INSERT", "INTO", "VALUES", "UPDATE", "DELETE"],
    [".sql"]⟩,
   ⟨"bash",
    [wordAlts true ["if", "then", "fi", "for", "do", "done", "case", "esac", "while", "in",
       "function"],
     .seq .bol (.seq spaceStar (litS false "#!"))],
    ["if", "then", "fi", "for", "do", "done", "case", "esac", "while"],
    [".sh", ".bash"]⟩,
   ⟨"json",
    [.seq .bol (.seq spaceStar (.sym (oneOf [braceL, '[']))),
     wordAlts true ["true", "false", "null"]],
    ["true", "false", "null"],
    [".json"]⟩,
   ⟨"yaml",
    [.seq .bol (.seq spaceStar (.seq (.sym letterCI) (.seq (.starG wordDash)
       (.seq spaceStar (litS false ":"))))),
     .seq .bol (.seq spaceStar (.seq (litS false "-") (plusG isSpaceChar)))],
    ["true", "false", "null", "yes", "no"],
    [".yaml", ".yml"]⟩,
   ⟨"markdown",
    [.seq .bol (.grp 1 (alts
       [.seq (.repG (chEq false '#') 1 6) (.sym isSpaceChar),
        .seq (.sym (oneOf ['*', '-'])) (.sym isSpaceChar),
        .seq (plusG isDigitChar) (.seq (litS false ".") (.sym isSpaceChar))])),
     .seq (litS false "[") (.seq (.starL dotNoNl) (.seq (litS false "]")
       (.seq (litS false "(") (.seq (.starL dotNoNl) (litS false ")")))))],
    [],
    [".md", ".markdown"]⟩]

/-- The cumulative hit count of one signature: every pattern match counts
twice, every keyword match once. -/
def languageScore (code : List Char) (l : LanguagePattern) : Nat :=
  2 * (l.patterns.map (fun p => countMatches p code)).sum
    + (l.keywords.map (fun kw => countMatches (keywordRE kw) code)).sum

/-- `detectLanguage`: collect the positive scores in catalogue order, then
take the first entry that strictly exceeds the running maximum; `"text"`
when nothing scored. -/
def detectLanguage (code : List Char) : String :=
  let scores := languagePatterns.filterMap (fun l =>
    let s := languageScore code l
    if 0 < s then some (l.name, s) else none)
  let best := scores.foldl (fun acc e => if acc.2 < e.2 then e else acc) ("", 0)
  if best.1 = "" then "text" else best.1

/-! ## DOM model

A document subtree is a rose tree of element and text nodes.  Elements carry
a (lower-case) tag name, an ordered attribute list, and an ordered child
list.  In-place DOM mutation is made explicit: every mutating method of the
source is embedded as a function returning the updated tree. -/

inductive Node where
  | elem (tag : String) (attrs : List (String × String)) (children : List Node)
  | text (s : String)
deriving Repr

mutual

def Node.beq : Node → Node → Bool
  | .text s, .text t => s = t
  | .elem t1 a1 c1, .elem t2 a2 c2 => t1 = t2 && decide (a1 = a2) && Node.beqL c1 c2
  | .text _, .elem _ _ _ => false
  | .elem _ _ _, .text _ => false
termination_by structural n => n

def Node.beqL : List Node → List Node → Bool
  | [], [] => true
  | a :: as, b :: bs => Node.beq a b && Node.beqL as bs
  | [], _ :: _ => false
  | _ :: _, [] => false
termination_by structural l => l

end

mutual

theorem Node.beq_iff : ∀ a b : Node, Node.beq a b = true ↔ a = b
  | .text s, .text t => by simp [Node.beq]
  | .elem t1 a1 c1, .elem t2 a2 c2 => by
      simp [Node.beq, Node.beqL_iff c1 c2, and_assoc]
  | .text _, .elem _ _ _ => by simp [Node.beq]
  | .elem _ _ _, .text _ => by simp [Node.beq]

theorem Node.beqL_iff : ∀ a b : List Node, Node.beqL a b = true ↔ a = b
  | [], [] => by simp [Node.beqL]
  | a :: as, b :: bs => by
      simp [Node.beqL, Node.beq_iff a b, Node.beqL_iff as bs]
  | [], _ :: _ => by simp [Node.beqL]
  | _ :: _, [] => by simp [Node.beqL]

end

instance : DecidableEq Node := fun a b => decidable_of_iff _ (Node.beq_iff a b)

/-- The value DOM `getAttribute` returns: the first attribute of that name. -/
def getAttr (attrs : List (String × String)) (name : String) : Option String :=
  (attrs.find? (fun a => a.1 = name)).map (fun a => a.2)

def Node.attrsOf : Node → List (String × String)
  | .elem _ a _ => a
  | .text _ => []

def Node.tagOf : Node → String
  | .elem t _ _ => t
  | .text _ => ""

def Node.isElem : Node → Bool
  | .elem _ _ _ => true
  | .text _ => false

def Node.childrenOf : Node → List Node
  | .elem _ _ cs => cs
  | .text _ => []

/-- `element.getAttribute(name)`. -/
def nodeAttr (n : Node) (name : String) : Option String :=
  getAttr n.attrsOf name

mutual

/-- `element.textContent`, as a character list. -/
def textContentN : Node → List Char
  | .text s => s.data
  | .elem _ _ cs => textContentL cs
termination_by structural n => n

def textContentL : List Node → List Char
  | [] => []
  | n :: ns => textContentN n ++ textContentL ns
termination_by structural l => l

end

mutual

/-- Count the elements satisfying `p` in the subtree of `n`, including `n`
itself when it is an element (`querySelectorAll` from a parent). -/
def countElemsN (p : Node → Bool) : Node → Nat
  | .text _ => 0
  | .elem t a cs => (if p (.elem t a cs) then 1 else 0) + countElemsL p cs
termination_by structural n => n

def countElemsL (p : Node → Bool) : List Node → Nat
  | [] => 0
  | n :: ns => countElemsN p n + countElemsL p ns
termination_by structural l => l

end

mutual

/-- Is there an element satisfying `p` in the subtree of `n` (self included)? -/
def existsElemN (p : Node → Bool) : Node → Bool
  | .text _ => false
  | .elem t a cs => p (.elem t a cs) || existsElemL p cs
termination_by structural n => n

def existsElemL (p : Node → Bool) : List Node → Bool
  | [] => false
  | n :: ns => existsElemN p n || existsElemL p ns
termination_by structural l => l

end

mutual

/-- First element satisfying `p` in document (pre-)order, self included
(`querySelector` applied to a parent searches its descendant forest). -/
def findElemN (p : Node → Bool) : Node → Option Node
  | .text _ => none
  | .elem t a cs =>
      if p (.elem t a cs) then some (.elem t a cs) else findElemL p cs
termination_by structural n => n

def findElemL (p : Node → Bool) : List Node → Option Node
  | [] => none
  | n :: ns =>
      match findElemN p n with
      | some r => some r
      | none => findElemL p ns
termination_by structural l => l

end

mutual

/-- All elements satisfying `p`, in document order, self included. -/
def collectElemsN (p : Node → Bool) : Node → List Node
  | .text _ => []
  | .elem t a cs =>
      (if p (.elem t a cs) then [Node.elem t a cs] else []) ++ collectElemsL p cs
termination_by structural n => n

def collectElemsL (p : Node → Bool) : List Node → List Node
  | [] => []
  | n :: ns => collectElemsN p n ++ collectElemsL p ns
termination_by structural l => l

end

mutual

/-- Remove every descendant element matching `p` (subtree and all); the root
is kept (`querySelectorAll(sel)` never returns the query root).  The
predicate is evaluated on the original subtree of each node, which agrees
with the source's snapshot-then-remove order because the predicates in use
depend only on the node's own subtree. -/
def removeMatchingN (p : Node → Bool) : Node → Node
  | .text s => .text s
  | .elem t a cs => .elem t a (removeMatchingL p cs)
termination_by structural n => n

def removeMatchingL (p : Node → Bool) : List Node → List Node
  | [] => []
  | .text s :: ns => .text s :: removeMatchingL p ns
  | .elem t a cs :: ns =>
      if p (.elem t a cs) then removeMatchingL p ns
      else removeMatchingN p (.elem t a cs) :: removeMatchingL p ns
termination_by structural l => l

end

mutual

/-- All elements of the subtree satisfy `p` (self included). -/
def allElemsN (p : Node → Bool) : Node → Bool
  | .text _ => true
  | .elem t a cs => p (.elem t a cs) && allElemsL p cs
termination_by structural n => n

def allElemsL (p : Node → Bool) : List Node → Bool
  | [] => true
  | n :: ns => allElemsN p n && allElemsL p ns
termination_by structural l => l

end

/-- JS `String.startsWith` (on the character lists). -/
def strStartsWith (s pre : String) : Bool :=
  pre.data.isPrefixOf s.data

/-- Split a character list at a separator character. -/
def splitOnChar (sep : Char) : List Char → List (List Char)
  | [] => [[]]
  | c :: rest =>
      if c = sep then [] :: splitOnChar sep rest
      else
        match splitOnChar sep rest with
        | [] => [[c]]
        | t :: ts => (c :: t) :: ts

/-- Whitespace-separated tokens (drops empty tokens). -/
def splitWs (s : List Char) : List String :=
  ((splitOnChar ' ' (s.map (fun c => if isSpaceChar c then ' ' else c))).filter
    (fun t => t ≠ [])).map String.mk

/-- Split a class attribute into class tokens (whitespace separated). -/
def classTokens (s : String) : List String :=
  splitWs s.data

/-- Value of an inline css declaration in a style attribute: declarations are
semicolon-separated `prop:value` pairs, names and values trimmed (the
`CSSStyleDeclaration` view used by `el.style.display` and friends). -/
def styleProp (style : String) (prop : String) : Option String :=
  ((splitOnChar ';' style.data).filterMap (fun d =>
    match splitOnChar ':' d with
    | [p, v] => if jsTrim p = prop.data then some (String.mk (jsTrim v)) else none
    | _ => none)).head?

/-- The style attribute of an element ("" when absent, like `el.style` on an
element without one). -/
def styleAttrOf (n : Node) : String := (nodeAttr n "style").getD ""

/-! ## ContentExtractor

Embedded from `ContentExtractor`: `removeNoise`, `findCandidates`,
`calculateLinkDensity`, `calculateContentScore` and `extractMainContent`.
The document handed to `extractMainContent` is represented by its body
element; the in-place `removeNoise` mutation shows up as the first component
of the returned pair. -/

/-- CSS selectors of the shapes used by the extractor. -/
inductive Selector where
  | tagSel (s : String)
  | clsSel (s : String)
  | idSel (s : String)
  | roleSel (s : String)

/-- Selector matching on an element. -/
def matchesSel (sel : Selector) (n : Node) : Bool :=
  n.isElem &&
    match sel with
    | .tagSel s => n.tagOf = s
    | .clsSel s => (classTokens ((nodeAttr n "class").getD "")).contains s
    | .idSel s => nodeAttr n "id" = some s
    | .roleSel s => nodeAttr n "role" = some s

/-- The `noiseSelectors` list of `removeNoise`, in source order. -/
def noiseSelectors : List Selector :=
  [.tagSel "nav", .clsSel "nav", .clsSel "navigation", .clsSel "navbar", .clsSel "menu",
   .clsSel "breadcrumb", .clsSel "pagination", .clsSel "pager",
   .tagSel "header", .tagSel "footer", .clsSel "header", .clsSel "footer",
   .clsSel "site-header", .clsSel "site-footer",
   .clsSel "sidebar", .clsSel "side-bar", .idSel "sidebar", .clsSel "aside", .tagSel "aside",
   .clsSel "comments", .clsSel "comment-list", .idSel "comments", .clsSel "disqus",
   .clsSel "advertisement", .clsSel "ad", .clsSel "ads", .clsSel "advertisement-container",
   .clsSel "social-share", .clsSel "social-links", .clsSel "share-buttons",
   .clsSel "related-posts", .clsSel "recommended", .clsSel "sponsored",
   .tagSel "form", .clsSel "form", .clsSel "search-form", .clsSel "subscribe",
   .clsSel "newsletter",
   .tagSel "iframe", .tagSel "embed", .tagSel "object",
   .tagSel "script", .tagSel "style", .tagSel "noscript",
   .clsSel "metadata", .clsSel "post-meta", .clsSel "entry-meta", .clsSel "byline",
   .clsSel "author-info", .clsSel "tags", .clsSel "categories", .clsSel "taxonomy"]

/-- The inline-style hidden test of `removeNoise` (`getComputedStyle` yields
nothing on elements of a document that is not being rendered, so only the
inline style object contributes). -/
def styleHidden (n : Node) : Bool :=
  styleProp (styleAttrOf n) "display" = some "none" ||
  styleProp (styleAttrOf n) "visibility" = some "hidden" ||
  styleProp (styleAttrOf n) "opacity" = some "0"

/-- `aria-hidden="true"`. -/
def ariaHiddenTrue (n : Node) : Bool :=
  nodeAttr n "aria-hidden" = some "true"

/-- `removeNoise`: remove each noise selector's matches in order, then remove
style-hidden and `aria-hidden` elements (two checks of the same sweep). -/
def removeNoise (body : Node) : Node :=
  let afterSel := noiseSelectors.foldl (fun acc sel => removeMatchingN (matchesSel sel) acc) body
  removeMatchingN (fun n => styleHidden n || ariaHiddenTrue n) afterSel

/-- `minContentLength`. -/
def minContentLength : Nat := 200

/-- `minScore`. -/
def minScore : ℚ := 20

/-- The `contentSelectors` list of `findCandidates`, in source order
(`article` appears twice in the source list). -/
def contentSelectors : List Selector :=
  [.tagSel "article", .roleSel "main", .tagSel "main", .clsSel "content", .clsSel "post",
   .clsSel "article", .clsSel "entry-content", .idSel "content", .clsSel "main-content",
   .clsSel "post-content", .clsSel "article-content", .tagSel "article"]

/-- `findCandidates`: the first match of each semantic selector when long
enough; if none qualify, every div with enough text. -/
def findCandidates (root : Node) : List Node :=
  let candidates := contentSelectors.filterMap (fun sel =>
    match findElemL (matchesSel sel) root.childrenOf with
    | some el =>
        if minContentLength ≤ (textContentN el).length then some el else none
    | none => none)
  if candidates.isEmpty then
    collectElemsL (fun n =>
      n.tagOf = "div" && minContentLength ≤ (textContentN n).length) root.childrenOf
  else candidates

/-- Number of occurrences of a character in the element text. -/
def countChar (c : Char) (s : List Char) : Nat :=
  (s.filter (fun x => x = c)).length

/-- Total text length of the anchor descendants (`querySelectorAll('a')`),
each anchor contributing its own `textContent` length. -/
def anchorTextLength (n : Node) : Nat :=
  ((collectElemsL (fun m => m.tagOf = "a") n.childrenOf).map
    (fun a => (textContentN a).length)).sum

/-- `calculateLinkDensity`: anchor text length over total text length,
where a zero total is replaced by 1. -/
def calculateLinkDensity (n : Node) : ℚ :=
  let linkLength : ℚ := anchorTextLength n
  let textLength : Nat := (textContentN n).length
  linkLength / (if textLength = 0 then 1 else (textLength : ℚ))

/-- `calculateContentScore`, arithmetic over ℚ (all the values reached by
the claims are exactly representable). -/
def calculateContentScore (n : Node) : ℚ :=
  let textLength := (textContentN n).length
  if textLength = 0 then 0 else
  let linkDensity := calculateLinkDensity n
  let text := textContentN n
  let punctuationCount :=
    countChar ',' text + countChar '.' text + countChar '?' text + countChar '!' text
  let score0 : ℚ := (textLength : ℚ) * (1 - linkDensity)
  let score1 := score0 + (punctuationCount : ℚ) * 10
  let paragraphCount := countElemsL (fun m => m.tagOf = "p") n.childrenOf
  let score2 := score1 + (paragraphCount : ℚ) * 5
  let imageCount := countElemsL (fun m => m.tagOf = "img") n.childrenOf
  let score3 := score2 + (imageCount : ℚ) * 3
  let headingCount := countElemsL
    (fun m => ["h1", "h2", "h3", "h4", "h5", "h6"].contains m.tagOf) n.childrenOf
  let score4 := score3 + (headingCount : ℚ) * 10
  let score5 := if linkDensity > 1/2 then score4 * (1/2) else score4
  max 0 score5

/-- Stable descending insertion (the sort comparator `b.score - a.score` on a
stable `Array.sort`): an element is placed before the first strictly smaller
score, after equal ones. -/
def insertDesc (e : Node × ℚ) : List (Node × ℚ) → List (Node × ℚ)
  | [] => [e]
  | x :: xs => if x.2 < e.2 then e :: x :: xs else x :: insertDesc e xs

def sortByScoreDesc (l : List (Node × ℚ)) : List (Node × ℚ) :=
  l.foldl (fun acc e => insertDesc e acc) []

/-- `extractMainContent`: returns the pair (body after the in-place
`removeNoise` mutation, selected element).  The selected element is the top
scorer when its score reaches `minScore`, the (mutated) body otherwise. -/
def extractMainContent (body : Node) : Node × Node :=
  let b := removeNoise body
  let candidates := findCandidates b
  let scored := candidates.map (fun el => (el, calculateContentScore el))
  let sorted := sortByScoreDesc scored
  match sorted with
  | [] => (b, b)
  | best :: _ => if minScore ≤ best.2 then (b, best.1) else (b, b)

/-! ## NoiseFilter

Embedded from `NoiseFilter`.  `clean` parses an HTML string, runs five
in-place passes over the body, and returns `body.innerHTML`; it is embedded
on the body's child forest, with the serialize/re-parse boundary between two
`clean` calls modelled by `renormL` (re-parsing a serialized forest merges
adjacent text nodes and drops empty ones). -/

/-- The hidden test of `removeInvisibleElements`: inline style, `aria-hidden`
and the `hidden` attribute (the boolean `hidden` property reflects the
attribute's presence; `getComputedStyle` contributes nothing on a parsed,
unrendered document). -/
def nfHidden (n : Node) : Bool :=
  styleHidden n || ariaHiddenTrue n || (nodeAttr n "hidden").isSome

/-- `removeInvisibleElements` on the body's child forest. -/
def removeInvisibleL (f : List Node) : List Node :=
  removeMatchingL nfHidden f

/-- HTML void elements exempted by `removeEmptyElements`. -/
def voidTags : List String :=
  ["br", "hr", "img", "input", "area", "base", "col", "embed", "link", "meta", "source",
   "track", "wbr"]

/-- Tags of the `img, svg, canvas, video` media query. -/
def mediaTags : List String := ["img", "svg", "canvas", "video"]

/-- Tags of the `input, textarea, select` form-control query. -/
def inputTags : List String := ["input", "textarea", "select"]

/-- `textContent.trim().length > 0`. -/
def hasTextB (n : Node) : Bool :=
  0 < (jsTrim (textContentN n)).length

/-- `querySelector('img, svg, canvas, video') !== null` (descendants only). -/
def hasImageB (n : Node) : Bool :=
  existsElemL (fun m => mediaTags.contains m.tagOf) n.childrenOf

/-- `querySelector('br') !== null`. -/
def hasBrB (n : Node) : Bool :=
  existsElemL (fun m => m.tagOf = "br") n.childrenOf

/-- `querySelector('input, textarea, select') !== null`. -/
def hasInputB (n : Node) : Bool :=
  existsElemL (fun m => inputTags.contains m.tagOf) n.childrenOf

/-- The removal test of `removeEmptyElements`. -/
def nfEmpty (n : Node) : Bool :=
  !voidTags.contains n.tagOf && !hasTextB n && !hasImageB n && !hasBrB n && !hasInputB n

/-- `removeEmptyElements` on the body's child forest (the test of each
element depends only on its own subtree, so snapshot-then-remove agrees
with the recursive filter). -/
def removeEmptyL (f : List Node) : List Node :=
  removeMatchingL nfEmpty f

/-- Drop attribute re-declarations, first occurrence wins. -/
def dedupAttrsGo (seen : List String) : List (String × String) → List (String × String)
  | [] => []
  | a :: rest =>
      if seen.contains a.1 then dedupAttrsGo seen rest
      else a :: dedupAttrsGo (a.1 :: seen) rest

def dedupAttrs (attrs : List (String × String)) : List (String × String) :=
  dedupAttrsGo [] attrs

mutual

/-- `removeDuplicateAttributes`. -/
def dedupAttrsN : Node → Node
  | .text s => .text s
  | .elem t a cs => .elem t (dedupAttrs a) (dedupAttrsL cs)
termination_by structural n => n

def dedupAttrsL : List Node → List Node
  | [] => []
  | n :: ns => dedupAttrsN n :: dedupAttrsL ns
termination_by structural l => l

end

/-- The global attribute allow-list of `cleanAttributes`. -/
def nfGlobalAllowed : List String := ["class", "id", "title"]

/-- The per-tag attribute allow-lists of `cleanAttributes` (the
`allowedAttributes` object minus its `global` entry). -/
def nfTagAllowedTable : List (String × List String) :=
  [("a", ["href", "target", "rel", "download"]),
   ("img", ["src", "alt", "title", "loading", "width", "height"]),
   ("video", ["src", "poster", "controls", "loop", "muted", "autoplay"]),
   ("audio", ["src", "controls", "loop", "muted", "autoplay"]),
   ("iframe", ["src", "width", "height", "frameborder", "allow", "allowfullscreen"]),
   ("source", ["src", "type"]),
   ("td", ["colspan", "rowspan", "headers"]),
   ("th", ["colspan", "rowspan", "headers", "scope"]),
   ("time", ["datetime"]),
   ("data", ["value", "data-type"]),
   ("code", ["class"]),
   ("pre", ["class"])]

/-- `allowedAttributes[tagName] || []`. -/
def nfTagAllowed (tag : String) : List String :=
  ((nfTagAllowedTable.find? (fun e => e.1 = tag)).map Prod.snd).getD []

/-- Is this attribute kept by `cleanAttributes` on an element of this tag? -/
def nfAttrKept (tag : String) (name : String) : Bool :=
  strStartsWith name "data-" || strStartsWith name "aria-" ||
    (nfGlobalAllowed ++ nfTagAllowed tag).contains name

mutual

/-- `cleanAttributes`. -/
def cleanAttrsN : Node → Node
  | .text s => .text s
  | .elem t a cs => .elem t (a.filter (fun p => nfAttrKept t p.1)) (cleanAttrsL cs)
termination_by structural n => n

def cleanAttrsL : List Node → List Node
  | [] => []
  | n :: ns => cleanAttrsN n :: cleanAttrsL ns
termination_by structural l => l

end

/-- Collapse whitespace runs to single spaces; `prevSp` records whether the
previous character was part of a run. -/
def wsCollapseGo : Bool → List Char → List Char
  | _, [] => []
  | prevSp, c :: rest =>
      if isSpaceChar c then
        if prevSp then wsCollapseGo true rest else ' ' :: wsCollapseGo true rest
      else c :: wsCollapseGo false rest

/-- `nodeValue.trim().replace(/\s+/g, ' ')`. -/
def normalizeText (s : List Char) : List Char :=
  wsCollapseGo false (jsTrim s)

mutual

/-- `normalizeWhitespace` (the tree walker visits every text node). -/
def normalizeWsN : Node → Node
  | .text s => .text (String.mk (normalizeText s.data))
  | .elem t a cs => .elem t a (normalizeWsL cs)
termination_by structural n => n

def normalizeWsL : List Node → List Node
  | [] => []
  | n :: ns => normalizeWsN n :: normalizeWsL ns
termination_by structural l => l

end

mutual

/-- The serialize/re-parse normal form of `innerHTML` round-trips: adjacent
text nodes merge and empty text nodes disappear. -/
def renormN : Node → Node
  | .text s => .text s
  | .elem t a cs => .elem t a (renormL cs)
termination_by structural n => n

def renormL : List Node → List Node
  | [] => []
  | .elem t a cs :: ns => renormN (.elem t a cs) :: renormL ns
  | .text s :: ns =>
      match renormL ns with
      | .text s2 :: tl => if s ++ s2 = "" then tl else .text (s ++ s2) :: tl
      | tl => if s = "" then tl else .text s :: tl
termination_by structural l => l

end

/-- `NoiseFilter.clean` on the body's child forest: the five passes in
source order, then the serialize/re-parse boundary. -/
def nfClean (f : List Node) : List Node :=
  renormL (normalizeWsL (cleanAttrsL (dedupAttrsL (removeEmptyL (removeInvisibleL f)))))

/-- Attributes dropped by `sanitize`: `on*` event handlers, and an `href`
whose value starts with `javascript:`. -/
def sanAttrKept (p : String × String) : Bool :=
  !(strStartsWith p.1 "on") && !(p.1 = "href" && strStartsWith p.2 "javascript:")

mutual

/-- `NoiseFilter.sanitize` on the body's child forest. -/
def sanitizeN : Node → Node
  | .text s => .text s
  | .elem t a cs => .elem t (a.filter sanAttrKept) (sanitizeL cs)
termination_by structural n => n

def sanitizeL : List Node → List Node
  | [] => []
  | n :: ns => sanitizeN n :: sanitizeL ns
termination_by structural l => l

end

/-! ## TableFormatter

Embedded from `TableFormatter`: cell/row parsing, span expansion and
Markdown rendering.  JS numbers appear only through `parseInt`, `+` on cell
spans and `Math.max`; this integer fragment is modelled by `JNum` with
`none` playing NaN (and the `Math.max()` of an empty spread). -/

/-- JS number (integer fragment): `none` is NaN. -/
abbrev JNum := Option Int

def jadd : JNum → JNum → JNum
  | some a, some b => some (a + b)
  | _, _ => none

def jmax : JNum → JNum → JNum
  | some a, some b => some (max a b)
  | _, _ => none

/-- JS `<` (false whenever one side is NaN). -/
def jlt : JNum → JNum → Bool
  | some a, some b => a < b
  | _, _ => false

/-- `Math.max(...xs)`; the empty spread (minus infinity) is folded into
`none`, which no claim exercises. -/
def jmaxArr : List JNum → JNum
  | [] => none
  | x :: xs => xs.foldl jmax x

/-- JS `parseInt(s, 10)`: skip whitespace, optional sign, leading digits. -/
def jsParseInt (s : String) : JNum :=
  let t := s.data.dropWhile isSpaceChar
  let signed : Int × List Char :=
    match t with
    | '-' :: r => (-1, r)
    | '+' :: r => (1, r)
    | r => (1, r)
  let ds := signed.2.takeWhile isDigitChar
  if ds = [] then none
  else some (signed.1 * (ds.foldl (fun n c => 10 * n + (c.toNat - 48)) 0 : Nat))

/-- Number of loop iterations of `for (i = 0; i < v; i++)` for a JS value
`v` (zero for NaN and non-positive values). -/
def jIter : JNum → Nat
  | some n => n.toNat
  | none => 0

/-- The data read from one cell element by `parseRow`. -/
structure CellElem where
  tagName : String
  colspanAttr : Option String
  rowspanAttr : Option String
  styleAttr : Option String
  classAttr : Option String
  textContent : String
deriving DecidableEq, Repr

/-- One `tr` as offered to `parseTable`: whether its parent section is a
`thead`, and its `td, th` cells. -/
structure RowElem where
  inThead : Bool
  cells : List CellElem
deriving DecidableEq, Repr

structure TableCell where
  text : String
  colspan : JNum
  rowspan : JNum
  isHeader : Bool
  alignment : Option String
deriving DecidableEq, Repr

structure TableRow where
  cells : List TableCell
  isHeader : Bool
deriving DecidableEq, Repr

structure Table where
  rows : List TableRow
  hasHeaders : Bool
  columns : JNum
deriving DecidableEq, Repr

/-- Escape pipes (`replace(/\|/g, '\\|')`). -/
def escPipes : List Char → List Char
  | [] => []
  | c :: r => if c = '|' then '\\' :: '|' :: escPipes r else c :: escPipes r

/-- `cleanCellText`: trim, collapse whitespace, escape pipes. -/
def cleanCellText (s : String) : String :=
  String.mk (escPipes (normalizeText s.data))

/-- `detectAlignment` from style/class hints. -/
def detectAlignment (c : CellElem) : Option String :=
  let style := (c.styleAttr.getD "").data
  let cls := (c.classAttr.getD "").data
  if jsIncludes style "text-align:center".data || jsIncludes cls "text-center".data then
    some "center"
  else if jsIncludes style "text-align:right".data || jsIncludes cls "text-right".data then
    some "right"
  else if jsIncludes style "text-align:left".data || jsIncludes cls "text-left".data then
    some "left"
  else none

/-- `parseRow`. -/
def parseRow (cells : List CellElem) (isHeader : Bool) : TableRow :=
  ⟨cells.map (fun c =>
    ⟨cleanCellText c.textContent,
     jsParseInt (c.colspanAttr.getD "1"),
     jsParseInt (c.rowspanAttr.getD "1"),
     c.tagName = "TH" || isHeader,
     detectAlignment c⟩),
   isHeader⟩

/-- The colspan sum of a row (`cells.reduce((sum, c) => sum + c.colspan, 0)`). -/
def rowWidth (r : TableRow) : JNum :=
  r.cells.foldl (fun s c => jadd s c.colspan) (some 0)

/-- `parseTable` applied to the row list (header-section rows listed first,
as the two selector queries order them). -/
def parseTable (rows : List RowElem) : Table :=
  let processed := rows.foldl
    (fun (acc : List TableRow × Bool) re =>
      let isHeaderRow := re.inThead || re.cells.all (fun c => c.tagName = "TH")
      let hasHeaders := acc.2 || (isHeaderRow && !re.cells.isEmpty)
      (acc.1 ++ [parseRow re.cells isHeaderRow], hasHeaders))
    ([], false)
  ⟨processed.1, processed.2, jmaxArr (processed.1.map rowWidth)⟩

/-- `expandRow`: each cell yields `colspan` grid cells, the original text on
the first and empty continuation cells after it. -/
def expandRow (r : TableRow) : List TableCell :=
  (r.cells.map (fun c =>
    (List.range (jIter c.colspan)).map (fun i =>
      TableCell.mk (if i = 0 then c.text else "") (some 1) c.rowspan c.isHeader
        c.alignment))).flatten

/-- Render one row line: `'| ' + cells.map(c => c.text || '').join(' | ') + ' |'`. -/
def renderLine (cells : List TableCell) : String :=
  "| " ++ String.intercalate " | " (cells.map (fun c => c.text)) ++ " |"

/-- The separator marker of one header cell. -/
def sepMarker (c : TableCell) : String :=
  match c.alignment with
  | some a => if a = "center" then ":---:" else if a = "right" then "---:" else "---"
  | none => "---"

/-- The fold of the header-row search: first row whose width strictly
exceeds the running maximum (row identity is positional, matching the
reference comparison `row === headerRow`). -/
def pickHeaderRow (rows : List TableRow) : Option (Nat × TableRow) :=
  (rows.enum.foldl
    (fun (acc : Option (Nat × TableRow) × JNum) e =>
      if jlt acc.2 (rowWidth e.2) then (some e, rowWidth e.2) else acc)
    (none, some 0)).1

/-- `convertTableToMarkdown`. -/
def convertTableToMarkdown (t : Table) : String :=
  if t.rows.length = 0 then "" else
  match pickHeaderRow t.rows with
  | none => ""
  | some he =>
      let headerCells := expandRow he.2
      let line1 := renderLine headerCells
      let line2 := "| " ++ String.intercalate " | " (headerCells.map sepMarker) ++ " |"
      let bodyLines := (t.rows.enum.filter (fun e => e.1 ≠ he.1)).map
        (fun e => renderLine (expandRow e.2))
      String.intercalate "\n" (line1 :: line2 :: bodyLines) ++ "\n\n"

/-! ## TaskQueue

Embedded from `TaskQueue` as an explicit state machine.  JS runs the queue
on a single thread: the whole synchronous prefix of `processNext` (filter,
slice, and each spawned `processTask` up to its first `await`) runs without
interleaving, so it is one atomic step; each conversion settles later in its
own step, with the promise outcome carried by the step.  Callback
invocations and the history write are recorded as events. -/

inductive TaskStatus where
  | pending
  | processing
  | completed
  | failed
deriving DecidableEq, Repr

structure ConversionResult where
  markdown : String
  title : String
  url : String
  timestamp : Nat
deriving DecidableEq, Repr

/-- `ConversionTask` (the `type` field is spelled `ttype`). -/
structure ConversionTask where
  id : String
  url : String
  ttype : String
  fileType : Option String
  status : TaskStatus
  result : Option ConversionResult
  error : Option String
  createdAt : Nat
  completedAt : Option Nat
deriving DecidableEq, Repr

structure QueueState where
  tasks : List ConversionTask
  processing : List String
  completedIds : List String
  failedIds : List String
  concurrent : Nat
  autoStart : Bool
deriving DecidableEq, Repr

inductive TaskEvent where
  | progress (id : String)
  | complete (id : String) (r : ConversionResult)
  | errored (id : String) (msg : String)
  | savedHistory (id : String)
deriving DecidableEq, Repr

/-- `options.concurrent || 3` (zero is falsy). -/
def mkConcurrent : Option Nat → Nat
  | none => 3
  | some c => if c = 0 then 3 else c

/-- A freshly constructed queue. -/
def initQueue (concurrent : Nat) (autoStart : Bool) : QueueState :=
  ⟨[], [], [], [], concurrent, autoStart⟩

/-- `Set.add`. -/
def setAdd (l : List String) (id : String) : List String :=
  if l.contains id then l else l ++ [id]

/-- `Set.delete`. -/
def setDel (l : List String) (id : String) : List String :=
  l.filter (fun x => x ≠ id)

/-- Update the task stored under `id` (the `Map` holds at most one). -/
def updateTask (tasks : List ConversionTask) (id : String)
    (f : ConversionTask → ConversionTask) : List ConversionTask :=
  tasks.map (fun t => if t.id = id then f t else t)

/-- The synchronous prefix of `processTask`: mark the task `processing` and
add it to the processing set. -/
def startTask (st : QueueState) (id : String) : QueueState :=
  ⟨updateTask st.tasks id (fun t =>
     ⟨t.id, t.url, t.ttype, t.fileType, .processing, t.result, t.error, t.createdAt,
      t.completedAt⟩),
   setAdd st.processing id, st.completedIds, st.failedIds, st.concurrent, st.autoStart⟩

/-- The success continuation of `processTask`. -/
def settleOk (st : QueueState) (id : String) (r : ConversionResult) (now : Nat) : QueueState :=
  ⟨updateTask st.tasks id (fun t =>
     ⟨t.id, t.url, t.ttype, t.fileType, .completed, some r, t.error, t.createdAt, some now⟩),
   setDel st.processing id, setAdd st.completedIds id, st.failedIds, st.concurrent,
   st.autoStart⟩

/-- The catch branch of `processTask`: status `failed`, the error message
stored on the task, the task dropped from the processing set. -/
def settleErr (st : QueueState) (id : String) (msg : String) (now : Nat) : QueueState :=
  ⟨updateTask st.tasks id (fun t =>
     ⟨t.id, t.url, t.ttype, t.fileType, .failed, t.result, some msg, t.createdAt, some now⟩),
   setDel st.processing id, st.completedIds, setAdd st.failedIds id, st.concurrent,
   st.autoStart⟩

/-- Settlement of one conversion with the given `executeTask` outcome. -/
def settleTask (st : QueueState) (id : String) (outcome : Except String ConversionResult)
    (now : Nat) : QueueState :=
  match outcome with
  | .ok r => settleOk st id r now
  | .error e => settleErr st id e now

/-- One whole `processTask` call: the catch swallows the exception, so the
function is total — nothing propagates to the scheduler.  Returns the new
queue state and the emitted callback/history events. -/
def processTaskRun (st : QueueState) (id : String)
    (outcome : Except String ConversionResult) (now : Nat) (cb : Bool) :
    QueueState × List TaskEvent :=
  let st1 := startTask st id
  match outcome with
  | .ok r =>
      (settleOk st1 id r now,
       (if cb then [TaskEvent.progress id] else []) ++
       (if cb then [TaskEvent.complete id r] else []) ++
       [TaskEvent.savedHistory id])
  | .error e =>
      (settleErr st1 id e now,
       (if cb then [TaskEvent.progress id] else []) ++
       (if cb then [TaskEvent.errored id e] else []))

/-- The synchronous body of `processNext`: when below the limit, take pending
tasks not already processing, up to the free slots, and start each. -/
def processNextStep (st : QueueState) : QueueState :=
  if st.processing.length < st.concurrent then
    let batch := (st.tasks.filter (fun t =>
      t.status = TaskStatus.pending && !st.processing.contains t.id)).take
      (st.concurrent - st.processing.length)
    batch.foldl (fun s t => startTask s t.id) st
  else st

/-- `addTask` bookkeeping (the created task is pending with a fresh id). -/
def addTaskState (st : QueueState) (t : ConversionTask) : QueueState :=
  ⟨st.tasks ++ [t], st.processing, st.completedIds, st.failedIds, st.concurrent, st.autoStart⟩

/-- `cancelTask`. -/
def cancelTaskState (st : QueueState) (id : String) : QueueState :=
  match st.tasks.find? (fun t => t.id = id) with
  | none => st
  | some t =>
      if t.status = TaskStatus.completed || t.status = TaskStatus.failed then st
      else
        ⟨updateTask st.tasks id (fun u =>
           ⟨u.id, u.url, u.ttype, u.fileType, .pending, u.result, u.error, u.createdAt,
            u.completedAt⟩),
         setDel st.processing id, st.completedIds, st.failedIds, st.concurrent, st.autoStart⟩

/-- `retryTask`. -/
def retryTaskState (st : QueueState) (id : String) : QueueState :=
  match st.tasks.find? (fun t => t.id = id) with
  | none => st
  | some t =>
      if t.status = TaskStatus.failed then
        ⟨updateTask st.tasks id (fun u =>
           ⟨u.id, u.url, u.ttype, u.fileType, .pending, u.result, none, u.createdAt,
            u.completedAt⟩),
         st.processing, st.completedIds, setDel st.failedIds id, st.concurrent, st.autoStart⟩
      else st

/-- `removeTask`. -/
def removeTaskState (st : QueueState) (id : String) : QueueState :=
  ⟨st.tasks.filter (fun t => t.id ≠ id), setDel st.processing id,
   setDel st.completedIds id, setDel st.failedIds id, st.concurrent, st.autoStart⟩

/-- `clear`. -/
def clearState (st : QueueState) : QueueState :=
  ⟨[], [], [], [], st.concurrent, st.autoStart⟩

/-- `pause`. -/
def pauseState (st : QueueState) : QueueState :=
  ⟨st.tasks, st.processing, st.completedIds, st.failedIds, st.concurrent, false⟩

/-- `resume` (its `processNext` call is a separate `sched` step). -/
def resumeState (st : QueueState) : QueueState :=
  ⟨st.tasks, st.processing, st.completedIds, st.failedIds, st.concurrent, true⟩

/-- The queue's step relation.  A settlement step carries the conversion
outcome; it is not guarded, which only makes the system more permissive
than the implementation. -/
inductive QStep : QueueState → QueueState → Prop where
  | add (st : QueueState) (t : ConversionTask) (hfresh : ∀ u ∈ st.tasks, u.id ≠ t.id)
      (hpend : t.status = TaskStatus.pending) : QStep st (addTaskState st t)
  | sched (st : QueueState) : QStep st (processNextStep st)
  | settle (st : QueueState) (id : String) (outcome : Except String ConversionResult)
      (now : Nat) : QStep st (settleTask st id outcome now)
  | cancel (st : QueueState) (id : String) : QStep st (cancelTaskState st id)
  | retry (st : QueueState) (id : String) : QStep st (retryTaskState st id)
  | remove (st : QueueState) (id : String) : QStep st (removeTaskState st id)
  | clear (st : QueueState) : QStep st (clearState st)
  | pause (st : QueueState) : QStep st (pauseState st)
  | resume (st : QueueState) : QStep st (resumeState st)

/-- Reachability by queue steps. -/
inductive QReach : QueueState → QueueState → Prop where
  | refl (st : QueueState) : QReach st st
  | tail {st₁ st₂ st₃ : QueueState} : QReach st₁ st₂ → QStep st₂ st₃ → QReach st₁ st₃

/-- Number of tasks whose status is `processing`. -/
def processingCount (st : QueueState) : Nat :=
  (st.tasks.filter (fun t => t.status = TaskStatus.processing)).length

/-! # Claims -/

/-! ## C4 — math placeholder round-trip -/

set_option maxRecDepth 4000

/-- C4: the claim says `extractWithReplacement` followed by `restoreFormulas`
with no intervening edits reproduces `$f$` verbatim.  It does not: the
inline placeholder span inserted for `$x$` is itself matched by the later
math-class span pattern, which re-extracts an empty formula and renumbers
the placeholder; restoration then rebuilds from the empty formula, and the
`$$` in the string replacement collapses to a single `$` under JS
`$`-substitution.  The same run shows the placeholder table for one formula
holding two entries (`["x", ""]`), which also contradicts the repo's own
MathFormatter unit test (`formulas` expected to have length 1).  Block
classification (backslash and length over 50) matches the claim, but the
round-trip conjunct fails, so the claim fails on a well-formed input. -/
theorem C4_math_roundtrip_bug :
    (extractWithReplacement "$x$".data).2 = ["x".data, []] ∧
    restoreFormulas (extractWithReplacement "$x$".data).1
      (extractWithReplacement "$x$".data).2 = "$".data ∧
    restoreFormulas (extractWithReplacement "$x$".data).1
      (extractWithReplacement "$x$".data).2 ≠ "$x$".data := by
  refine ⟨by decide, by decide, by decide⟩

/-! ## C10 — `containsMath` determinism -/

/-- C10: the claim says two consecutive `containsMath(s)` calls on one
`MathFormatter` agree.  Every pattern is constructed with the `g` flag, so
`pattern.test` advances the pattern's `lastIndex`: on a fresh formatter
`containsMath('$x^2$')` is `true` (and leaves the inline pattern's
`lastIndex` at 5); the second identical call resumes the inline pattern at
index 5 and finds nothing, returning `false`.  The code's own doc comment
and unit tests treat `containsMath` as a pure content test, so this is a
defect of the code, not of the claim. -/
theorem C10_containsMath_stateful :
    (containsMath freshMathFormatter "$x^2$".data).1 = true ∧
    (containsMath (containsMath freshMathFormatter "$x^2$".data).2 "$x^2$".data).1 = false := by
  refine ⟨by decide, by decide⟩

/-! ## C6 — `sanitize` output -/

/-- The claim's property of a sanitized forest: no event-handler attribute
and no `href` or `src` attribute with an executable-script scheme. -/
def claimSanitizedB (f : List Node) : Bool :=
  allElemsL (fun n => n.attrsOf.all (fun p =>
    !(strStartsWith p.1 "on") &&
    !((p.1 = "href" || p.1 = "src") && strStartsWith p.2 "javascript:"))) f

/-- The property `sanitize` actually enforces: `src` is never examined. -/
def actualSanitizedB (f : List Node) : Bool :=
  allElemsL (fun n => n.attrsOf.all sanAttrKept) f

mutual

theorem sanitizeN_enforces : ∀ n : Node,
    allElemsN (fun m => m.attrsOf.all sanAttrKept) (sanitizeN n) = true
  | .text _ => by simp [sanitizeN, allElemsN]
  | .elem t a cs => by
      simp only [sanitizeN, allElemsN, Bool.and_eq_true]
      refine ⟨?_, sanitizeL_enforces cs⟩
      simp only [Node.attrsOf, List.all_eq_true]
      intro p hp
      exact (List.mem_filter.mp hp).2

theorem sanitizeL_enforces : ∀ f : List Node,
    allElemsL (fun m => m.attrsOf.all sanAttrKept) (sanitizeL f) = true
  | [] => by simp [sanitizeL, allElemsL]
  | n :: ns => by
      simp only [sanitizeL, allElemsL, Bool.and_eq_true]
      exact ⟨sanitizeN_enforces n, sanitizeL_enforces ns⟩

end

/-- C6 counterexample: an `iframe` whose `src` is a `javascript:` URL passes
through `sanitize` unchanged, so the output violates the claimed property
(the code only tests `href` values, never `src`). -/
theorem C6_sanitize_counterexample :
    sanitizeL [.elem "iframe" [("src", "javascript:alert(1)")] []] =
      [.elem "iframe" [("src", "javascript:alert(1)")] []] ∧
    claimSanitizedB (sanitizeL [.elem "iframe" [("src", "javascript:alert(1)")] []]) = false := by
  refine ⟨by decide, by decide⟩

/-- C6 amended: for every input forest, the output of `sanitize` contains no
attribute named `on*` and no `href` attribute whose value starts with
`javascript:`; `src` attributes are not filtered. -/
theorem C6_sanitize_amended : ∀ f : List Node, actualSanitizedB (sanitizeL f) = true := by
  intro f
  exact sanitizeL_enforces f

/-! ## C3 — candidate scoring -/

/-- The claim's link density: anchor text length over total text length,
clamped to `[0, 1]` (zero anchors give 0 through the zero numerator). -/
def claimLinkDensity (n : Node) : ℚ :=
  min 1 (max 0 ((anchorTextLength n : ℚ) / (((textContentN n).length : ℚ))))

/-- The claim's score formula
`textLength * (1 - linkDensity) + 10*punctuation + 5*paragraphs + 3*images
+ 10*headings`, halved when the density exceeds one half. -/
def claimContentScore (n : Node) : ℚ :=
  let textLength := (textContentN n).length
  let d := claimLinkDensity n
  let text := textContentN n
  let punctuationCount :=
    countChar ',' text + countChar '.' text + countChar '?' text + countChar '!' text
  let paragraphCount := countElemsL (fun m => m.tagOf = "p") n.childrenOf
  let imageCount := countElemsL (fun m => m.tagOf = "img") n.childrenOf
  let headingCount := countElemsL
    (fun m => ["h1", "h2", "h3", "h4", "h5", "h6"].contains m.tagOf) n.childrenOf
  let score := (textLength : ℚ) * (1 - d) + 10 * (punctuationCount : ℚ)
    + 5 * (paragraphCount : ℚ) + 3 * (imageCount : ℚ) + 10 * (headingCount : ℚ)
  if d > 1/2 then score * (1/2) else score

/-- A candidate-sized div (201 characters of text) whose anchor text is
counted twice because one anchor is nested in another: the link density the
code computes is 2, which the claim would clamp to 1. -/
def c3Elem : Node :=
  .elem "div" []
    [.elem "a" [] [.elem "a" [] [.text (String.mk (List.replicate 200 'a' ++ [',']))]]]

/-- C3 counterexample: on `c3Elem` the code's unclamped density (2) drives
the base term negative and the final `Math.max(0, ·)` floors the score to 0,
while the claim's clamped formula gives 5. -/
theorem C3_score_counterexample :
    calculateContentScore c3Elem = 0 ∧ claimContentScore c3Elem = 5 ∧
      calculateContentScore c3Elem ≠ claimContentScore c3Elem := by
  have h1 : (textContentN c3Elem).length = 201 := by decide
  have h2 : anchorTextLength c3Elem = 402 := by decide
  have h3 : countChar ',' (textContentN c3Elem) = 1 := by decide
  have h4 : countChar '.' (textContentN c3Elem) = 0 := by decide
  have h5 : countChar '?' (textContentN c3Elem) = 0 := by decide
  have h6 : countChar '!' (textContentN c3Elem) = 0 := by decide
  have h7 : countElemsL (fun m => m.tagOf = "p") c3Elem.childrenOf = 0 := by decide
  have h8 : countElemsL (fun m => m.tagOf = "img") c3Elem.childrenOf = 0 := by decide
  have h9 : countElemsL (fun m => ["h1", "h2", "h3", "h4", "h5", "h6"].contains m.tagOf)
      c3Elem.childrenOf = 0 := by decide
  have hc : calculateContentScore c3Elem = 0 := by
    simp only [calculateContentScore, calculateLinkDensity, h1, h2, h3, h4, h5, h6, h7, h8, h9]
    norm_num
  have hs : claimContentScore c3Elem = 5 := by
    simp only [claimContentScore, claimLinkDensity, h1, h2, h3, h4, h5, h6, h7, h8, h9]
    norm_num
  refine ⟨hc, hs, ?_⟩
  rw [hc, hs]
  norm_num

/-- C3 amended: the code computes the claimed formula except that the link
density is not clamped (and the result is floored at 0 by `Math.max`).  For
every element with text whose anchor text does not exceed its total text —
in particular whenever no anchor is nested inside another — density lies in
`[0, 1]` on its own, and the code's score equals the claimed formula. -/
theorem C3_score_amended (n : Node) (htext : 0 < (textContentN n).length)
    (hlink : anchorTextLength n ≤ (textContentN n).length) :
    calculateContentScore n = claimContentScore n := by
  have hne : (textContentN n).length ≠ 0 := Nat.pos_iff_ne_zero.mp htext
  have hTpos : (0 : ℚ) < ((textContentN n).length : ℚ) := by exact_mod_cast htext
  have hd0 : (0 : ℚ) ≤ (anchorTextLength n : ℚ) / ((textContentN n).length : ℚ) :=
    div_nonneg (by positivity) (le_of_lt hTpos)
  have hd1 : (anchorTextLength n : ℚ) / ((textContentN n).length : ℚ) ≤ 1 :=
    (div_le_one hTpos).mpr (by exact_mod_cast hlink)
  have hclaim : claimLinkDensity n =
      (anchorTextLength n : ℚ) / ((textContentN n).length : ℚ) := by
    rw [claimLinkDensity, max_eq_right hd0, min_eq_right hd1]
  have hcode : calculateLinkDensity n =
      (anchorTextLength n : ℚ) / ((textContentN n).length : ℚ) := by
    simp only [calculateLinkDensity]
    rw [if_neg hne]
  have h1d : (0 : ℚ) ≤ 1 - (anchorTextLength n : ℚ) / ((textContentN n).length : ℚ) := by
    linarith
  simp only [calculateContentScore, claimContentScore, hcode, hclaim]
  rw [if_neg hne]
  have hbase : (0 : ℚ) ≤
      ((textContentN n).length : ℚ) *
          (1 - (anchorTextLength n : ℚ) / ((textContentN n).length : ℚ)) := by
    exact mul_nonneg (le_of_lt hTpos) h1d
  split_ifs with hhalf
  · rw [max_eq_right (by positivity)]
    ring
  · rw [max_eq_right (by positivity)]
    ring

/-- A concrete element with text and a single anchor discharging the amended
theorem's hypotheses. -/
def c3Wit : Node :=
  .elem "div" [] [.text "Hello, world.", .elem "a" [] [.text "x"]]

/-- C3 witness: the amended theorem applied at `c3Wit`. -/
theorem C3_score_amended_witness :
    0 < (textContentN c3Wit).length ∧
      anchorTextLength c3Wit ≤ (textContentN c3Wit).length ∧
      calculateContentScore c3Wit = claimContentScore c3Wit :=
  ⟨by decide, by decide, C3_score_amended c3Wit (by decide) (by decide)⟩

/-! ## C7 — table span expansion -/

/-- The grid width a row expands to: the sum of its cells' iteration counts. -/
def natWidth (cells : List TableCell) : Nat :=
  (cells.map (fun c => jIter c.colspan)).sum

theorem expandRow_length (r : TableRow) : (expandRow r).length = natWidth r.cells := by
  simp [expandRow, natWidth, List.length_flatten, List.map_map, Function.comp_def]

/-- Cells whose colspans parsed to integers at least 1. -/
def GoodCells (cells : List TableCell) : Prop :=
  ∀ c ∈ cells, ∃ k : Int, c.colspan = some k ∧ 1 ≤ k

instance goodSpanDecidable (c : TableCell) :
    Decidable (∃ k : Int, c.colspan = some k ∧ 1 ≤ k) :=
  match c.colspan with
  | some k =>
      if hk : 1 ≤ k then isTrue ⟨k, rfl, hk⟩
      else
        isFalse (by
          rintro ⟨k2, h2, hk2⟩
          exact hk ((Option.some.inj h2).symm ▸ hk2))
  | none =>
      isFalse (by
        rintro ⟨k2, h2, _⟩
        cases h2)

instance goodCellsDecidable (cells : List TableCell) : Decidable (GoodCells cells) :=
  List.decidableBAll _ cells

theorem rowWidth_foldl_some (cells : List TableCell) :
    ∀ a : Int, GoodCells cells →
    cells.foldl (fun s c => jadd s c.colspan) (some a) = some (a + (natWidth cells : Int)) := by
  induction cells with
  | nil => intro a _; simp [natWidth]
  | cons c rest ih =>
      intro a h
      obtain ⟨k, hk, hk1⟩ := h c (List.mem_cons_self c rest)
      have hrest : GoodCells rest := fun x hx => h x (List.mem_cons_of_mem c hx)
      have hstep : jadd (some a) c.colspan = some (a + k) := by rw [hk]; rfl
      have hiter : jIter c.colspan = k.toNat := by rw [hk]; rfl
      simp only [List.foldl_cons, hstep, ih (a + k) hrest, natWidth, List.map_cons,
        List.sum_cons, hiter]
      have hnn : (0 : Int) ≤ k := by omega
      push_cast [Int.toNat_of_nonneg hnn]
      ring_nf

theorem rowWidth_eq (r : TableRow) (h : GoodCells r.cells) :
    rowWidth r = some ((natWidth r.cells : Int)) := by
  simpa [rowWidth] using rowWidth_foldl_some r.cells 0 h

theorem natWidth_pos (cells : List TableCell) (hne : cells ≠ []) (h : GoodCells cells) :
    1 ≤ natWidth cells := by
  cases cells with
  | nil => exact absurd rfl hne
  | cons c rest =>
      obtain ⟨k, hk, hk1⟩ := h c (List.mem_cons_self c rest)
      have hiter : jIter c.colspan = k.toNat := by rw [hk]; rfl
      simp only [natWidth, List.map_cons, List.sum_cons, hiter]
      omega

theorem jmax_fold_spec (rest : List JNum) :
    ∀ a : Int, (∀ x ∈ rest, ∃ v : Int, x = some v) →
    ∃ M : Int, rest.foldl jmax (some a) = some M ∧ a ≤ M ∧
      (∀ x ∈ rest, ∀ v : Int, x = some v → v ≤ M) ∧ (M = a ∨ some M ∈ rest) := by
  induction rest with
  | nil => intro a _; exact ⟨a, rfl, le_refl a, by simp, Or.inl rfl⟩
  | cons x rest ih =>
      intro a hall
      obtain ⟨v, hv⟩ := hall x (List.mem_cons_self x rest)
      have hrest : ∀ y ∈ rest, ∃ w : Int, y = some w :=
        fun y hy => hall y (List.mem_cons_of_mem x hy)
      have hstep : jmax (some a) x = some (max a v) := by rw [hv]; rfl
      obtain ⟨M, hM, haM, hup, hmem⟩ := ih (max a v) hrest
      refine ⟨M, by simpa [hstep] using hM, le_trans (le_max_left a v) haM, ?_, ?_⟩
      · intro y hy w hw
        rcases List.mem_cons.mp hy with h | h
        · have hwv : w = v := by
            subst h
            rw [hv] at hw
            exact (Option.some.injEq v w ▸ hw ▸ rfl : v = w).symm
          subst hwv
          exact le_trans (le_max_right a w) haM
        · exact hup y h w hw
      · rcases hmem with h | h
        · rcases max_cases a v with ⟨h1, _⟩ | ⟨h1, _⟩
          · exact Or.inl (h.trans h1)
          · refine Or.inr (List.mem_cons.mpr (Or.inl ?_))
            rw [hv, h, h1]
        · exact Or.inr (List.mem_cons.mpr (Or.inr h))

theorem jmaxArr_spec (ws : List JNum) (hne : ws ≠ [])
    (hall : ∀ x ∈ ws, ∃ v : Int, x = some v) :
    ∃ M : Int, jmaxArr ws = some M ∧
      (∀ x ∈ ws, ∀ v : Int, x = some v → v ≤ M) ∧ some M ∈ ws := by
  cases ws with
  | nil => exact absurd rfl hne
  | cons x rest =>
      obtain ⟨v, hv⟩ := hall x (List.mem_cons_self x rest)
      have hrest : ∀ y ∈ rest, ∃ w : Int, y = some w :=
        fun y hy => hall y (List.mem_cons_of_mem x hy)
      obtain ⟨M, hM, haM, hup, hmem⟩ := jmax_fold_spec rest v hrest
      refine ⟨M, ?_, ?_, ?_⟩
      · simpa [jmaxArr, hv] using hM
      · intro y hy w hw
        rcases List.mem_cons.mp hy with h | h
        · have hwv : w = v := by
            subst h
            rw [hv] at hw
            exact (Option.some.injEq v w ▸ hw ▸ rfl : v = w).symm
          omega
        · exact hup y h w hw
      · rcases hmem with h | h
        · subst h; exact List.mem_cons.mpr (Or.inl hv.symm)
        · exact List.mem_cons.mpr (Or.inr h)

/-- The header-search fold: its second component ends at some integer which
bounds every width, and the picked row (when the accumulator moved) is a
listed row whose width is exactly that integer. -/
theorem pickFold_spec (l : List (Nat × TableRow)) :
    ∀ (acc : Option (Nat × TableRow)) (m : Int),
    (∀ e ∈ l, ∃ w : Int, rowWidth e.2 = some w) →
    ∃ m' : Int,
      (l.foldl (fun a e => if jlt a.2 (rowWidth e.2) then (some e, rowWidth e.2) else a)
        (acc, some m)).2 = some m' ∧
      m ≤ m' ∧
      (∀ e ∈ l, ∀ w : Int, rowWidth e.2 = some w → w ≤ m') ∧
      (((l.foldl (fun a e => if jlt a.2 (rowWidth e.2) then (some e, rowWidth e.2) else a)
          (acc, some m)).1 = acc ∧ m' = m) ∨
        (∃ e ∈ l,
          (l.foldl (fun a e => if jlt a.2 (rowWidth e.2) then (some e, rowWidth e.2) else a)
            (acc, some m)).1 = some e ∧ rowWidth e.2 = some m')) := by
  induction l with
  | nil =>
      intro acc m _
      exact ⟨m, rfl, le_refl m, by simp, Or.inl ⟨rfl, rfl⟩⟩
  | cons e rest ih =>
      intro acc m hall
      obtain ⟨w, hw⟩ := hall e (List.mem_cons_self e rest)
      have hrest : ∀ x ∈ rest, ∃ v : Int, rowWidth x.2 = some v :=
        fun x hx => hall x (List.mem_cons_of_mem e hx)
      by_cases hlt : m < w
      · have hstep : jlt (some m) (some w) = true := by simpa [jlt] using hlt
        obtain ⟨m', hm', hle, hup, hdisj⟩ := ih (some e) w hrest
        refine ⟨m', ?_, by omega, ?_, ?_⟩
        · simpa [List.foldl_cons, hw, hstep] using hm'
        · intro x hx v hv
          rcases List.mem_cons.mp hx with h | h
          · have hvw : v = w := by
              subst h
              rw [hw] at hv
              exact (Option.some.inj hv).symm
            omega
          · exact hup x h v hv
        · rcases hdisj with ⟨h1, h2⟩ | ⟨f, hf, h1, h2⟩
          · refine Or.inr ⟨e, List.mem_cons_self e rest, ?_, ?_⟩
            · simpa [List.foldl_cons, hw, hstep] using h1
            · rw [hw, h2]
          · refine Or.inr ⟨f, List.mem_cons_of_mem e hf, ?_, h2⟩
            simpa [List.foldl_cons, hw, hstep] using h1
      · have hstep : jlt (some m) (some w) = false := by simpa [jlt] using hlt
        obtain ⟨m', hm', hle, hup, hdisj⟩ := ih acc m hrest
        refine ⟨m', ?_, hle, ?_, ?_⟩
        · simpa [List.foldl_cons, hw, hstep] using hm'
        · intro x hx v hv
          rcases List.mem_cons.mp hx with h | h
          · have hvw : v = w := by
              subst h
              rw [hw] at hv
              exact (Option.some.inj hv).symm
            omega
          · exact hup x h v hv
        · rcases hdisj with ⟨h1, h2⟩ | ⟨f, hf, h1, h2⟩
          · exact Or.inl ⟨by simpa [List.foldl_cons, hw, hstep] using h1, h2⟩
          · refine Or.inr ⟨f, List.mem_cons_of_mem e hf, ?_, h2⟩
            simpa [List.foldl_cons, hw, hstep] using h1

theorem mem_of_mem_enumAux {α : Type} :
    ∀ (l : List α) (k : Nat) (e : Nat × α), e ∈ l.enumFrom k → e.2 ∈ l := by
  intro l
  induction l with
  | nil => intro k e h; simp [List.enumFrom] at h
  | cons x rest ih =>
      intro k e h
      rcases List.mem_cons.mp h with h | h
      · subst h; exact List.mem_cons_self x rest
      · exact List.mem_cons_of_mem x (ih (k + 1) e h)

theorem mem_of_mem_enum {α : Type} (l : List α) (e : Nat × α) (h : e ∈ l.enum) : e.2 ∈ l :=
  mem_of_mem_enumAux l 0 e h

theorem enum_entry_of_mem {α : Type} (l : List α) (a : α) (h : a ∈ l) :
    ∃ e ∈ l.enum, e.2 = a := by
  obtain ⟨i, hi⟩ := List.mem_iff_get.mp h
  refine ⟨(i.1, a), ?_, rfl⟩
  rw [List.mem_iff_get]
  refine ⟨⟨i.1, by simp [i.2]⟩, ?_⟩
  simpa [List.getElem_enum] using hi

/-- The claim's table: a single header cell with `colspan=2`, then a body
row of one ordinary cell. -/
def c7Table : Table :=
  parseTable
    [⟨false, [⟨"TH", some "2", none, none, none, "A"⟩]⟩,
     ⟨false, [⟨"TD", none, none, none, none, "1"⟩]⟩]

/-- C7 counterexample: span expansion does not pad rows to a common width.
On `c7Table` the rendered header row has 2 cell slots but the body row has
only 1, so "every row of the rendered Markdown table has the same logical
column count" fails. -/
theorem C7_table_counterexample :
    c7Table.rows.map (fun r => (expandRow r).length) = [2, 1] ∧
    convertTableToMarkdown c7Table = "| A |  |\n| --- | --- |\n| 1 |\n\n" ∧
    ¬(∀ r1 ∈ c7Table.rows, ∀ r2 ∈ c7Table.rows,
        (expandRow r1).length = (expandRow r2).length) := by
  refine ⟨by decide, by decide, by decide⟩

/-- C7 amended: rows are not padded to a common width.  For a table whose
rows are nonempty and whose cell colspans all parsed to integers at least 1,
with `columns` the maximum row width (which is how `parseTable` computes
it): a header row is picked, it is one of the rows, the rendered header row
has exactly `columns` cell slots, and every rendered row has exactly its own
colspan sum many slots (so rows of smaller width stay narrower); the
rendered Markdown is built from exactly those expanded rows. -/
theorem C7_table_amended (t : Table)
    (hcols : t.columns = jmaxArr (t.rows.map rowWidth))
    (hne : t.rows ≠ [])
    (hcells : ∀ r ∈ t.rows, r.cells ≠ [])
    (hspan : ∀ r ∈ t.rows, GoodCells r.cells) :
    ∃ he : Nat × TableRow, pickHeaderRow t.rows = some he ∧ he.2 ∈ t.rows ∧
      t.columns = some (((expandRow he.2).length : Int)) ∧
      (∀ r ∈ t.rows, (expandRow r).length = natWidth r.cells) ∧
      (∀ r ∈ t.rows, natWidth r.cells ≤ (expandRow he.2).length) ∧
      convertTableToMarkdown t =
        String.intercalate "\n"
          (renderLine (expandRow he.2)
            :: ("| " ++ String.intercalate " | " ((expandRow he.2).map sepMarker) ++ " |")
            :: (t.rows.enum.filter (fun e => e.1 ≠ he.1)).map
                (fun e => renderLine (expandRow e.2))) ++ "\n\n" := by
  have hWr : ∀ r ∈ t.rows, rowWidth r = some ((natWidth r.cells : Int)) :=
    fun r hr => rowWidth_eq r (hspan r hr)
  have hWpos : ∀ r ∈ t.rows, 1 ≤ natWidth r.cells :=
    fun r hr => natWidth_pos r.cells (hcells r hr) (hspan r hr)
  have hallE : ∀ e ∈ t.rows.enum, ∃ w : Int, rowWidth e.2 = some w :=
    fun e he => ⟨(natWidth e.2.cells : Int), hWr e.2 (mem_of_mem_enum t.rows e he)⟩
  obtain ⟨m', hm', hm0, hup, hdisj⟩ := pickFold_spec t.rows.enum none 0 hallE
  -- the fold cannot end with an untouched accumulator: the head row's width
  -- is at least 1 while the untouched bound is 0
  obtain ⟨r0, rest0, hrows⟩ := List.exists_cons_of_ne_nil hne
  have hhead : ((0 : Nat), r0) ∈ t.rows.enum := by
    rw [hrows]; exact List.mem_cons_self _ _
  have hw0 : rowWidth r0 = some ((natWidth r0.cells : Int)) :=
    hWr r0 (by rw [hrows]; exact List.mem_cons_self r0 rest0)
  have h1w0 : 1 ≤ natWidth r0.cells :=
    hWpos r0 (by rw [hrows]; exact List.mem_cons_self r0 rest0)
  have hbound := hup ((0 : Nat), r0) hhead ((natWidth r0.cells : Int)) hw0
  rcases hdisj with ⟨_, h2⟩ | ⟨he, heMem, hpick, hwidth⟩
  · exfalso; omega
  refine ⟨he, ?_, mem_of_mem_enum t.rows he heMem, ?_, ?_, ?_, ?_⟩
  · simpa [pickHeaderRow] using hpick
  · -- columns is the maximum width and the picked row attains it
    have hall2 : ∀ x ∈ t.rows.map rowWidth, ∃ v : Int, x = some v := by
      intro x hx
      obtain ⟨r, hr, hxr⟩ := List.mem_map.mp hx
      exact ⟨(natWidth r.cells : Int), by rw [← hxr]; exact hWr r hr⟩
    have hmapne : t.rows.map rowWidth ≠ [] := by
      rw [hrows]; simp
    obtain ⟨M, hM, hMup, hMmem⟩ := jmaxArr_spec (t.rows.map rowWidth) hmapne hall2
    -- M ≤ m' : M is the width of some row, and m' bounds all widths
    obtain ⟨rM, hrM, hrMw⟩ := List.mem_map.mp hMmem
    obtain ⟨eM, heM, heM2⟩ := enum_entry_of_mem t.rows rM hrM
    have hMle : M ≤ m' := by
      have := hup eM heM M (by rw [heM2, ← hrMw])
      exact this
    have hmle : m' ≤ M := by
      have := hMup (rowWidth he.2) (List.mem_map_of_mem rowWidth (mem_of_mem_enum _ _ heMem))
        m' hwidth
      exact this
    have hMm : M = m' := le_antisymm hMle hmle
    have hwn : rowWidth he.2 = some ((natWidth he.2.cells : Int)) :=
      hWr he.2 (mem_of_mem_enum t.rows he heMem)
    have : m' = (natWidth he.2.cells : Int) := by
      rw [hwn] at hwidth
      exact (Option.some.inj hwidth).symm
    rw [hcols, hM, hMm, this, expandRow_length]
  · intro r _
    exact expandRow_length r
  · intro r hr
    obtain ⟨er, herMem, her2⟩ := enum_entry_of_mem t.rows r hr
    have hb := hup er herMem ((natWidth r.cells : Int)) (by rw [her2]; exact hWr r hr)
    have hwn : rowWidth he.2 = some ((natWidth he.2.cells : Int)) :=
      hWr he.2 (mem_of_mem_enum t.rows he heMem)
    have hm2 : m' = (natWidth he.2.cells : Int) := by
      rw [hwn] at hwidth
      exact (Option.some.inj hwidth).symm
    rw [expandRow_length]
    omega
  · have hpick2 : pickHeaderRow t.rows = some he := by simpa [pickHeaderRow] using hpick
    have hlen : ¬(t.rows.length = 0) := by rw [hrows]; simp
    simp only [convertTableToMarkdown, hpick2, if_neg hlen]

/-! ## C1 — `extractMainContent` and mutation -/

mutual

theorem allElemsN_impl (p q : Node → Bool) (h : ∀ n, p n = true → q n = true) :
    ∀ n : Node, allElemsN p n = true → allElemsN q n = true
  | .text _ => by simp [allElemsN]
  | .elem t a cs => by
      simp only [allElemsN, Bool.and_eq_true]
      rintro ⟨h1, h2⟩
      exact ⟨h _ h1, allElemsL_impl p q h cs h2⟩

theorem allElemsL_impl (p q : Node → Bool) (h : ∀ n, p n = true → q n = true) :
    ∀ f : List Node, allElemsL p f = true → allElemsL q f = true
  | [] => by simp [allElemsL]
  | n :: ns => by
      simp only [allElemsL, Bool.and_eq_true]
      rintro ⟨h1, h2⟩
      exact ⟨allElemsN_impl p q h n h1, allElemsL_impl p q h ns h2⟩

end

mutual

theorem removeMatchingN_id (p : Node → Bool) :
    ∀ n : Node, allElemsL (fun m => !p m) n.childrenOf = true → removeMatchingN p n = n
  | .text _ => by simp [removeMatchingN]
  | .elem t a cs => by
      intro h
      simp only [removeMatchingN]
      rw [removeMatchingL_id p cs h]

theorem removeMatchingL_id (p : Node → Bool) :
    ∀ f : List Node, allElemsL (fun m => !p m) f = true → removeMatchingL p f = f
  | [] => by simp [removeMatchingL]
  | .text s :: ns => by
      simp only [allElemsL, allElemsN, Bool.true_and, removeMatchingL]
      intro h
      rw [removeMatchingL_id p ns h]
  | .elem t a cs :: ns => by
      simp only [allElemsL, allElemsN, Bool.and_eq_true, Bool.not_eq_true']
      rintro ⟨⟨h1, h2⟩, h3⟩
      simp only [removeMatchingL, h1, if_false, Bool.false_eq_true]
      rw [removeMatchingN_id p (.elem t a cs) h2, removeMatchingL_id p ns h3]

end

/-- No descendant of the body matches a noise selector or is hidden. -/
def noiseFreeB (f : List Node) : Bool :=
  allElemsL (fun n =>
    !(noiseSelectors.any (fun s => matchesSel s n)) &&
    !(styleHidden n || ariaHiddenTrue n)) f

theorem removeNoise_foldl_id (sels : List Selector) :
    ∀ b : Node, (∀ s ∈ sels, allElemsL (fun n => !(matchesSel s n)) b.childrenOf = true) →
    sels.foldl (fun acc sel => removeMatchingN (matchesSel sel) acc) b = b := by
  induction sels with
  | nil => intro b _; rfl
  | cons s rest ih =>
      intro b h
      have h1 : removeMatchingN (matchesSel s) b = b :=
        removeMatchingN_id _ b (h s (List.mem_cons_self s rest))
      simp only [List.foldl_cons, h1]
      exact ih b (fun x hx => h x (List.mem_cons_of_mem s hx))

theorem removeNoise_id (b : Node) (h : noiseFreeB b.childrenOf = true) : removeNoise b = b := by
  have hsel : ∀ s ∈ noiseSelectors,
      allElemsL (fun n => !(matchesSel s n)) b.childrenOf = true := by
    intro s hs
    refine allElemsL_impl _ _ ?_ b.childrenOf h
    intro n hn
    simp only [Bool.and_eq_true, Bool.not_eq_true'] at hn
    simp only [Bool.not_eq_true']
    rcases List.any_eq_false.mp hn.1 with hall
    exact Bool.not_eq_true _ ▸ (hall s hs)
  have hhid : allElemsL (fun n => !(styleHidden n || ariaHiddenTrue n)) b.childrenOf = true := by
    refine allElemsL_impl _ _ ?_ b.childrenOf h
    intro n hn
    simp only [Bool.and_eq_true] at hn
    exact hn.2
  simp only [removeNoise]
  rw [removeNoise_foldl_id noiseSelectors b hsel]
  exact removeMatchingN_id _ b hhid

theorem extractMainContent_fst (b : Node) : (extractMainContent b).1 = removeNoise b := by
  simp only [extractMainContent]
  split
  · rfl
  · split <;> rfl

/-- A body with a `nav` child: the claim's "leaves the input document tree
unchanged" fails, because `removeNoise` deletes the `nav` in place before
candidates are scored. -/
def c1Body : Node :=
  .elem "body" [] [.elem "nav" [] [.text "menu"], .elem "p" [] [.text "hi"]]

/-- C1 counterexample: after `extractMainContent` the document's body is not
the input body (the nav is gone). -/
theorem C1_extract_counterexample :
    (extractMainContent c1Body).1 ≠ c1Body ∧
    (extractMainContent c1Body).1 = .elem "body" [] [.elem "p" [] [.text "hi"]] := by
  refine ⟨by decide, by decide⟩

/-- C1 amended: `extractMainContent` performs no I/O and is a deterministic
function of the document (the embedding is a pure function), but it mutates
the document in place: the only mutation is `removeNoise` on the body, so
the input tree is left unchanged exactly on documents whose body has no
descendant matching a noise selector and no hidden or `aria-hidden`
element.  For such documents the body after the call is the input body. -/
theorem C1_extract_amended (body : Node) (h : noiseFreeB body.childrenOf = true) :
    (extractMainContent body).1 = body := by
  rw [extractMainContent_fst]
  exact removeNoise_id body h

/-- A noise-free body. -/
def c1Clean : Node := .elem "body" [] [.elem "p" [] [.text "hi"]]

/-- C1 witness: the amended theorem at a concrete noise-free body. -/
theorem C1_extract_amended_witness :
    noiseFreeB c1Clean.childrenOf = true ∧ (extractMainContent c1Clean).1 = c1Clean :=
  ⟨by decide, C1_extract_amended c1Clean (by decide)⟩

/-! ## C9 — the concurrency bound -/

theorem setAdd_nodup (l : List String) (id : String) (h : l.Nodup) : (setAdd l id).Nodup := by
  unfold setAdd
  split
  · exact h
  · rename_i hc
    rw [List.nodup_append]
    refine ⟨h, List.nodup_singleton id, ?_⟩
    intro x hx hx2
    rcases List.mem_singleton.mp hx2 with rfl
    exact hc (List.elem_iff.mpr hx)

theorem setAdd_len (l : List String) (id : String) :
    (setAdd l id).length ≤ l.length + 1 := by
  unfold setAdd
  split
  · omega
  · simp

theorem mem_setAdd_self (l : List String) (id : String) : id ∈ setAdd l id := by
  unfold setAdd
  split
  · rename_i hc
    exact List.elem_iff.mp hc
  · exact List.mem_append.mpr (Or.inr (List.mem_singleton.mpr rfl))

theorem mem_setAdd_of_mem {l : List String} {x : String} (id : String) (h : x ∈ l) :
    x ∈ setAdd l id := by
  unfold setAdd
  split
  · exact h
  · exact List.mem_append.mpr (Or.inl h)

theorem setDel_nodup (l : List String) (id : String) (h : l.Nodup) : (setDel l id).Nodup :=
  List.Nodup.filter _ h

theorem setDel_len (l : List String) (id : String) : (setDel l id).length ≤ l.length :=
  List.length_filter_le _ l

theorem mem_setDel {l : List String} {x : String} {id : String} (h : x ∈ l) (hne : x ≠ id) :
    x ∈ setDel l id :=
  List.mem_filter.mpr ⟨h, by simpa using hne⟩

theorem updateTask_ids (tasks : List ConversionTask) (id : String)
    (f : ConversionTask → ConversionTask) (hf : ∀ t, (f t).id = t.id) :
    (updateTask tasks id f).map (fun t => t.id) = tasks.map (fun t => t.id) := by
  unfold updateTask
  rw [List.map_map]
  apply List.map_congr_left
  intro t _
  by_cases h : t.id = id <;> simp [h, hf]

theorem updateTask_ids_nodup {tasks : List ConversionTask} {id : String}
    {f : ConversionTask → ConversionTask} (hf : ∀ t, (f t).id = t.id)
    (h : (tasks.map (fun t => t.id)).Nodup) :
    ((updateTask tasks id f).map (fun t => t.id)).Nodup := by
  rw [updateTask_ids tasks id f hf]
  exact h

theorem mem_updateTask {tasks : List ConversionTask} {id : String}
    {f : ConversionTask → ConversionTask} {t2 : ConversionTask}
    (h : t2 ∈ updateTask tasks id f) :
    ∃ t ∈ tasks, t2 = if t.id = id then f t else t := by
  obtain ⟨t, ht, he⟩ := List.mem_map.mp h
  exact ⟨t, ht, he.symm⟩

/-- The pieces of the invariant unaffected by the concurrency limit. -/
def QInv0 (st : QueueState) : Prop :=
  st.processing.Nodup ∧ (st.tasks.map (fun t => t.id)).Nodup ∧
  ∀ t ∈ st.tasks, t.status = TaskStatus.processing → t.id ∈ st.processing

/-- The queue invariant: well-formed bookkeeping and the processing set
bounded by the concurrency limit. -/
def QInv (st : QueueState) : Prop :=
  QInv0 st ∧ st.processing.length ≤ st.concurrent

theorem startTask_inv0 (st : QueueState) (id : String) (h : QInv0 st) :
    QInv0 (startTask st id) := by
  obtain ⟨h1, h3, h4⟩ := h
  refine ⟨setAdd_nodup _ _ h1, updateTask_ids_nodup (fun t => rfl) h3, ?_⟩
  · intro t2 ht2 hst
    obtain ⟨t, ht, he⟩ := mem_updateTask ht2
    by_cases hid : t.id = id
    · have : t2.id = t.id := by rw [he]; simp [hid]
      rw [this, hid]
      exact mem_setAdd_self _ _
    · rw [if_neg hid] at he
      subst he
      exact mem_setAdd_of_mem id (h4 t2 ht hst)

theorem startTask_len (st : QueueState) (id : String) :
    (startTask st id).processing.length ≤ st.processing.length + 1 :=
  setAdd_len _ _

theorem foldStart_inv0 (batch : List ConversionTask) :
    ∀ st : QueueState, QInv0 st →
    QInv0 (batch.foldl (fun s t => startTask s t.id) st) := by
  induction batch with
  | nil => intro st h; exact h
  | cons b rest ih =>
      intro st h
      exact ih (startTask st b.id) (startTask_inv0 st b.id h)

theorem foldStart_len (batch : List ConversionTask) :
    ∀ st : QueueState,
    (batch.foldl (fun s t => startTask s t.id) st).processing.length ≤
      st.processing.length + batch.length := by
  induction batch with
  | nil => intro st; simp
  | cons b rest ih =>
      intro st
      calc (List.foldl (fun s t => startTask s t.id) (startTask st b.id) rest).processing.length
          ≤ (startTask st b.id).processing.length + rest.length := ih (startTask st b.id)
        _ ≤ st.processing.length + 1 + rest.length := by
            have := startTask_len st b.id
            omega
        _ = st.processing.length + (b :: rest).length := by simp; omega

theorem foldStart_concurrent (batch : List ConversionTask) :
    ∀ st : QueueState,
    (batch.foldl (fun s t => startTask s t.id) st).concurrent = st.concurrent := by
  induction batch with
  | nil => intro st; rfl
  | cons b rest ih => intro st; exact ih (startTask st b.id)

theorem processNextStep_inv (st : QueueState) (h : QInv st) : QInv (processNextStep st) := by
  obtain ⟨h0, hlen⟩ := h
  have key : ∀ batch : List ConversionTask,
      batch.length ≤ st.concurrent - st.processing.length →
      QInv (batch.foldl (fun s t => startTask s t.id) st) := by
    intro batch hb
    refine ⟨foldStart_inv0 batch st h0, ?_⟩
    have := foldStart_len batch st
    rw [foldStart_concurrent batch st]
    omega
  unfold processNextStep
  split
  · exact key _ (List.length_take_le _ _)
  · exact ⟨h0, hlen⟩

theorem settleTask_inv (st : QueueState) (id : String)
    (outcome : Except String ConversionResult) (now : Nat) (h : QInv st) :
    QInv (settleTask st id outcome now) := by
  obtain ⟨⟨h1, h3, h4⟩, hlen⟩ := h
  cases outcome with
  | ok r =>
      refine ⟨⟨setDel_nodup _ _ h1, updateTask_ids_nodup (fun t => rfl) h3, ?_⟩,
        le_trans (setDel_len _ _) hlen⟩
      · intro t2 ht2 hst
        obtain ⟨t, ht, he⟩ := mem_updateTask ht2
        by_cases hid : t.id = id
        · rw [if_pos hid] at he
          rw [he] at hst
          cases hst
        · rw [if_neg hid] at he
          subst he
          exact mem_setDel (h4 t2 ht hst) hid
  | error e =>
      refine ⟨⟨setDel_nodup _ _ h1, updateTask_ids_nodup (fun t => rfl) h3, ?_⟩,
        le_trans (setDel_len _ _) hlen⟩
      · intro t2 ht2 hst
        obtain ⟨t, ht, he⟩ := mem_updateTask ht2
        by_cases hid : t.id = id
        · rw [if_pos hid] at he
          rw [he] at hst
          cases hst
        · rw [if_neg hid] at he
          subst he
          exact mem_setDel (h4 t2 ht hst) hid

theorem cancelTask_inv (st : QueueState) (id : String) (h : QInv st) :
    QInv (cancelTaskState st id) := by
  obtain ⟨⟨h1, h3, h4⟩, hlen⟩ := h
  unfold cancelTaskState
  split
  · exact ⟨⟨h1, h3, h4⟩, hlen⟩
  · split
    · exact ⟨⟨h1, h3, h4⟩, hlen⟩
    · refine ⟨⟨setDel_nodup _ _ h1, updateTask_ids_nodup (fun t => rfl) h3, ?_⟩,
        le_trans (setDel_len _ _) hlen⟩
      · intro t2 ht2 hst
        obtain ⟨t, ht, he⟩ := mem_updateTask ht2
        by_cases hid : t.id = id
        · rw [if_pos hid] at he
          rw [he] at hst
          cases hst
        · rw [if_neg hid] at he
          subst he
          exact mem_setDel (h4 t2 ht hst) hid

theorem retryTask_inv (st : QueueState) (id : String) (h : QInv st) :
    QInv (retryTaskState st id) := by
  obtain ⟨⟨h1, h3, h4⟩, hlen⟩ := h
  unfold retryTaskState
  split
  · exact ⟨⟨h1, h3, h4⟩, hlen⟩
  · split
    · refine ⟨⟨h1, updateTask_ids_nodup (fun t => rfl) h3, ?_⟩, hlen⟩
      · intro t2 ht2 hst
        obtain ⟨t, ht, he⟩ := mem_updateTask ht2
        by_cases hid : t.id = id
        · rw [if_pos hid] at he
          rw [he] at hst
          cases hst
        · rw [if_neg hid] at he
          subst he
          exact h4 t2 ht hst
    · exact ⟨⟨h1, h3, h4⟩, hlen⟩

theorem removeTask_inv (st : QueueState) (id : String) (h : QInv st) :
    QInv (removeTaskState st id) := by
  obtain ⟨⟨h1, h3, h4⟩, hlen⟩ := h
  refine ⟨⟨setDel_nodup _ _ h1, ?_, ?_⟩, le_trans (setDel_len _ _) hlen⟩
  · show ((st.tasks.filter (fun t => t.id ≠ id)).map (fun t => t.id)).Nodup
    exact ((List.filter_sublist st.tasks).map (fun t => t.id)).nodup h3
  · intro t2 ht2 hst
    have hmem := List.mem_filter.mp ht2
    have hne : t2.id ≠ id := by simpa using hmem.2
    exact mem_setDel (h4 t2 hmem.1 hst) hne

theorem addTask_inv (st : QueueState) (t : ConversionTask)
    (hfresh : ∀ u ∈ st.tasks, u.id ≠ t.id) (hpend : t.status = TaskStatus.pending)
    (h : QInv st) : QInv (addTaskState st t) := by
  obtain ⟨⟨h1, h3, h4⟩, hlen⟩ := h
  refine ⟨⟨h1, ?_, ?_⟩, hlen⟩
  · show ((st.tasks ++ [t]).map (fun u => u.id)).Nodup
    rw [List.map_append, List.nodup_append]
    refine ⟨h3, by simp, ?_⟩
    intro x hx hx2
    obtain ⟨u, hu, hux⟩ := List.mem_map.mp hx
    rcases List.mem_singleton.mp (by simpa using hx2) with rfl
    exact hfresh u hu (by rw [hux])
  · intro t2 ht2 hst
    rcases List.mem_append.mp ht2 with hm | hm
    · exact h4 t2 hm hst
    · rcases List.mem_singleton.mp hm with rfl
      rw [hpend] at hst
      cases hst

theorem qstep_inv {st st2 : QueueState} (hs : QStep st st2) (h : QInv st) :
    QInv st2 ∧ st2.concurrent = st.concurrent := by
  cases hs with
  | add t hfresh hpend => exact ⟨addTask_inv st t hfresh hpend h, rfl⟩
  | sched =>
      refine ⟨processNextStep_inv st h, ?_⟩
      unfold processNextStep
      split
      · exact foldStart_concurrent _ st
      · rfl
  | settle id outcome now =>
      refine ⟨settleTask_inv st id outcome now h, ?_⟩
      cases outcome <;> rfl
  | cancel id =>
      refine ⟨cancelTask_inv st id h, ?_⟩
      unfold cancelTaskState
      split
      · rfl
      · split <;> rfl
  | retry id =>
      refine ⟨retryTask_inv st id h, ?_⟩
      unfold retryTaskState
      split
      · rfl
      · split <;> rfl
  | remove id => exact ⟨removeTask_inv st id h, rfl⟩
  | clear =>
      exact ⟨⟨⟨by simp [clearState], by simp [clearState], by simp [clearState]⟩,
        by simp [clearState]⟩, rfl⟩
  | pause => exact ⟨⟨h.1, h.2⟩, rfl⟩
  | resume => exact ⟨⟨h.1, h.2⟩, rfl⟩

theorem qreach_inv {s0 st : QueueState} (h : QReach s0 st) (h0 : QInv s0) :
    QInv st ∧ st.concurrent = s0.concurrent := by
  induction h with
  | refl => exact ⟨h0, rfl⟩
  | tail hr hs ih =>
      obtain ⟨hi, hc⟩ := ih
      obtain ⟨hi2, hc2⟩ := qstep_inv hs hi
      exact ⟨hi2, hc2.trans hc⟩

theorem processingCount_le (st : QueueState) (h : QInv st) :
    processingCount st ≤ st.concurrent := by
  obtain ⟨⟨h1, h3, h4⟩, hlen⟩ := h
  have hsub : (st.tasks.filter (fun t => t.status = TaskStatus.processing)).map
      (fun t => t.id) ⊆ st.processing := by
    intro x hx
    obtain ⟨t, ht, hxt⟩ := List.mem_map.mp hx
    have hmem := List.mem_filter.mp ht
    have hstat : t.status = TaskStatus.processing := by simpa using hmem.2
    rw [← hxt]
    exact h4 t hmem.1 hstat
  have hnd : ((st.tasks.filter (fun t => t.status = TaskStatus.processing)).map
      (fun t => t.id)).Nodup :=
    ((List.filter_sublist st.tasks).map (fun t => t.id)).nodup h3
  have := (hnd.subperm hsub).length_le
  rw [List.length_map] at this
  exact le_trans this hlen

/-- C9: along every run of the queue's step relation (adds, scheduler
sweeps, settlements, cancel/retry/remove/clear/pause/resume), the number of
tasks whose status is `processing` never exceeds the configured concurrency
limit.  In particular a queue built with `concurrent = 2` (the claim's five
pending tasks included) never shows more than 2 processing tasks, and the
default limit is 3.  (`importState`, which restores persisted bookkeeping
wholesale, is outside the scheduling scenario modelled here.) -/
theorem C9_concurrency_bound (c : Option Nat) (auto : Bool) (st : QueueState)
    (h : QReach (initQueue (mkConcurrent c) auto) st) :
    processingCount st ≤ mkConcurrent c ∧
      (c = some 2 → processingCount st ≤ 2) ∧
      (c = none → processingCount st ≤ 3) := by
  have h0 : QInv (initQueue (mkConcurrent c) auto) := by
    refine ⟨⟨by simp [initQueue], by simp [initQueue], by simp [initQueue]⟩, by simp [initQueue]⟩
  obtain ⟨hi, hc⟩ := qreach_inv h h0
  have hb := processingCount_le st hi
  rw [hc] at hb
  refine ⟨hb, ?_, ?_⟩
  · intro h2
    subst h2
    simpa [mkConcurrent] using hb
  · intro h2
    subst h2
    simpa [mkConcurrent] using hb

/-- C9 witness: the bound at the initial state of a queue with limit 2. -/
theorem C9_concurrency_bound_witness :
    processingCount (initQueue (mkConcurrent (some 2)) true) ≤ mkConcurrent (some 2) ∧
      (some 2 = some 2 → processingCount (initQueue (mkConcurrent (some 2)) true) ≤ 2) ∧
      ((some 2 : Option Nat) = none →
        processingCount (initQueue (mkConcurrent (some 2)) true) ≤ 3) :=
  C9_concurrency_bound (some 2) true (initQueue (mkConcurrent (some 2)) true)
    (QReach.refl _)

/-! ## C2 — task-level error capture -/

theorem updateTask_mem_self {tasks : List ConversionTask} {id : String}
    {f : ConversionTask → ConversionTask} {u : ConversionTask}
    (hu : u ∈ tasks) (h : ¬(u.id = id)) : u ∈ updateTask tasks id f :=
  List.mem_map.mpr ⟨u, hu, by simp [h]⟩

theorem updateTask_mem_hit {tasks : List ConversionTask} {id : String}
    {f : ConversionTask → ConversionTask} {t : ConversionTask}
    (ht : t ∈ tasks) (h : t.id = id) : f t ∈ updateTask tasks id f :=
  List.mem_map.mpr ⟨t, ht, by simp [h]⟩

/-- C2: one `processTask` invocation with its `executeTask` outcome made
explicit.  The function is total — the catch swallows the exception, so
nothing propagates to the scheduler — and for a task with no prior result
or error: a success ends `completed` with the result attached and no error;
a pipeline exception ends `failed` with exactly the error message attached
and no result; the task-scoped `onError` callback fires exactly when a
callback is registered and the outcome is an error; and every other task of
the queue is untouched. -/
theorem C2_task_error_capture (st : QueueState) (id : String)
    (outcome : Except String ConversionResult) (now : Nat) (cb : Bool)
    (t : ConversionTask) (ht : t ∈ st.tasks) (hid : t.id = id)
    (hres : t.result = none) (herr : t.error = none) :
    ∃ t2 : ConversionTask, t2 ∈ (processTaskRun st id outcome now cb).1.tasks ∧ t2.id = id ∧
      ((∃ r, outcome = .ok r ∧ t2.status = .completed ∧ t2.result = some r ∧ t2.error = none) ∨
        (∃ e, outcome = .error e ∧ t2.status = .failed ∧ t2.error = some e ∧
          t2.result = none)) ∧
      (∀ e, outcome = .error e →
        (TaskEvent.errored id e ∈ (processTaskRun st id outcome now cb).2 ↔ cb = true)) ∧
      (∀ u ∈ st.tasks, ¬(u.id = id) → u ∈ (processTaskRun st id outcome now cb).1.tasks) := by
  cases outcome with
  | ok r =>
      refine ⟨⟨t.id, t.url, t.ttype, t.fileType, .completed, some r, t.error, t.createdAt,
        some now⟩, ?_, hid, ?_, ?_, ?_⟩
      · show _ ∈ (settleOk (startTask st id) id r now).tasks
        have h1 := updateTask_mem_hit (f := fun u =>
          (⟨u.id, u.url, u.ttype, u.fileType, .processing, u.result, u.error, u.createdAt,
            u.completedAt⟩ : ConversionTask)) ht hid
        have h2 := updateTask_mem_hit (f := fun u =>
          (⟨u.id, u.url, u.ttype, u.fileType, .completed, some r, u.error, u.createdAt,
            some now⟩ : ConversionTask)) h1 hid
        exact h2
      · exact Or.inl ⟨r, rfl, rfl, rfl, herr⟩
      · intro e he
        cases he
      · intro u hu hne
        show _ ∈ (settleOk (startTask st id) id r now).tasks
        exact updateTask_mem_self (updateTask_mem_self hu hne) hne
  | error e =>
      refine ⟨⟨t.id, t.url, t.ttype, t.fileType, .failed, t.result, some e, t.createdAt,
        some now⟩, ?_, hid, ?_, ?_, ?_⟩
      · show _ ∈ (settleErr (startTask st id) id e now).tasks
        have h1 := updateTask_mem_hit (f := fun u =>
          (⟨u.id, u.url, u.ttype, u.fileType, .processing, u.result, u.error, u.createdAt,
            u.completedAt⟩ : ConversionTask)) ht hid
        have h2 := updateTask_mem_hit (f := fun u =>
          (⟨u.id, u.url, u.ttype, u.fileType, .failed, u.result, some e, u.createdAt,
            some now⟩ : ConversionTask)) h1 hid
        exact h2
      · exact Or.inr ⟨e, rfl, rfl, rfl, hres⟩
      · intro e2 he2
        cases he2
        cases cb <;> simp [processTaskRun]
      · intro u hu hne
        show _ ∈ (settleErr (startTask st id) id e now).tasks
        exact updateTask_mem_self (updateTask_mem_self hu hne) hne

/-- A pending task for the witness queue. -/
def c2Task : ConversionTask :=
  ⟨"task_1", "https://example.com", "page", none, .pending, none, none, 0, none⟩

/-- The witness queue: one pending task, concurrency 3. -/
def c2State : QueueState := ⟨[c2Task], [], [], [], 3, true⟩

/-- C2 witness: the theorem applied to a concrete failing conversion. -/
theorem C2_task_error_capture_witness :
    ∃ t2 : ConversionTask,
      t2 ∈ (processTaskRun c2State "task_1" (.error "boom") 5 true).1.tasks ∧
      t2.id = "task_1" ∧
      ((∃ r, (Except.error "boom" : Except String ConversionResult) = .ok r ∧
          t2.status = .completed ∧ t2.result = some r ∧ t2.error = none) ∨
        (∃ e, (Except.error "boom" : Except String ConversionResult) = .error e ∧
          t2.status = .failed ∧ t2.error = some e ∧ t2.result = none)) ∧
      (∀ e, (Except.error "boom" : Except String ConversionResult) = .error e →
        (TaskEvent.errored "task_1" e ∈ (processTaskRun c2State "task_1" (.error "boom") 5 true).2
          ↔ true = true)) ∧
      (∀ u ∈ c2State.tasks, ¬(u.id = "task_1") →
        u ∈ (processTaskRun c2State "task_1" (.error "boom") 5 true).1.tasks) :=
  C2_task_error_capture c2State "task_1" (.error "boom") 5 true c2Task
    (by decide) (by decide) (by decide) (by decide)

/-- C7 witness: the amended theorem applied at the claim's concrete table. -/
theorem C7_table_amended_witness :
    ∃ he : Nat × TableRow, pickHeaderRow c7Table.rows = some he ∧ he.2 ∈ c7Table.rows ∧
      c7Table.columns = some (((expandRow he.2).length : Int)) ∧
      (∀ r ∈ c7Table.rows, (expandRow r).length = natWidth r.cells) ∧
      (∀ r ∈ c7Table.rows, natWidth r.cells ≤ (expandRow he.2).length) ∧
      convertTableToMarkdown c7Table =
        String.intercalate "\n"
          (renderLine (expandRow he.2)
            :: ("| " ++ String.intercalate " | " ((expandRow he.2).map sepMarker) ++ " |")
            :: (c7Table.rows.enum.filter (fun e => e.1 ≠ he.1)).map
                (fun e => renderLine (expandRow e.2))) ++ "\n\n" :=
  C7_table_amended c7Table (by decide) (by decide) (by decide) (by decide)

/-! ## C8: language detection -/

/-- `detectLanguage` with its lets unfolded, for rewriting. -/
theorem detectLanguage_eq (code : List Char) :
    detectLanguage code =
      (if ((languagePatterns.filterMap (fun l =>
            if 0 < languageScore code l then some (l.name, languageScore code l) else none)).foldl
            (fun acc e => if acc.2 < e.2 then e else acc) ("", 0)).1 = ""
       then "text"
       else ((languagePatterns.filterMap (fun l =>
            if 0 < languageScore code l then some (l.name, languageScore code l) else none)).foldl
            (fun acc e => if acc.2 < e.2 then e else acc) ("", 0)).1) := rfl

/-- The running best of `detectLanguage`'s fold is the seed or a list entry. -/
theorem pickFold_mem (xs : List (String × Nat)) (init : String × Nat) :
    xs.foldl (fun acc e => if acc.2 < e.2 then e else acc) init = init
    ∨ xs.foldl (fun acc e => if acc.2 < e.2 then e else acc) init ∈ xs := by
  induction xs generalizing init with
  | nil => exact Or.inl rfl
  | cons x xs ih =>
    simp only [List.foldl_cons]
    rcases ih (if init.2 < x.2 then x else init) with h | h
    · rw [h]
      split
      · exact Or.inr (List.mem_cons_self _ _)
      · exact Or.inl rfl
    · exact Or.inr (List.mem_cons_of_mem _ h)

/-- Once the running best weakly dominates the remaining scores, the fold
keeps it (so earlier catalogue entries win ties). -/
theorem pickFold_fix (init : String × Nat) (xs : List (String × Nat))
    (h : ∀ e ∈ xs, e.2 ≤ init.2) :
    xs.foldl (fun acc e => if acc.2 < e.2 then e else acc) init = init := by
  induction xs with
  | nil => rfl
  | cons x xs ih =>
    have hx : x.2 ≤ init.2 := h x (List.mem_cons_self _ _)
    simp only [List.foldl_cons, if_neg (Nat.not_lt.mpr hx)]
    exact ih (fun e he => h e (List.mem_cons_of_mem _ he))

/-- Every catalogue entry has a nonempty name. -/
theorem languagePatterns_name_ne : ∀ l ∈ languagePatterns, l.name ≠ "" := by decide

/-- C8: `detectLanguage` returns `"python"` on the canonical snippet
`"def foo():\n    pass"`; it returns `"text"` on the empty string and, more
generally, on every input on which no catalogue signature scores above
zero; and whenever the entry at catalogue position `i` scores positively,
at least as high as every entry, and strictly higher than every earlier
entry (the tie situation), it wins by catalogue order. -/
theorem C8_detectLanguage :
    detectLanguage ("def foo():\n    pass".data) = "python"
    ∧ detectLanguage [] = "text"
    ∧ (∀ code : List Char,
        (∀ l ∈ languagePatterns, languageScore code l = 0) →
        detectLanguage code = "text")
    ∧ (∀ code : List Char, ∀ i : Nat, ∀ h : i < languagePatterns.length,
        0 < languageScore code (languagePatterns.get ⟨i, h⟩) →
        (∀ l ∈ languagePatterns,
          languageScore code l ≤ languageScore code (languagePatterns.get ⟨i, h⟩)) →
        (∀ l ∈ languagePatterns.take i,
          languageScore code l < languageScore code (languagePatterns.get ⟨i, h⟩)) →
        detectLanguage code = (languagePatterns.get ⟨i, h⟩).name) := by
  refine ⟨by decide, rfl, ?_, ?_⟩
  · intro code hz
    rw [detectLanguage_eq]
    have hnil : languagePatterns.filterMap (fun l =>
        if 0 < languageScore code l then some (l.name, languageScore code l) else none)
        = [] := by
      rw [List.filterMap_eq_nil_iff]
      intro l hl
      simp [hz l hl]
    rw [hnil]
    rfl
  · intro code i h hpos hall hpre
    have hget : languagePatterns.get ⟨i, h⟩ ∈ languagePatterns := List.get_mem _ _ _
    set li := languagePatterns.get ⟨i, h⟩ with hli
    set m := languageScore code li with hm
    set f : LanguagePattern → Option (String × Nat) := fun l =>
      if 0 < languageScore code l then some (l.name, languageScore code l) else none
      with hf
    have hfli : f li = some (li.name, m) := by
      simp only [hf, hm, if_pos hpos]
    have hsplit : languagePatterns
        = languagePatterns.take i ++ li :: languagePatterns.drop (i + 1) := by
      conv_lhs => rw [← List.take_append_drop i languagePatterns]
      congr 1
      rw [List.drop_eq_getElem_cons h]
      rfl
    rw [detectLanguage_eq]
    have hform : languagePatterns.filterMap (fun l =>
        if 0 < languageScore code l then some (l.name, languageScore code l) else none)
        = languagePatterns.filterMap f := rfl
    rw [hform, hsplit, List.filterMap_append, List.filterMap_cons, hfli]
    rw [List.foldl_append, List.foldl_cons]
    have hacc : (((languagePatterns.take i).filterMap f).foldl
        (fun acc e => if acc.2 < e.2 then e else acc) ("", 0)).2 < m := by
      rcases pickFold_mem ((languagePatterns.take i).filterMap f) ("", 0) with he | he
      · rw [he]; exact hpos
      · obtain ⟨a, ha, hfa⟩ := List.mem_filterMap.mp he
        by_cases h0 : 0 < languageScore code a
        · rw [hf] at hfa
          simp only [if_pos h0, Option.some.injEq] at hfa
          rw [← hfa]
          exact hpre a ha
        · rw [hf] at hfa
          simp only [if_neg h0] at hfa
          exact Option.noConfusion hfa
    rw [if_pos hacc]
    have hfix : ((languagePatterns.drop (i + 1)).filterMap f).foldl
        (fun acc e => if acc.2 < e.2 then e else acc) (li.name, m) = (li.name, m) := by
      apply pickFold_fix
      intro e he
      obtain ⟨a, ha, hfa⟩ := List.mem_filterMap.mp he
      by_cases h0 : 0 < languageScore code a
      · rw [hf] at hfa
        simp only [if_pos h0, Option.some.injEq] at hfa
        rw [← hfa]
        exact hall a (List.mem_of_mem_drop ha)
      · rw [hf] at hfa
        simp only [if_neg h0] at hfa
        exact Option.noConfusion hfa
    rw [hfix, if_neg (languagePatterns_name_ne li hget)]

/-! ## C5 — idempotence of `NoiseFilter.clean`

`clean` is not idempotent in general: a non-void element (svg, canvas,
video, textarea, select) can witness non-emptiness for its parent in
`removeEmptyElements` while being removed as empty itself, so the parent
loses its witness and falls in the next run.  On forests without these
five tags the composite of the five passes is a closure operator; the
development below characterises its image and proves each pass fixes it. -/

/-- Tags whose elements can witness non-emptiness for an ancestor in
`removeEmptyElements` while being removable as empty themselves: the
non-void members of the `img, svg, canvas, video` and
`input, textarea, select` query lists. -/
def fragileTags : List String := ["svg", "canvas", "video", "textarea", "select"]

/-- No element of the forest carries a fragile tag. -/
def goodTagsB (f : List Node) : Bool :=
  allElemsL (fun n => !fragileTags.contains n.tagOf) f

/-- Scanner for `normalizeText`-normal text: `b` records whether the
previous character was a space (initially true, so a leading space is
rejected); every space must be a single `' '` between non-spaces, and a
trailing space is rejected. -/
def normShapeGo : Bool → List Char → Bool
  | b, [] => !b
  | b, c :: rest =>
      if isSpaceChar c then !b && (c = ' ') && normShapeGo true rest
      else normShapeGo false rest

/-- A character list is in the image (and on the fixed points) of
`normalizeText`. -/
def normShape : List Char → Bool
  | [] => true
  | c :: rest => normShapeGo true (c :: rest)

/-- "Has ink": some non-whitespace character. -/
def anyInk (l : List Char) : Bool := l.any (fun c => !isSpaceChar c)

/-- Pointwise bridge for proving equalities of booleans. -/
theorem boolEq {a b : Bool} (h : a = true ↔ b = true) : a = b := by
  cases a <;> cases b <;> simp_all

theorem normShapeGo_relax (l : List Char) (h : normShapeGo true l = true) :
    normShapeGo false l = true := by
  cases l with
  | nil => rfl
  | cons c rest =>
      by_cases hc : isSpaceChar c = true
      · simp [normShapeGo, hc] at h
      · simp only [normShapeGo, hc] at h ⊢
        simpa using h

theorem wsCollapse_shape : ∀ u : List Char,
    (∀ c, u.getLast? = some c → isSpaceChar c = false) →
    normShapeGo false (wsCollapseGo false u) = true ∧
      (u ≠ [] → normShapeGo true (wsCollapseGo true u) = true)
  | [] => by
      intro _
      exact ⟨rfl, fun h => absurd rfl h⟩
  | c :: rest => by
      intro hlast
      have hrest : ∀ d, rest.getLast? = some d → isSpaceChar d = false := by
        intro d hd
        apply hlast
        cases rest with
        | nil => simp at hd
        | cons e tl => rw [List.getLast?_cons_cons]; exact hd
      have ih := wsCollapse_shape rest hrest
      by_cases hc : isSpaceChar c = true
      · have hne : rest ≠ [] := by
          intro he
          subst he
          have h1 := hlast c (by simp)
          rw [hc] at h1
          cases h1
        constructor
        · show normShapeGo false (wsCollapseGo false (c :: rest)) = true
          simp only [wsCollapseGo, hc, if_true]
          show normShapeGo false (' ' :: wsCollapseGo true rest) = true
          simp only [normShapeGo, show isSpaceChar ' ' = true from rfl, if_true]
          simpa using ih.2 hne
        · intro _
          show normShapeGo true (wsCollapseGo true (c :: rest)) = true
          simp only [wsCollapseGo, hc, if_true]
          exact ih.2 hne
      · constructor
        · show normShapeGo false (wsCollapseGo false (c :: rest)) = true
          simp only [wsCollapseGo, hc]
          show normShapeGo false (c :: wsCollapseGo false rest) = true
          simp only [normShapeGo, hc]
          exact ih.1
        · intro _
          show normShapeGo true (wsCollapseGo true (c :: rest)) = true
          simp only [wsCollapseGo, hc]
          show normShapeGo true (c :: wsCollapseGo false rest) = true
          simp only [normShapeGo, hc]
          exact ih.1

theorem dropWhile_head_not (p : Char → Bool) :
    ∀ l : List Char, ∀ c, (l.dropWhile p).head? = some c → p c = false
  | [], c => by intro h; simp at h
  | d :: rest, c => by
      intro h
      by_cases hd : p d = true
      · rw [List.dropWhile_cons, if_pos hd] at h
        exact dropWhile_head_not p rest c h
      · rw [List.dropWhile_cons, if_neg hd] at h
        have : c = d := by simpa using h.symm
        subst this
        simpa using hd

theorem dropWhile_getLast (p : Char → Bool) :
    ∀ l : List Char, l.dropWhile p ≠ [] → (l.dropWhile p).getLast? = l.getLast?
  | [], h => absurd rfl h
  | d :: rest, h => by
      by_cases hd : p d = true
      · rw [List.dropWhile_cons, if_pos hd] at h ⊢
        have hres : rest ≠ [] := by
          intro he; subst he; exact h (by simp)
        rw [dropWhile_getLast p rest h]
        cases rest with
        | nil => exact absurd rfl hres
        | cons e tl => rw [List.getLast?_cons_cons]
      · rw [List.dropWhile_cons, if_neg hd]

theorem jsTrim_head_not (s : List Char) :
    ∀ c, (jsTrim s).head? = some c → isSpaceChar c = false := by
  intro c hc
  unfold jsTrim at hc
  rw [List.head?_reverse] at hc
  have hne : ((s.dropWhile isSpaceChar).reverse).dropWhile isSpaceChar ≠ [] := by
    intro h; rw [h] at hc; simp at hc
  rw [dropWhile_getLast _ _ hne, List.getLast?_reverse] at hc
  exact dropWhile_head_not _ _ c hc

theorem jsTrim_getLast_not (s : List Char) :
    ∀ c, (jsTrim s).getLast? = some c → isSpaceChar c = false := by
  intro c hc
  unfold jsTrim at hc
  rw [List.getLast?_reverse] at hc
  exact dropWhile_head_not _ _ c hc

/-- `normalizeText` lands in the normal shape. -/
theorem normShape_normalizeText (l : List Char) : normShape (normalizeText l) = true := by
  unfold normalizeText
  cases hu : jsTrim l with
  | nil => rfl
  | cons c rest =>
      have hc : isSpaceChar c = false := jsTrim_head_not l c (by rw [hu]; rfl)
      have hrest : ∀ d, rest.getLast? = some d → isSpaceChar d = false := by
        intro d hd
        apply jsTrim_getLast_not l d
        rw [hu]
        cases rest with
        | nil => simp at hd
        | cons e tl => rw [List.getLast?_cons_cons]; exact hd
      simp only [wsCollapseGo, hc]
      show normShape (c :: wsCollapseGo false rest) = true
      simp only [normShape, normShapeGo, hc]
      exact (wsCollapse_shape rest hrest).1

theorem normShapeGo_wsCollapse_fix : ∀ (l : List Char) (b : Bool),
    normShapeGo b l = true → wsCollapseGo b l = l
  | [], _ => by intro _; rfl
  | c :: rest, b => by
      intro h
      by_cases hc : isSpaceChar c = true
      · simp only [normShapeGo, hc, if_true, Bool.and_eq_true, Bool.not_eq_true',
          decide_eq_true_eq] at h
        obtain ⟨⟨hb, hce⟩, h2⟩ := h
        subst hb
        simp only [wsCollapseGo, hc, if_true, Bool.false_eq_true, if_false]
        rw [normShapeGo_wsCollapse_fix rest true h2, hce]
      · simp only [normShapeGo, hc, Bool.false_eq_true, if_false] at h
        simp only [wsCollapseGo, hc, Bool.false_eq_true, if_false]
        rw [normShapeGo_wsCollapse_fix rest false h]

theorem dropWhile_eq_self_of_head (p : Char → Bool) (l : List Char)
    (h : ∀ c, l.head? = some c → p c = false) : l.dropWhile p = l := by
  cases l with
  | nil => rfl
  | cons c rest =>
      have h1 := h c rfl
      rw [List.dropWhile_cons, if_neg (by simp [h1])]

theorem jsTrim_fix (l : List Char)
    (hh : ∀ c, l.head? = some c → isSpaceChar c = false)
    (hl : ∀ c, l.getLast? = some c → isSpaceChar c = false) :
    jsTrim l = l := by
  unfold jsTrim
  rw [dropWhile_eq_self_of_head _ _ hh]
  rw [dropWhile_eq_self_of_head _ _ (by
    intro c hc
    rw [List.head?_reverse] at hc
    exact hl c hc)]
  exact List.reverse_reverse l

theorem normShape_head_not (l : List Char) (h : normShape l = true) :
    ∀ c, l.head? = some c → isSpaceChar c = false := by
  intro c hc
  cases l with
  | nil => simp at hc
  | cons d rest =>
      have hcd : c = d := by simpa using hc.symm
      subst hcd
      by_cases hd : isSpaceChar c = true
      · simp [normShape, normShapeGo, hd] at h
      · simpa using hd

theorem normShapeGo_getLast_not : ∀ (l : List Char) (b : Bool), normShapeGo b l = true →
    ∀ c, l.getLast? = some c → isSpaceChar c = false
  | [], _ => by intro _ c hc; simp at hc
  | [c0], b => by
      intro h c hc
      have hcc : c0 = c := by simpa using hc
      subst hcc
      by_cases hc0 : isSpaceChar c0 = true
      · simp [normShapeGo, hc0] at h
      · simpa using hc0
  | c0 :: c1 :: rest, b => by
      intro h c hc
      rw [List.getLast?_cons_cons] at hc
      by_cases hc0 : isSpaceChar c0 = true
      · simp only [normShapeGo, hc0, if_true, Bool.and_eq_true] at h
        exact normShapeGo_getLast_not (c1 :: rest) true h.2 c hc
      · simp only [normShapeGo, hc0] at h
        exact normShapeGo_getLast_not (c1 :: rest) false h c hc

/-- Normal-shaped text is a fixed point of `normalizeText`. -/
theorem normalizeText_fix (l : List Char) (h : normShape l = true) :
    normalizeText l = l := by
  cases l with
  | nil => rfl
  | cons c rest =>
      have hgo : normShapeGo true (c :: rest) = true := by simpa [normShape] using h
      have hh := normShape_head_not _ h
      have hl := normShapeGo_getLast_not (c :: rest) true hgo
      unfold normalizeText
      rw [jsTrim_fix _ hh hl]
      exact normShapeGo_wsCollapse_fix (c :: rest) false (normShapeGo_relax _ hgo)

theorem normShapeGo_append (s2 : List Char) (h2 : normShapeGo false s2 = true) :
    ∀ (s : List Char) (b : Bool), normShapeGo b s = true → normShapeGo b (s ++ s2) = true
  | [], b => by
      intro h
      have hb : b = false := by simpa [normShapeGo] using h
      subst hb
      simpa using h2
  | c :: rest, b => by
      intro h
      rw [List.cons_append]
      by_cases hc : isSpaceChar c = true
      · simp only [normShapeGo, hc, if_true, Bool.and_eq_true] at h ⊢
        exact ⟨h.1, normShapeGo_append s2 h2 rest true h.2⟩
      · simp only [normShapeGo, hc] at h ⊢
        exact normShapeGo_append s2 h2 rest false h

/-- Normal shape is closed under concatenation: a normalized piece ends in
a non-space and the next begins with one, so the junction is sound. -/
theorem normShape_append (s s2 : List Char) (h : normShape s = true)
    (h2 : normShape s2 = true) : normShape (s ++ s2) = true := by
  cases s with
  | nil => simpa using h2
  | cons c rest =>
      cases s2 with
      | nil => simpa [List.append_nil] using h
      | cons d r2 =>
          have hgo : normShapeGo true (c :: rest) = true := by simpa [normShape] using h
          have hgo2 : normShapeGo true (d :: r2) = true := by simpa [normShape] using h2
          have h3 : normShapeGo true ((c :: rest) ++ (d :: r2)) = true :=
            normShapeGo_append (d :: r2) (normShapeGo_relax _ hgo2) (c :: rest) true hgo
          simpa [normShape, List.cons_append] using h3

theorem anyInk_dropWhile (l : List Char) :
    anyInk (l.dropWhile isSpaceChar) = anyInk l := by
  conv_rhs => rw [← List.takeWhile_append_dropWhile isSpaceChar l]
  show anyInk _ = anyInk (l.takeWhile isSpaceChar ++ l.dropWhile isSpaceChar)
  rw [anyInk, anyInk, List.any_append]
  have h1 : (l.takeWhile isSpaceChar).any (fun c => !isSpaceChar c) = false := by
    rw [List.any_eq_false]
    intro x hx
    have h2 := List.mem_takeWhile_imp hx
    simp [h2]
  rw [h1]
  simp

theorem anyInk_reverse (l : List Char) : anyInk l.reverse = anyInk l := by
  apply boolEq
  simp [anyInk, List.any_eq_true]

theorem anyInk_jsTrim (l : List Char) : anyInk (jsTrim l) = anyInk l := by
  unfold jsTrim
  rw [anyInk_reverse, anyInk_dropWhile, anyInk_reverse, anyInk_dropWhile]

theorem anyInk_wsCollapse : ∀ (l : List Char) (b : Bool),
    anyInk (wsCollapseGo b l) = anyInk l
  | [], _ => rfl
  | c :: rest, b => by
      have ihT := anyInk_wsCollapse rest true
      have ihF := anyInk_wsCollapse rest false
      simp only [anyInk] at ihT ihF
      have hsp : isSpaceChar ' ' = true := rfl
      by_cases hc : isSpaceChar c = true
      · cases b with
        | true => simp [wsCollapseGo, hc, anyInk, ihT]
        | false => simp [wsCollapseGo, hc, anyInk, ihT, hsp]
      · simp [wsCollapseGo, hc, anyInk, ihF]

theorem anyInk_normalizeText (l : List Char) : anyInk (normalizeText l) = anyInk l := by
  unfold normalizeText
  rw [anyInk_wsCollapse, anyInk_jsTrim]

theorem jsTrim_ne_nil_iff (l : List Char) : jsTrim l ≠ [] ↔ anyInk l = true := by
  constructor
  · intro h
    by_contra h2
    have h3 : anyInk l = false := Bool.eq_false_iff.mpr h2
    apply h
    have hall : ∀ x ∈ l, isSpaceChar x = true := by
      intro x hx
      have h4 := List.any_eq_false.mp h3 x hx
      simpa using h4
    have hinner : l.dropWhile isSpaceChar = [] :=
      List.dropWhile_eq_nil_iff.mpr (by intro x hx; exact hall x hx)
    unfold jsTrim
    rw [hinner]
    simp
  · intro h hnil
    have h2 := anyInk_jsTrim l
    rw [hnil, h] at h2
    simp [anyInk] at h2

theorem hasTextB_eq_anyInk (n : Node) : hasTextB n = anyInk (textContentN n) := by
  apply boolEq
  simp only [hasTextB, decide_eq_true_eq, List.length_pos]
  exact jsTrim_ne_nil_iff _

mutual

/-- Every text node of the subtree satisfies `p`. -/
def allTextsN (p : List Char → Bool) : Node → Bool
  | .text s => p s.data
  | .elem _ _ cs => allTextsL p cs
termination_by structural n => n

def allTextsL (p : List Char → Bool) : List Node → Bool
  | [] => true
  | n :: ns => allTextsN p n && allTextsL p ns
termination_by structural l => l

end

/-- Does the forest start with a text node? -/
def textHead : List Node → Bool
  | .text _ :: _ => true
  | _ => false

mutual

/-- The serialize/re-parse normal form: no empty text node, no two adjacent
text nodes, recursively. -/
def renormedN : Node → Bool
  | .text _ => true
  | .elem _ _ cs => renormedL cs
termination_by structural n => n

def renormedL : List Node → Bool
  | [] => true
  | .text s :: ns => !(s = "") && !textHead ns && renormedL ns
  | .elem t a cs :: ns => renormedN (.elem t a cs) && renormedL ns
termination_by structural l => l

end

/-- Boolean duplicate-freedom of a name list. -/
def namesNodupB : List String → Bool
  | [] => true
  | x :: xs => !xs.contains x && namesNodupB xs

theorem namesNodupB_iff (l : List String) : namesNodupB l = true ↔ l.Nodup := by
  induction l with
  | nil => simp [namesNodupB]
  | cons x xs ih =>
      simp only [namesNodupB, Bool.and_eq_true, Bool.not_eq_true', List.nodup_cons, ih]
      constructor
      · rintro ⟨h1, h2⟩
        refine ⟨fun hm => ?_, h2⟩
        rw [← List.elem_iff] at hm
        rw [List.contains, hm] at h1
        cases h1
      · rintro ⟨h1, h2⟩
        refine ⟨?_, h2⟩
        rw [show xs.contains x = false ↔ ¬xs.contains x = true by simp]
        intro hm
        exact h1 (List.elem_iff.mp hm)

mutual

theorem allElemsN_and (p q : Node → Bool) :
    ∀ n : Node, allElemsN p n = true → allElemsN q n = true →
      allElemsN (fun m => p m && q m) n = true
  | .text _ => by simp [allElemsN]
  | .elem t a cs => by
      simp only [allElemsN, Bool.and_eq_true]
      rintro ⟨h1, h2⟩ ⟨h3, h4⟩
      exact ⟨⟨h1, h3⟩, allElemsL_and p q cs h2 h4⟩

theorem allElemsL_and (p q : Node → Bool) :
    ∀ f : List Node, allElemsL p f = true → allElemsL q f = true →
      allElemsL (fun m => p m && q m) f = true
  | [] => by simp [allElemsL]
  | n :: ns => by
      simp only [allElemsL, Bool.and_eq_true]
      rintro ⟨h1, h2⟩ ⟨h3, h4⟩
      exact ⟨allElemsN_and p q n h1 h3, allElemsL_and p q ns h2 h4⟩

end

mutual

theorem existsElemN_impl (p q : Node → Bool) (h : ∀ n, p n = true → q n = true) :
    ∀ n : Node, existsElemN p n = true → existsElemN q n = true
  | .text _ => by simp [existsElemN]
  | .elem t a cs => by
      simp only [existsElemN, Bool.or_eq_true]
      rintro (h1 | h1)
      · exact Or.inl (h _ h1)
      · exact Or.inr (existsElemL_impl p q h cs h1)

theorem existsElemL_impl (p q : Node → Bool) (h : ∀ n, p n = true → q n = true) :
    ∀ f : List Node, existsElemL p f = true → existsElemL q f = true
  | [] => by simp [existsElemL]
  | n :: ns => by
      simp only [existsElemL, Bool.or_eq_true]
      rintro (h1 | h1)
      · exact Or.inl (existsElemN_impl p q h n h1)
      · exact Or.inr (existsElemL_impl p q h ns h1)

end

mutual

/-- A witness of `p` under an `allElems` side condition `r` is a witness of
`q`, when `r` pointwise turns `p` into `q`. -/
theorem existsElemN_impl_under (r p q : Node → Bool)
    (h : ∀ n, r n = true → p n = true → q n = true) :
    ∀ n : Node, allElemsN r n = true → existsElemN p n = true → existsElemN q n = true
  | .text _ => by simp [existsElemN]
  | .elem t a cs => by
      simp only [existsElemN, allElemsN, Bool.or_eq_true, Bool.and_eq_true]
      rintro ⟨hr, hrl⟩ (h1 | h1)
      · exact Or.inl (h _ hr h1)
      · exact Or.inr (existsElemL_impl_under r p q h cs hrl h1)

theorem existsElemL_impl_under (r p q : Node → Bool)
    (h : ∀ n, r n = true → p n = true → q n = true) :
    ∀ f : List Node, allElemsL r f = true → existsElemL p f = true →
      existsElemL q f = true
  | [] => by simp [existsElemL]
  | n :: ns => by
      simp only [existsElemL, allElemsL, Bool.or_eq_true, Bool.and_eq_true]
      rintro ⟨hr, hrl⟩ (h1 | h1)
      · exact Or.inl (existsElemN_impl_under r p q h n hr h1)
      · exact Or.inr (existsElemL_impl_under r p q h ns hrl h1)

end

mutual

/-- An attribute-local invariant survives `removeMatchingN`. -/
theorem removeMatchingN_pres (p q : Node → Bool)
    (hq : ∀ t a cs cs2, q (.elem t a cs) = true → q (.elem t a cs2) = true) :
    ∀ n : Node, allElemsN q n = true → allElemsN q (removeMatchingN p n) = true
  | .text _ => by simp [removeMatchingN, allElemsN]
  | .elem t a cs => by
      simp only [removeMatchingN, allElemsN, Bool.and_eq_true]
      rintro ⟨h1, h2⟩
      exact ⟨hq t a cs _ h1, removeMatchingL_pres p q hq cs h2⟩

theorem removeMatchingL_pres (p q : Node → Bool)
    (hq : ∀ t a cs cs2, q (.elem t a cs) = true → q (.elem t a cs2) = true) :
    ∀ f : List Node, allElemsL q f = true → allElemsL q (removeMatchingL p f) = true
  | [] => by simp [removeMatchingL, allElemsL]
  | .text s :: ns => by
      simp only [removeMatchingL, allElemsL, allElemsN, Bool.true_and]
      exact removeMatchingL_pres p q hq ns
  | .elem t a cs :: ns => by
      simp only [allElemsL, Bool.and_eq_true, removeMatchingL]
      rintro ⟨h1, h2⟩
      split
      · exact removeMatchingL_pres p q hq ns h2
      · simp only [allElemsL, Bool.and_eq_true]
        exact ⟨removeMatchingN_pres p q hq _ h1, removeMatchingL_pres p q hq ns h2⟩

end

mutual

/-- Every element kept by `removeMatchingN` had `p = false`; an
attribute-local consequence `q` of that therefore holds everywhere in the
output. -/
theorem removeMatchingN_estab (p q : Node → Bool)
    (hq : ∀ t a cs cs2, q (.elem t a cs) = true → q (.elem t a cs2) = true)
    (himp : ∀ n, p n = false → q n = true) :
    ∀ n : Node, p n = false → allElemsN q (removeMatchingN p n) = true
  | .text _ => by simp [removeMatchingN, allElemsN]
  | .elem t a cs => by
      intro hp
      simp only [removeMatchingN, allElemsN, Bool.and_eq_true]
      exact ⟨hq t a cs _ (himp _ hp), removeMatchingL_estab p q hq himp cs⟩

theorem removeMatchingL_estab (p q : Node → Bool)
    (hq : ∀ t a cs cs2, q (.elem t a cs) = true → q (.elem t a cs2) = true)
    (himp : ∀ n, p n = false → q n = true) :
    ∀ f : List Node, allElemsL q (removeMatchingL p f) = true
  | [] => by simp [removeMatchingL, allElemsL]
  | .text s :: ns => by
      simp only [removeMatchingL, allElemsL, allElemsN, Bool.true_and]
      exact removeMatchingL_estab p q hq himp ns
  | .elem t a cs :: ns => by
      simp only [removeMatchingL]
      split
      · exact removeMatchingL_estab p q hq himp ns
      · rename_i hp
        simp only [allElemsL, Bool.and_eq_true]
        refine ⟨removeMatchingN_estab p q hq himp _ ?_, removeMatchingL_estab p q hq himp ns⟩
        simpa using hp

end

/-- A non-empty witness makes `removeEmptyElements` keep the node. -/
theorem nfEmpty_false_of_void (n : Node) (h : voidTags.contains n.tagOf = true) :
    nfEmpty n = false := by
  simp only [nfEmpty, h, Bool.not_true, Bool.false_and, Bool.and_false]

theorem nfEmpty_false_of_text (n : Node) (h : hasTextB n = true) :
    nfEmpty n = false := by
  simp only [nfEmpty, h, Bool.not_true, Bool.false_and, Bool.and_false]

theorem nfEmpty_false_of_image (n : Node) (h : hasImageB n = true) :
    nfEmpty n = false := by
  simp only [nfEmpty, h, Bool.not_true, Bool.false_and, Bool.and_false]

theorem nfEmpty_false_of_br (n : Node) (h : hasBrB n = true) :
    nfEmpty n = false := by
  simp only [nfEmpty, h, Bool.not_true, Bool.false_and, Bool.and_false]

theorem nfEmpty_false_of_input (n : Node) (h : hasInputB n = true) :
    nfEmpty n = false := by
  simp only [nfEmpty, h, Bool.not_true, Bool.false_and, Bool.and_false]

theorem anyInk_append (a b : List Char) : anyInk (a ++ b) = (anyInk a || anyInk b) := by
  simp [anyInk]

/-- The element carries this tag. -/
def tagIs (t0 : String) (n : Node) : Bool := n.tagOf = t0

mutual

/-- A `q`-tagged witness survives `removeEmptyElements` when the witness
itself and every ancestor it certifies are kept. -/
theorem existsElemN_surv (q : Node → Bool)
    (hanc : ∀ t a cs, existsElemL q cs = true → nfEmpty (.elem t a cs) = false)
    (hself : ∀ n, q n = true → nfEmpty n = false)
    (hloc : ∀ t a cs cs2, q (.elem t a cs) = true → q (.elem t a cs2) = true) :
    ∀ n : Node, existsElemN q n = true → existsElemN q (removeMatchingN nfEmpty n) = true
  | .text _ => by simp [existsElemN]
  | .elem t a cs => by
      simp only [removeMatchingN, existsElemN, Bool.or_eq_true]
      rintro (h1 | h1)
      · exact Or.inl (hloc t a cs _ h1)
      · exact Or.inr (existsElemL_surv q hanc hself hloc cs h1)

theorem existsElemL_surv (q : Node → Bool)
    (hanc : ∀ t a cs, existsElemL q cs = true → nfEmpty (.elem t a cs) = false)
    (hself : ∀ n, q n = true → nfEmpty n = false)
    (hloc : ∀ t a cs cs2, q (.elem t a cs) = true → q (.elem t a cs2) = true) :
    ∀ f : List Node, existsElemL q f = true → existsElemL q (removeMatchingL nfEmpty f) = true
  | [] => by simp [existsElemL]
  | .text s :: ns => by
      simp only [removeMatchingL, existsElemL, existsElemN, Bool.false_or]
      exact existsElemL_surv q hanc hself hloc ns
  | .elem t a cs :: ns => by
      simp only [existsElemL, Bool.or_eq_true, removeMatchingL]
      rintro (h1 | h1)
      · simp only [existsElemN, Bool.or_eq_true] at h1
        have hne : nfEmpty (.elem t a cs) = false := by
          rcases h1 with h2 | h2
          · exact hself _ h2
          · exact hanc t a cs h2
        rw [if_neg (by simp [hne])]
        simp only [existsElemL, Bool.or_eq_true]
        refine Or.inl (existsElemN_surv q hanc hself hloc _ ?_)
        simp only [existsElemN, Bool.or_eq_true]
        exact h1
      · split
        · exact existsElemL_surv q hanc hself hloc ns h1
        · simp only [existsElemL, Bool.or_eq_true]
          exact Or.inr (existsElemL_surv q hanc hself hloc ns h1)

end

mutual

/-- Ink (a non-space text character) survives `removeEmptyElements`: every
ancestor of the text node has non-blank text content and is kept. -/
theorem inkSurvN :
    ∀ n : Node, anyInk (textContentN n) = true →
      anyInk (textContentN (removeMatchingN nfEmpty n)) = true
  | .text s => by simp [removeMatchingN]
  | .elem t a cs => by
      simp only [removeMatchingN, textContentN]
      exact inkSurvL cs

theorem inkSurvL :
    ∀ f : List Node, anyInk (textContentL f) = true →
      anyInk (textContentL (removeMatchingL nfEmpty f)) = true
  | [] => by intro h; exact h
  | .text s :: ns => by
      simp only [removeMatchingL, textContentL, textContentN, anyInk_append, Bool.or_eq_true]
      rintro (h1 | h1)
      · exact Or.inl h1
      · exact Or.inr (inkSurvL ns h1)
  | .elem t a cs :: ns => by
      simp only [textContentL, textContentN, anyInk_append, Bool.or_eq_true, removeMatchingL]
      rintro (h1 | h1)
      · have htx : hasTextB (.elem t a cs) = true := by
          rw [hasTextB_eq_anyInk]
          simpa [textContentN] using h1
        have hne := nfEmpty_false_of_text _ htx
        rw [if_neg (by simp [hne])]
        simp only [textContentL, anyInk_append, Bool.or_eq_true]
        refine Or.inl ?_
        exact inkSurvN (.elem t a cs) (by simpa [textContentN] using h1)
      · split
        · exact inkSurvL ns h1
        · simp only [textContentL, anyInk_append, Bool.or_eq_true]
          exact Or.inr (inkSurvL ns h1)

end

/-- Under the fragile-tag exclusion, a media witness is an `img`. -/
theorem media_good_img (n : Node) (hr : (!fragileTags.contains n.tagOf) = true)
    (hp : mediaTags.contains n.tagOf = true) : tagIs "img" n = true := by
  simp only [tagIs, decide_eq_true_eq]
  have hm : n.tagOf = "img" ∨ n.tagOf = "svg" ∨ n.tagOf = "canvas" ∨ n.tagOf = "video" := by
    have h2 : n.tagOf ∈ mediaTags := by simpa using hp
    simpa [mediaTags] using h2
  have hf : ¬(n.tagOf ∈ fragileTags) := by simpa using hr
  rcases hm with h | h | h | h
  · exact h
  · exact absurd (by simp [fragileTags, h]) hf
  · exact absurd (by simp [fragileTags, h]) hf
  · exact absurd (by simp [fragileTags, h]) hf

/-- Under the fragile-tag exclusion, a form-control witness is an `input`. -/
theorem input_good_input (n : Node) (hr : (!fragileTags.contains n.tagOf) = true)
    (hp : inputTags.contains n.tagOf = true) : tagIs "input" n = true := by
  simp only [tagIs, decide_eq_true_eq]
  have hm : n.tagOf = "input" ∨ n.tagOf = "textarea" ∨ n.tagOf = "select" := by
    have h2 : n.tagOf ∈ inputTags := by simpa using hp
    simpa [inputTags] using h2
  have hf : ¬(n.tagOf ∈ fragileTags) := by simpa using hr
  rcases hm with h | h | h
  · exact h
  · exact absurd (by simp [fragileTags, h]) hf
  · exact absurd (by simp [fragileTags, h]) hf

theorem tagIs_loc (t0 t : String) (a : List (String × String)) (cs cs2 : List Node)
    (h : tagIs t0 (.elem t a cs) = true) : tagIs t0 (.elem t a cs2) = true := by
  simpa [tagIs, Node.tagOf] using h

theorem nfEmpty_false_of_img_witness (t : String) (a : List (String × String))
    (cs : List Node) (h : existsElemL (tagIs "img") cs = true) :
    nfEmpty (.elem t a cs) = false := by
  apply nfEmpty_false_of_image
  show existsElemL (fun m => mediaTags.contains m.tagOf) cs = true
  refine existsElemL_impl _ _ ?_ cs h
  intro m hm
  simp only [tagIs, decide_eq_true_eq] at hm
  simp [mediaTags, hm]

theorem nfEmpty_false_of_br_witness (t : String) (a : List (String × String))
    (cs : List Node) (h : existsElemL (tagIs "br") cs = true) :
    nfEmpty (.elem t a cs) = false := by
  apply nfEmpty_false_of_br
  show existsElemL (fun m => m.tagOf = "br") cs = true
  refine existsElemL_impl _ _ ?_ cs h
  intro m hm
  simpa [tagIs] using hm

theorem nfEmpty_false_of_input_witness (t : String) (a : List (String × String))
    (cs : List Node) (h : existsElemL (tagIs "input") cs = true) :
    nfEmpty (.elem t a cs) = false := by
  apply nfEmpty_false_of_input
  show existsElemL (fun m => inputTags.contains m.tagOf) cs = true
  refine existsElemL_impl _ _ ?_ cs h
  intro m hm
  simp only [tagIs, decide_eq_true_eq] at hm
  simp [inputTags, hm]

theorem tagIs_nfEmpty_false (t0 : String) (hvoid : voidTags.contains t0 = true) :
    ∀ n : Node, tagIs t0 n = true → nfEmpty n = false := by
  intro n hn
  apply nfEmpty_false_of_void
  simp only [tagIs, decide_eq_true_eq] at hn
  rw [hn]
  exact hvoid

/-- A kept element keeps a witness of non-emptiness: its void tag, surviving
ink, or a surviving void witness element (`img`, `br`, `input` under the
fragile-tag exclusion). -/
theorem nfEmpty_kept (t : String) (a : List (String × String)) (cs : List Node)
    (hg : allElemsL (fun m => !fragileTags.contains m.tagOf) cs = true)
    (h : nfEmpty (.elem t a cs) = false) :
    nfEmpty (.elem t a (removeMatchingL nfEmpty cs)) = false := by
  by_cases hv : voidTags.contains (Node.tagOf (.elem t a cs)) = true
  · exact nfEmpty_false_of_void _ (by simpa [Node.tagOf] using hv)
  by_cases ht : hasTextB (.elem t a cs) = true
  · apply nfEmpty_false_of_text
    rw [hasTextB_eq_anyInk] at ht ⊢
    simp only [textContentN] at ht ⊢
    exact inkSurvL cs ht
  by_cases hi : hasImageB (.elem t a cs) = true
  · apply nfEmpty_false_of_image
    have himg : existsElemL (tagIs "img") cs = true := by
      refine existsElemL_impl_under (fun m => !fragileTags.contains m.tagOf) _ _
        media_good_img cs hg ?_
      simpa [hasImageB, Node.childrenOf] using hi
    have hs := existsElemL_surv (tagIs "img") nfEmpty_false_of_img_witness
      (tagIs_nfEmpty_false "img" (by decide)) (tagIs_loc "img") cs himg
    show existsElemL (fun m => mediaTags.contains m.tagOf) (removeMatchingL nfEmpty cs) = true
    refine existsElemL_impl _ _ ?_ _ hs
    intro m hm
    simp only [tagIs, decide_eq_true_eq] at hm
    simp [mediaTags, hm]
  by_cases hb : hasBrB (.elem t a cs) = true
  · apply nfEmpty_false_of_br
    have hbr : existsElemL (tagIs "br") cs = true := by
      refine existsElemL_impl _ _ ?_ cs (by simpa [hasBrB, Node.childrenOf] using hb)
      intro m hm
      simpa [tagIs] using hm
    have hs := existsElemL_surv (tagIs "br") nfEmpty_false_of_br_witness
      (tagIs_nfEmpty_false "br" (by decide)) (tagIs_loc "br") cs hbr
    show existsElemL (fun m => m.tagOf = "br") (removeMatchingL nfEmpty cs) = true
    refine existsElemL_impl _ _ ?_ _ hs
    intro m hm
    simpa [tagIs] using hm
  by_cases hin : hasInputB (.elem t a cs) = true
  · apply nfEmpty_false_of_input
    have hinp : existsElemL (tagIs "input") cs = true := by
      refine existsElemL_impl_under (fun m => !fragileTags.contains m.tagOf) _ _
        input_good_input cs hg ?_
      simpa [hasInputB, Node.childrenOf] using hin
    have hs := existsElemL_surv (tagIs "input") nfEmpty_false_of_input_witness
      (tagIs_nfEmpty_false "input" (by decide)) (tagIs_loc "input") cs hinp
    show existsElemL (fun m => inputTags.contains m.tagOf) (removeMatchingL nfEmpty cs) = true
    refine existsElemL_impl _ _ ?_ _ hs
    intro m hm
    simp only [tagIs, decide_eq_true_eq] at hm
    simp [inputTags, hm]
  · exfalso
    have hcon : nfEmpty (.elem t a cs) = true := by
      simp only [nfEmpty]
      rw [Bool.eq_false_iff.mpr hv, Bool.eq_false_iff.mpr ht, Bool.eq_false_iff.mpr hi,
        Bool.eq_false_iff.mpr hb, Bool.eq_false_iff.mpr hin]
      rfl
    rw [h] at hcon
    cases hcon

mutual

/-- After `removeEmptyElements` on a fragile-tag-free forest, no element of
the output is empty: every survivor keeps a witness. -/
theorem removeEmptyN_estab :
    ∀ n : Node, allElemsN (fun m => !fragileTags.contains m.tagOf) n = true →
      nfEmpty n = false →
      allElemsN (fun m => !nfEmpty m) (removeMatchingN nfEmpty n) = true
  | .text _ => by simp [removeMatchingN, allElemsN]
  | .elem t a cs => by
      simp only [allElemsN, Bool.and_eq_true, removeMatchingN]
      rintro ⟨hg1, hg2⟩ hne
      refine ⟨?_, removeEmptyL_estab cs hg2⟩
      simp only [Bool.not_eq_true']
      exact nfEmpty_kept t a cs hg2 hne

theorem removeEmptyL_estab :
    ∀ f : List Node, allElemsL (fun m => !fragileTags.contains m.tagOf) f = true →
      allElemsL (fun m => !nfEmpty m) (removeMatchingL nfEmpty f) = true
  | [] => by simp [removeMatchingL, allElemsL]
  | .text s :: ns => by
      simp only [allElemsL, allElemsN, Bool.true_and, removeMatchingL]
      exact removeEmptyL_estab ns
  | .elem t a cs :: ns => by
      simp only [allElemsL, Bool.and_eq_true, removeMatchingL]
      rintro ⟨hg1, hg2⟩
      split
      · exact removeEmptyL_estab ns hg2
      · rename_i hp
        simp only [allElemsL, Bool.and_eq_true]
        refine ⟨removeEmptyN_estab _ hg1 ?_, removeEmptyL_estab ns hg2⟩
        simpa using hp

end

/-- Duplicate removal keeps the first attribute of each name, so
`getAttribute` is unchanged. -/
theorem dedupAttrsGo_find? : ∀ (a : List (String × String)) (seen : List String)
    (nm : String), nm ∉ seen →
    List.find? (fun x => x.1 = nm) (dedupAttrsGo seen a) =
      List.find? (fun x => x.1 = nm) a
  | [], seen, nm => by intro _; rfl
  | p :: rest, seen, nm => by
      intro hnm
      by_cases hpe : p.1 = nm
      · have hs : seen.contains p.1 = false := by
          rw [hpe]
          by_contra hc
          have h2 : seen.contains nm = true := by simpa using hc
          exact hnm (by simpa using h2)
        simp only [dedupAttrsGo, hs, Bool.false_eq_true, if_false]
        simp [List.find?_cons, hpe]
      · by_cases hs : seen.contains p.1 = true
        · simp only [dedupAttrsGo, hs, if_true]
          rw [dedupAttrsGo_find? rest seen nm hnm]
          simp [List.find?_cons, hpe]
        · have hs2 : seen.contains p.1 = false := Bool.eq_false_iff.mpr hs
          simp only [dedupAttrsGo, hs2, Bool.false_eq_true, if_false]
          simp only [List.find?_cons]
          rw [show (decide (p.1 = nm)) = false by simp [hpe]]
          exact dedupAttrsGo_find? rest (p.1 :: seen) nm (by
            intro hmem
            rcases List.mem_cons.mp hmem with h | h
            · exact hpe h.symm
            · exact hnm h)

/-- After duplicate removal the attribute names are duplicate-free and
disjoint from `seen`. -/
theorem dedupAttrsGo_names_nodup : ∀ (a : List (String × String)) (seen : List String),
    ((dedupAttrsGo seen a).map Prod.fst).Nodup ∧
      ∀ nm ∈ seen, nm ∉ (dedupAttrsGo seen a).map Prod.fst
  | [], seen => ⟨List.nodup_nil, by simp [dedupAttrsGo]⟩
  | p :: rest, seen => by
      by_cases hs : seen.contains p.1 = true
      · simp only [dedupAttrsGo, hs, if_true]
        exact dedupAttrsGo_names_nodup rest seen
      · have hs2 : seen.contains p.1 = false := Bool.eq_false_iff.mpr hs
        simp only [dedupAttrsGo, hs2, Bool.false_eq_true, if_false]
        obtain ⟨h1, h2⟩ := dedupAttrsGo_names_nodup rest (p.1 :: seen)
        constructor
        · simp only [List.map_cons, List.nodup_cons]
          exact ⟨h2 p.1 (List.mem_cons_self _ _), h1⟩
        · intro nm hnm
          simp only [List.map_cons, List.mem_cons, not_or]
          constructor
          · intro he
            rw [he] at hnm
            have hp : p.1 ∉ seen := by simpa using hs2
            exact hp hnm
          · exact h2 nm (List.mem_cons_of_mem _ hnm)

/-- Duplicate removal fixes an attribute list with duplicate-free names. -/
theorem dedupAttrsGo_fix : ∀ (a : List (String × String)) (seen : List String),
    (∀ nm ∈ a.map Prod.fst, nm ∉ seen) → (a.map Prod.fst).Nodup →
    dedupAttrsGo seen a = a
  | [], seen => by intro _ _; rfl
  | p :: rest, seen => by
      intro hdis hnd
      have hs : seen.contains p.1 = false := by
        have hp : p.1 ∉ seen := hdis p.1 (by simp)
        simpa using hp
      simp only [dedupAttrsGo, hs, Bool.false_eq_true, if_false]
      congr 1
      simp only [List.map_cons, List.nodup_cons] at hnd
      refine dedupAttrsGo_fix rest (p.1 :: seen) ?_ hnd.2
      intro nm hm hmem
      rcases List.mem_cons.mp hmem with h | h
      · rw [h] at hm
        exact hnd.1 hm
      · exact hdis nm (by simp [hm]) h

/-- Filtering keeps `find?` for a name every entry of which passes the
filter. -/
theorem find?_filter_of_imp {α : Type} (q pm : α → Bool)
    (himp : ∀ x, pm x = true → q x = true) :
    ∀ l : List α, List.find? pm (l.filter q) = List.find? pm l
  | [] => rfl
  | x :: rest => by
      by_cases hq : q x = true
      · simp only [List.filter_cons, hq, if_true]
        cases hpm : pm x with
        | true => simp [List.find?_cons, hpm]
        | false =>
            simp only [List.find?_cons, hpm]
            exact find?_filter_of_imp q pm himp rest
      · have hq2 : q x = false := Bool.eq_false_iff.mpr hq
        have hpm : pm x = false := by
          by_contra hc
          have h2 : pm x = true := by simpa using hc
          exact hq (himp x h2)
        simp only [List.filter_cons, hq2, Bool.false_eq_true, if_false]
        rw [find?_filter_of_imp q pm himp rest]
        simp [List.find?_cons, hpm]

theorem getAttr_dedupAttrs (a : List (String × String)) (nm : String) :
    getAttr (dedupAttrs a) nm = getAttr a nm := by
  unfold getAttr dedupAttrs
  rw [dedupAttrsGo_find? a [] nm (by simp)]

theorem getAttr_filter_kept (t : String) (a : List (String × String)) (nm : String)
    (h : nfAttrKept t nm = true) :
    getAttr (a.filter (fun p => nfAttrKept t p.1)) nm = getAttr a nm := by
  unfold getAttr
  rw [find?_filter_of_imp (fun p => nfAttrKept t p.1) (fun x => x.1 = nm)
    (fun x hx => by
      have hx2 : x.1 = nm := of_decide_eq_true hx
      show nfAttrKept t x.1 = true
      rw [hx2]
      exact h) a]

theorem getAttr_none_of_all_kept (t : String) (a : List (String × String))
    (h : a.all (fun p => nfAttrKept t p.1) = true) (nm : String)
    (hnm : nfAttrKept t nm = false) : getAttr a nm = none := by
  unfold getAttr
  rw [List.find?_eq_none.mpr ?_]
  · rfl
  · intro x hx hpx
    have h1 := List.all_eq_true.mp h x hx
    have h2 := of_decide_eq_true hpx
    rw [h2] at h1
    rw [h1] at hnm
    cases hnm

theorem not_mem_tagAllowed (nm : String)
    (htab : ∀ e ∈ nfTagAllowedTable, nm ∉ e.2) (t : String) : nm ∉ nfTagAllowed t := by
  unfold nfTagAllowed
  cases hf : nfTagAllowedTable.find? (fun e => e.1 = t) with
  | none => simp
  | some e =>
      have hm := List.mem_of_find?_eq_some hf
      simpa using htab e hm

theorem nfAttrKept_not_mem (nm : String) (t : String)
    (h1 : strStartsWith nm "data-" = false) (h2 : strStartsWith nm "aria-" = false)
    (h3 : nm ∉ nfGlobalAllowed) (h4 : ∀ e ∈ nfTagAllowedTable, nm ∉ e.2) :
    nfAttrKept t nm = false := by
  rw [nfAttrKept, h1, h2]
  simp only [Bool.false_or]
  rw [Bool.eq_false_iff]
  intro hc
  have hm : nm ∈ nfGlobalAllowed ++ nfTagAllowed t := by simpa using hc
  rcases List.mem_append.mp hm with h | h
  · exact h3 h
  · exact not_mem_tagAllowed nm h4 t h

/-- `cleanAttributes` never admits a `style` attribute, on any tag. -/
theorem nfAttrKept_style (t : String) : nfAttrKept t "style" = false :=
  nfAttrKept_not_mem "style" t (by decide) (by decide) (by decide) (by decide)

/-- `cleanAttributes` never admits a `hidden` attribute, on any tag. -/
theorem nfAttrKept_hidden (t : String) : nfAttrKept t "hidden" = false :=
  nfAttrKept_not_mem "hidden" t (by decide) (by decide) (by decide) (by decide)

/-- `cleanAttributes` always keeps `aria-*` attributes. -/
theorem nfAttrKept_aria (t : String) : nfAttrKept t "aria-hidden" = true := by
  have h : strStartsWith "aria-hidden" "aria-" = true := by decide
  simp [nfAttrKept, h]

theorem styleHidden_of_no_style (n : Node) (h : nodeAttr n "style" = none) :
    styleHidden n = false := by
  have h0 : styleAttrOf n = "" := by simp [styleAttrOf, h]
  unfold styleHidden
  rw [h0]
  decide

theorem nfHidden_false_of (n : Node) (hstyle : nodeAttr n "style" = none)
    (hhid : nodeAttr n "hidden" = none) (haria : ariaHiddenTrue n = false) :
    nfHidden n = false := by
  unfold nfHidden
  rw [styleHidden_of_no_style n hstyle, haria, hhid]
  rfl

/-- `removeEmptyElements`' test only looks at the tag, the text content's
ink, and the tag-classes of descendants. -/
theorem nfEmpty_congr (t : String) (a a2 : List (String × String)) (cs cs2 : List Node)
    (hink : anyInk (textContentL cs2) = anyInk (textContentL cs))
    (hmedia : existsElemL (fun m => mediaTags.contains m.tagOf) cs2
      = existsElemL (fun m => mediaTags.contains m.tagOf) cs)
    (hbr : existsElemL (fun m => m.tagOf = "br") cs2
      = existsElemL (fun m => m.tagOf = "br") cs)
    (hinp : existsElemL (fun m => inputTags.contains m.tagOf) cs2
      = existsElemL (fun m => inputTags.contains m.tagOf) cs) :
    nfEmpty (.elem t a2 cs2) = nfEmpty (.elem t a cs) := by
  have e1 : hasTextB (.elem t a2 cs2) = hasTextB (.elem t a cs) := by
    rw [hasTextB_eq_anyInk, hasTextB_eq_anyInk]
    show anyInk (textContentL cs2) = anyInk (textContentL cs)
    exact hink
  have e2 : hasImageB (.elem t a2 cs2) = hasImageB (.elem t a cs) := by
    show existsElemL (fun m => mediaTags.contains m.tagOf) cs2
      = existsElemL (fun m => mediaTags.contains m.tagOf) cs
    exact hmedia
  have e3 : hasBrB (.elem t a2 cs2) = hasBrB (.elem t a cs) := by
    show existsElemL (fun m => m.tagOf = "br") cs2
      = existsElemL (fun m => m.tagOf = "br") cs
    exact hbr
  have e4 : hasInputB (.elem t a2 cs2) = hasInputB (.elem t a cs) := by
    show existsElemL (fun m => inputTags.contains m.tagOf) cs2
      = existsElemL (fun m => inputTags.contains m.tagOf) cs
    exact hinp
  unfold nfEmpty
  rw [e1, e2, e3, e4]
  rfl

mutual

theorem textContent_dedupN : ∀ n : Node, textContentN (dedupAttrsN n) = textContentN n
  | .text s => rfl
  | .elem t a cs => by
      simp only [dedupAttrsN, textContentN]
      exact textContent_dedupL cs

theorem textContent_dedupL : ∀ f : List Node, textContentL (dedupAttrsL f) = textContentL f
  | [] => rfl
  | n :: ns => by
      simp only [dedupAttrsL, textContentL]
      rw [textContent_dedupN n, textContent_dedupL ns]

end

mutual

theorem existsElem_dedupN (p : Node → Bool)
    (hp : ∀ t a cs a2 cs2, p (.elem t a cs) = p (.elem t a2 cs2)) :
    ∀ n : Node, existsElemN p (dedupAttrsN n) = existsElemN p n
  | .text s => rfl
  | .elem t a cs => by
      simp only [dedupAttrsN, existsElemN]
      rw [existsElem_dedupL p hp cs, hp t (dedupAttrs a) (dedupAttrsL cs) a cs]

theorem existsElem_dedupL (p : Node → Bool)
    (hp : ∀ t a cs a2 cs2, p (.elem t a cs) = p (.elem t a2 cs2)) :
    ∀ f : List Node, existsElemL p (dedupAttrsL f) = existsElemL p f
  | [] => rfl
  | n :: ns => by
      simp only [dedupAttrsL, existsElemL]
      rw [existsElem_dedupN p hp n, existsElem_dedupL p hp ns]

end

mutual

theorem dedup_presN (q : Node → Bool)
    (hq : ∀ t a cs cs2, q (.elem t a cs) = true → q (.elem t (dedupAttrs a) cs2) = true) :
    ∀ n : Node, allElemsN q n = true → allElemsN q (dedupAttrsN n) = true
  | .text s => by simp [dedupAttrsN, allElemsN]
  | .elem t a cs => by
      simp only [dedupAttrsN, allElemsN, Bool.and_eq_true]
      rintro ⟨h1, h2⟩
      exact ⟨hq t a cs _ h1, dedup_presL q hq cs h2⟩

theorem dedup_presL (q : Node → Bool)
    (hq : ∀ t a cs cs2, q (.elem t a cs) = true → q (.elem t (dedupAttrs a) cs2) = true) :
    ∀ f : List Node, allElemsL q f = true → allElemsL q (dedupAttrsL f) = true
  | [] => by simp [dedupAttrsL, allElemsL]
  | n :: ns => by
      simp only [dedupAttrsL, allElemsL, Bool.and_eq_true]
      rintro ⟨h1, h2⟩
      exact ⟨dedup_presN q hq n h1, dedup_presL q hq ns h2⟩

end

mutual

theorem dedup_empty_presN :
    ∀ n : Node, allElemsN (fun m => !nfEmpty m) n = true →
      allElemsN (fun m => !nfEmpty m) (dedupAttrsN n) = true
  | .text s => by simp [dedupAttrsN, allElemsN]
  | .elem t a cs => by
      simp only [dedupAttrsN, allElemsN, Bool.and_eq_true]
      rintro ⟨h1, h2⟩
      refine ⟨?_, dedup_empty_presL cs h2⟩
      rw [show nfEmpty (.elem t (dedupAttrs a) (dedupAttrsL cs)) = nfEmpty (.elem t a cs) from
        nfEmpty_congr t a (dedupAttrs a) cs (dedupAttrsL cs)
          (by rw [textContent_dedupL cs])
          (existsElem_dedupL (fun m => mediaTags.contains m.tagOf)
            (fun _ _ _ _ _ => rfl) cs)
          (existsElem_dedupL (fun m => m.tagOf = "br")
            (fun _ _ _ _ _ => rfl) cs)
          (existsElem_dedupL (fun m => inputTags.contains m.tagOf)
            (fun _ _ _ _ _ => rfl) cs)]
      exact h1

theorem dedup_empty_presL :
    ∀ f : List Node, allElemsL (fun m => !nfEmpty m) f = true →
      allElemsL (fun m => !nfEmpty m) (dedupAttrsL f) = true
  | [] => by simp [dedupAttrsL, allElemsL]
  | n :: ns => by
      simp only [dedupAttrsL, allElemsL, Bool.and_eq_true]
      rintro ⟨h1, h2⟩
      exact ⟨dedup_empty_presN n h1, dedup_empty_presL ns h2⟩

end

mutual

theorem dedup_fixN :
    ∀ n : Node, allElemsN (fun m => namesNodupB (m.attrsOf.map Prod.fst)) n = true →
      dedupAttrsN n = n
  | .text s => by intro _; rfl
  | .elem t a cs => by
      simp only [allElemsN, Bool.and_eq_true]
      rintro ⟨h1, h2⟩
      simp only [dedupAttrsN]
      rw [dedup_fixL cs h2]
      have hnd : (a.map Prod.fst).Nodup := by
        rw [← namesNodupB_iff]
        simpa [Node.attrsOf] using h1
      rw [show dedupAttrs a = a from dedupAttrsGo_fix a [] (by simp) hnd]

theorem dedup_fixL :
    ∀ f : List Node, allElemsL (fun m => namesNodupB (m.attrsOf.map Prod.fst)) f = true →
      dedupAttrsL f = f
  | [] => by intro _; rfl
  | n :: ns => by
      simp only [allElemsL, Bool.and_eq_true]
      rintro ⟨h1, h2⟩
      simp only [dedupAttrsL]
      rw [dedup_fixN n h1, dedup_fixL ns h2]

end

mutual

theorem dedup_estabN :
    ∀ n : Node, allElemsN (fun m => namesNodupB (m.attrsOf.map Prod.fst))
      (dedupAttrsN n) = true
  | .text s => by simp [dedupAttrsN, allElemsN]
  | .elem t a cs => by
      simp only [dedupAttrsN, allElemsN, Bool.and_eq_true]
      refine ⟨?_, dedup_estabL cs⟩
      simp only [Node.attrsOf]
      rw [namesNodupB_iff]
      exact (dedupAttrsGo_names_nodup a []).1

theorem dedup_estabL :
    ∀ f : List Node, allElemsL (fun m => namesNodupB (m.attrsOf.map Prod.fst))
      (dedupAttrsL f) = true
  | [] => by simp [dedupAttrsL, allElemsL]
  | n :: ns => by
      simp only [dedupAttrsL, allElemsL, Bool.and_eq_true]
      exact ⟨dedup_estabN n, dedup_estabL ns⟩

end

mutual

theorem textContent_cleanN : ∀ n : Node, textContentN (cleanAttrsN n) = textContentN n
  | .text s => rfl
  | .elem t a cs => by
      simp only [cleanAttrsN, textContentN]
      exact textContent_cleanL cs

theorem textContent_cleanL : ∀ f : List Node, textContentL (cleanAttrsL f) = textContentL f
  | [] => rfl
  | n :: ns => by
      simp only [cleanAttrsL, textContentL]
      rw [textContent_cleanN n, textContent_cleanL ns]

end

mutual

theorem existsElem_cleanN (p : Node → Bool)
    (hp : ∀ t a cs a2 cs2, p (.elem t a cs) = p (.elem t a2 cs2)) :
    ∀ n : Node, existsElemN p (cleanAttrsN n) = existsElemN p n
  | .text s => rfl
  | .elem t a cs => by
      simp only [cleanAttrsN, existsElemN]
      rw [existsElem_cleanL p hp cs,
        hp t (a.filter (fun x => nfAttrKept t x.1)) (cleanAttrsL cs) a cs]

theorem existsElem_cleanL (p : Node → Bool)
    (hp : ∀ t a cs a2 cs2, p (.elem t a cs) = p (.elem t a2 cs2)) :
    ∀ f : List Node, existsElemL p (cleanAttrsL f) = existsElemL p f
  | [] => rfl
  | n :: ns => by
      simp only [cleanAttrsL, existsElemL]
      rw [existsElem_cleanN p hp n, existsElem_cleanL p hp ns]

end

mutual

theorem clean_presN (q : Node → Bool)
    (hq : ∀ t a cs cs2, q (.elem t a cs) = true →
      q (.elem t (a.filter (fun x => nfAttrKept t x.1)) cs2) = true) :
    ∀ n : Node, allElemsN q n = true → allElemsN q (cleanAttrsN n) = true
  | .text s => by simp [cleanAttrsN, allElemsN]
  | .elem t a cs => by
      simp only [cleanAttrsN, allElemsN, Bool.and_eq_true]
      rintro ⟨h1, h2⟩
      exact ⟨hq t a cs _ h1, clean_presL q hq cs h2⟩

theorem clean_presL (q : Node → Bool)
    (hq : ∀ t a cs cs2, q (.elem t a cs) = true →
      q (.elem t (a.filter (fun x => nfAttrKept t x.1)) cs2) = true) :
    ∀ f : List Node, allElemsL q f = true → allElemsL q (cleanAttrsL f) = true
  | [] => by simp [cleanAttrsL, allElemsL]
  | n :: ns => by
      simp only [cleanAttrsL, allElemsL, Bool.and_eq_true]
      rintro ⟨h1, h2⟩
      exact ⟨clean_presN q hq n h1, clean_presL q hq ns h2⟩

end

mutual

theorem clean_empty_presN :
    ∀ n : Node, allElemsN (fun m => !nfEmpty m) n = true →
      allElemsN (fun m => !nfEmpty m) (cleanAttrsN n) = true
  | .text s => by simp [cleanAttrsN, allElemsN]
  | .elem t a cs => by
      simp only [cleanAttrsN, allElemsN, Bool.and_eq_true]
      rintro ⟨h1, h2⟩
      refine ⟨?_, clean_empty_presL cs h2⟩
      rw [show nfEmpty (.elem t (a.filter (fun x => nfAttrKept t x.1)) (cleanAttrsL cs))
          = nfEmpty (.elem t a cs) from
        nfEmpty_congr t a _ cs (cleanAttrsL cs)
          (by rw [textContent_cleanL cs])
          (existsElem_cleanL (fun m => mediaTags.contains m.tagOf)
            (fun _ _ _ _ _ => rfl) cs)
          (existsElem_cleanL (fun m => m.tagOf = "br")
            (fun _ _ _ _ _ => rfl) cs)
          (existsElem_cleanL (fun m => inputTags.contains m.tagOf)
            (fun _ _ _ _ _ => rfl) cs)]
      exact h1

theorem clean_empty_presL :
    ∀ f : List Node, allElemsL (fun m => !nfEmpty m) f = true →
      allElemsL (fun m => !nfEmpty m) (cleanAttrsL f) = true
  | [] => by simp [cleanAttrsL, allElemsL]
  | n :: ns => by
      simp only [cleanAttrsL, allElemsL, Bool.and_eq_true]
      rintro ⟨h1, h2⟩
      exact ⟨clean_empty_presN n h1, clean_empty_presL ns h2⟩

end

mutual

theorem clean_fixN :
    ∀ n : Node, allElemsN (fun m => m.attrsOf.all (fun x => nfAttrKept m.tagOf x.1)) n = true →
      cleanAttrsN n = n
  | .text s => by intro _; rfl
  | .elem t a cs => by
      simp only [allElemsN, Bool.and_eq_true]
      rintro ⟨h1, h2⟩
      simp only [cleanAttrsN]
      rw [clean_fixL cs h2]
      rw [List.filter_eq_self.mpr ?_]
      intro x hx
      have h3 : a.all (fun x => nfAttrKept t x.1) = true := by
        simpa [Node.attrsOf, Node.tagOf] using h1
      exact List.all_eq_true.mp h3 x hx

theorem clean_fixL :
    ∀ f : List Node, allElemsL (fun m => m.attrsOf.all (fun x => nfAttrKept m.tagOf x.1)) f
      = true → cleanAttrsL f = f
  | [] => by intro _; rfl
  | n :: ns => by
      simp only [allElemsL, Bool.and_eq_true]
      rintro ⟨h1, h2⟩
      simp only [cleanAttrsL]
      rw [clean_fixN n h1, clean_fixL ns h2]

end

mutual

theorem clean_estabN :
    ∀ n : Node, allElemsN (fun m => m.attrsOf.all (fun x => nfAttrKept m.tagOf x.1))
      (cleanAttrsN n) = true
  | .text s => by simp [cleanAttrsN, allElemsN]
  | .elem t a cs => by
      simp only [cleanAttrsN, allElemsN, Bool.and_eq_true]
      refine ⟨?_, clean_estabL cs⟩
      show (a.filter (fun x => nfAttrKept t x.1)).all (fun x => nfAttrKept t x.1) = true
      rw [List.all_eq_true]
      intro x hx
      exact (List.mem_filter.mp hx).2

theorem clean_estabL :
    ∀ f : List Node, allElemsL (fun m => m.attrsOf.all (fun x => nfAttrKept m.tagOf x.1))
      (cleanAttrsL f) = true
  | [] => by simp [cleanAttrsL, allElemsL]
  | n :: ns => by
      simp only [cleanAttrsL, allElemsL, Bool.and_eq_true]
      exact ⟨clean_estabN n, clean_estabL ns⟩

end

mutual

theorem normWs_presN (q : Node → Bool)
    (hq : ∀ t a cs cs2, q (.elem t a cs) = true → q (.elem t a cs2) = true) :
    ∀ n : Node, allElemsN q n = true → allElemsN q (normalizeWsN n) = true
  | .text s => by simp [normalizeWsN, allElemsN]
  | .elem t a cs => by
      simp only [normalizeWsN, allElemsN, Bool.and_eq_true]
      rintro ⟨h1, h2⟩
      exact ⟨hq t a cs _ h1, normWs_presL q hq cs h2⟩

theorem normWs_presL (q : Node → Bool)
    (hq : ∀ t a cs cs2, q (.elem t a cs) = true → q (.elem t a cs2) = true) :
    ∀ f : List Node, allElemsL q f = true → allElemsL q (normalizeWsL f) = true
  | [] => by simp [normalizeWsL, allElemsL]
  | n :: ns => by
      simp only [normalizeWsL, allElemsL, Bool.and_eq_true]
      rintro ⟨h1, h2⟩
      exact ⟨normWs_presN q hq n h1, normWs_presL q hq ns h2⟩

end

mutual

theorem ink_normWsN : ∀ n : Node,
    anyInk (textContentN (normalizeWsN n)) = anyInk (textContentN n)
  | .text s => by
      show anyInk (normalizeText s.data) = anyInk s.data
      exact anyInk_normalizeText s.data
  | .elem t a cs => by
      simp only [normalizeWsN, textContentN]
      exact ink_normWsL cs

theorem ink_normWsL : ∀ f : List Node,
    anyInk (textContentL (normalizeWsL f)) = anyInk (textContentL f)
  | [] => rfl
  | n :: ns => by
      simp only [normalizeWsL, textContentL, anyInk_append]
      rw [ink_normWsN n, ink_normWsL ns]

end

mutual

theorem existsElem_normWsN (p : Node → Bool)
    (hp : ∀ t a cs a2 cs2, p (.elem t a cs) = p (.elem t a2 cs2)) :
    ∀ n : Node, existsElemN p (normalizeWsN n) = existsElemN p n
  | .text s => rfl
  | .elem t a cs => by
      simp only [normalizeWsN, existsElemN]
      rw [existsElem_normWsL p hp cs, hp t a (normalizeWsL cs) a cs]

theorem existsElem_normWsL (p : Node → Bool)
    (hp : ∀ t a cs a2 cs2, p (.elem t a cs) = p (.elem t a2 cs2)) :
    ∀ f : List Node, existsElemL p (normalizeWsL f) = existsElemL p f
  | [] => rfl
  | n :: ns => by
      simp only [normalizeWsL, existsElemL]
      rw [existsElem_normWsN p hp n, existsElem_normWsL p hp ns]

end

mutual

theorem normWs_empty_presN :
    ∀ n : Node, allElemsN (fun m => !nfEmpty m) n = true →
      allElemsN (fun m => !nfEmpty m) (normalizeWsN n) = true
  | .text s => by simp [normalizeWsN, allElemsN]
  | .elem t a cs => by
      simp only [normalizeWsN, allElemsN, Bool.and_eq_true]
      rintro ⟨h1, h2⟩
      refine ⟨?_, normWs_empty_presL cs h2⟩
      rw [show nfEmpty (.elem t a (normalizeWsL cs)) = nfEmpty (.elem t a cs) from
        nfEmpty_congr t a a cs (normalizeWsL cs)
          (ink_normWsL cs)
          (existsElem_normWsL (fun m => mediaTags.contains m.tagOf)
            (fun _ _ _ _ _ => rfl) cs)
          (existsElem_normWsL (fun m => m.tagOf = "br")
            (fun _ _ _ _ _ => rfl) cs)
          (existsElem_normWsL (fun m => inputTags.contains m.tagOf)
            (fun _ _ _ _ _ => rfl) cs)]
      exact h1

theorem normWs_empty_presL :
    ∀ f : List Node, allElemsL (fun m => !nfEmpty m) f = true →
      allElemsL (fun m => !nfEmpty m) (normalizeWsL f) = true
  | [] => by simp [normalizeWsL, allElemsL]
  | n :: ns => by
      simp only [normalizeWsL, allElemsL, Bool.and_eq_true]
      rintro ⟨h1, h2⟩
      exact ⟨normWs_empty_presN n h1, normWs_empty_presL ns h2⟩

end

mutual

theorem normWs_texts_estabN : ∀ n : Node, allTextsN normShape (normalizeWsN n) = true
  | .text s => by
      show normShape (normalizeText s.data) = true
      exact normShape_normalizeText s.data
  | .elem t a cs => by
      simp only [normalizeWsN, allTextsN]
      exact normWs_texts_estabL cs

theorem normWs_texts_estabL : ∀ f : List Node, allTextsL normShape (normalizeWsL f) = true
  | [] => rfl
  | n :: ns => by
      simp only [normalizeWsL, allTextsL, Bool.and_eq_true]
      exact ⟨normWs_texts_estabN n, normWs_texts_estabL ns⟩

end

mutual

theorem normWs_fixN : ∀ n : Node, allTextsN normShape n = true → normalizeWsN n = n
  | .text s => by
      intro h
      have h2 : normShape s.data = true := h
      simp only [normalizeWsN]
      rw [normalizeText_fix s.data h2]
  | .elem t a cs => by
      intro h
      simp only [normalizeWsN]
      rw [normWs_fixL cs h]

theorem normWs_fixL : ∀ f : List Node, allTextsL normShape f = true → normalizeWsL f = f
  | [] => by intro _; rfl
  | n :: ns => by
      simp only [allTextsL, Bool.and_eq_true]
      rintro ⟨h1, h2⟩
      simp only [normalizeWsL]
      rw [normWs_fixN n h1, normWs_fixL ns h2]

end

theorem strEqEmpty (s : String) : s = "" ↔ s.data = [] := by
  constructor
  · intro h; rw [h]
  · intro h
    cases s with
    | mk d =>
        have hd : d = [] := h
        rw [hd]

/-- The continuation of `renormL` after a text node: merge with a following
text, drop if empty. -/
def renormCons (s : String) (r : List Node) : List Node :=
  match r with
  | .text s2 :: tl => if s ++ s2 = "" then tl else .text (s ++ s2) :: tl
  | tl => if s = "" then tl else .text s :: tl

mutual

/-- Re-parsing preserves the text content (merged texts concatenate, dropped
texts are empty). -/
theorem textContent_renormN : ∀ n : Node, textContentN (renormN n) = textContentN n
  | .text s => rfl
  | .elem t a cs => by
      simp only [renormN, textContentN]
      exact textContent_renormL cs

theorem textContent_renormL : ∀ f : List Node, textContentL (renormL f) = textContentL f
  | [] => rfl
  | .elem t a cs :: ns => by
      simp only [renormL, textContentL]
      rw [textContent_renormN (.elem t a cs), textContent_renormL ns]
  | .text s :: ns => by
      have hre : renormL (.text s :: ns) = renormCons s (renormL ns) := rfl
      have ih := textContent_renormL ns
      rw [hre]
      simp only [textContentL, textContentN]
      cases hr : renormL ns with
      | nil =>
          rw [hr] at ih
          simp only [textContentL] at ih
          simp only [renormCons]
          by_cases hs : s = ""
          · rw [if_pos hs, ← ih, (strEqEmpty s).mp hs]
            simp [textContentL]
          · rw [if_neg hs]
            simp only [textContentL, textContentN]
            rw [← ih]
      | cons m tl =>
          rw [hr] at ih
          cases m with
          | text s2 =>
              simp only [textContentL, textContentN] at ih
              simp only [renormCons]
              by_cases hss : s ++ s2 = ""
              · have hd : s.data ++ s2.data = [] := by
                  rw [← String.data_append]
                  exact (strEqEmpty _).mp hss
                obtain ⟨h1, h2⟩ := List.append_eq_nil.mp hd
                rw [if_pos hss, ← ih, h1, h2]
                simp
              · rw [if_neg hss]
                simp only [textContentL, textContentN, String.data_append]
                rw [← ih, List.append_assoc]
          | elem t2 a2 cs2 =>
              simp only [textContentL, textContentN] at ih
              simp only [renormCons]
              by_cases hs : s = ""
              · rw [if_pos hs, (strEqEmpty s).mp hs]
                simp only [textContentL, textContentN]
                rw [ih]
                simp
              · rw [if_neg hs]
                simp only [textContentL, textContentN]
                rw [ih]

end

mutual

/-- Re-parsing drops only text nodes, so element queries are unchanged. -/
theorem existsElem_renormN (p : Node → Bool)
    (hp : ∀ t a cs a2 cs2, p (.elem t a cs) = p (.elem t a2 cs2)) :
    ∀ n : Node, existsElemN p (renormN n) = existsElemN p n
  | .text s => rfl
  | .elem t a cs => by
      simp only [renormN, existsElemN]
      rw [existsElem_renormL p hp cs, hp t a (renormL cs) a cs]

theorem existsElem_renormL (p : Node → Bool)
    (hp : ∀ t a cs a2 cs2, p (.elem t a cs) = p (.elem t a2 cs2)) :
    ∀ f : List Node, existsElemL p (renormL f) = existsElemL p f
  | [] => rfl
  | .elem t a cs :: ns => by
      simp only [renormL, existsElemL]
      rw [existsElem_renormN p hp (.elem t a cs), existsElem_renormL p hp ns]
  | .text s :: ns => by
      have hre : renormL (.text s :: ns) = renormCons s (renormL ns) := rfl
      have ih := existsElem_renormL p hp ns
      rw [hre]
      simp only [existsElemL, existsElemN, Bool.false_or]
      cases hr : renormL ns with
      | nil =>
          rw [hr] at ih
          simp only [existsElemL] at ih
          simp only [renormCons]
          by_cases hs : s = ""
          · rw [if_pos hs]
            exact ih
          · rw [if_neg hs]
            simp only [existsElemL, existsElemN, Bool.false_or, Bool.or_false]
            exact ih
      | cons m tl =>
          rw [hr] at ih
          cases m with
          | text s2 =>
              simp only [existsElemL, existsElemN, Bool.false_or] at ih
              simp only [renormCons]
              by_cases hss : s ++ s2 = ""
              · rw [if_pos hss]
                exact ih
              · rw [if_neg hss]
                simp only [existsElemL, existsElemN, Bool.false_or]
                exact ih
          | elem t2 a2 cs2 =>
              simp only [renormCons]
              by_cases hs : s = ""
              · rw [if_pos hs]
                exact ih
              · rw [if_neg hs]
                simp only [existsElemL, existsElemN, Bool.false_or]
                exact ih

end

mutual

/-- A per-element invariant not looking at children survives re-parsing. -/
theorem renorm_presN (q : Node → Bool)
    (hq : ∀ t a cs cs2, q (.elem t a cs) = true → q (.elem t a cs2) = true) :
    ∀ n : Node, allElemsN q n = true → allElemsN q (renormN n) = true
  | .text s => by simp [renormN, allElemsN]
  | .elem t a cs => by
      simp only [renormN, allElemsN, Bool.and_eq_true]
      rintro ⟨h1, h2⟩
      exact ⟨hq t a cs _ h1, renorm_presL q hq cs h2⟩

theorem renorm_presL (q : Node → Bool)
    (hq : ∀ t a cs cs2, q (.elem t a cs) = true → q (.elem t a cs2) = true) :
    ∀ f : List Node, allElemsL q f = true → allElemsL q (renormL f) = true
  | [] => by simp [renormL, allElemsL]
  | .elem t a cs :: ns => by
      simp only [renormL, allElemsL, Bool.and_eq_true]
      rintro ⟨h1, h2⟩
      exact ⟨renorm_presN q hq (.elem t a cs) h1, renorm_presL q hq ns h2⟩
  | .text s :: ns => by
      have hre : renormL (.text s :: ns) = renormCons s (renormL ns) := rfl
      simp only [allElemsL, allElemsN, Bool.true_and]
      intro h
      have ih := renorm_presL q hq ns h
      rw [hre]
      cases hr : renormL ns with
      | nil =>
          simp only [renormCons]
          by_cases hs : s = ""
          · rw [if_pos hs]; rfl
          · rw [if_neg hs]
            simp [allElemsL, allElemsN]
      | cons m tl =>
          rw [hr] at ih
          cases m with
          | text s2 =>
              simp only [allElemsL, allElemsN, Bool.true_and] at ih
              simp only [renormCons]
              by_cases hss : s ++ s2 = ""
              · rw [if_pos hss]; exact ih
              · rw [if_neg hss]
                simpa [allElemsL, allElemsN] using ih
          | elem t2 a2 cs2 =>
              simp only [renormCons]
              by_cases hs : s = ""
              · rw [if_pos hs]; exact ih
              · rw [if_neg hs]
                simpa [allElemsL, allElemsN] using ih

end

mutual

theorem renorm_empty_presN :
    ∀ n : Node, allElemsN (fun m => !nfEmpty m) n = true →
      allElemsN (fun m => !nfEmpty m) (renormN n) = true
  | .text s => by simp [renormN, allElemsN]
  | .elem t a cs => by
      simp only [renormN, allElemsN, Bool.and_eq_true]
      rintro ⟨h1, h2⟩
      refine ⟨?_, renorm_empty_presL cs h2⟩
      rw [show nfEmpty (.elem t a (renormL cs)) = nfEmpty (.elem t a cs) from
        nfEmpty_congr t a a cs (renormL cs)
          (by rw [textContent_renormL cs])
          (existsElem_renormL (fun m => mediaTags.contains m.tagOf)
            (fun _ _ _ _ _ => rfl) cs)
          (existsElem_renormL (fun m => m.tagOf = "br")
            (fun _ _ _ _ _ => rfl) cs)
          (existsElem_renormL (fun m => inputTags.contains m.tagOf)
            (fun _ _ _ _ _ => rfl) cs)]
      exact h1

theorem renorm_empty_presL :
    ∀ f : List Node, allElemsL (fun m => !nfEmpty m) f = true →
      allElemsL (fun m => !nfEmpty m) (renormL f) = true
  | [] => by simp [renormL, allElemsL]
  | .elem t a cs :: ns => by
      simp only [renormL, allElemsL, Bool.and_eq_true]
      rintro ⟨h1, h2⟩
      exact ⟨renorm_empty_presN (.elem t a cs) h1, renorm_empty_presL ns h2⟩
  | .text s :: ns => by
      have hre : renormL (.text s :: ns) = renormCons s (renormL ns) := rfl
      simp only [allElemsL, allElemsN, Bool.true_and]
      intro h
      have ih := renorm_empty_presL ns h
      rw [hre]
      cases hr : renormL ns with
      | nil =>
          simp only [renormCons]
          by_cases hs : s = ""
          · rw [if_pos hs]; rfl
          · rw [if_neg hs]
            simp [allElemsL, allElemsN]
      | cons m tl =>
          rw [hr] at ih
          cases m with
          | text s2 =>
              simp only [allElemsL, allElemsN, Bool.true_and] at ih
              simp only [renormCons]
              by_cases hss : s ++ s2 = ""
              · rw [if_pos hss]; exact ih
              · rw [if_neg hss]
                simpa [allElemsL, allElemsN] using ih
          | elem t2 a2 cs2 =>
              simp only [renormCons]
              by_cases hs : s = ""
              · rw [if_pos hs]; exact ih
              · rw [if_neg hs]
                simpa [allElemsL, allElemsN] using ih

end

mutual

/-- Normal text shape survives re-parsing: merged adjacent normal texts stay
normal (`normShape_append`). -/
theorem renorm_texts_presN :
    ∀ n : Node, allTextsN normShape n = true → allTextsN normShape (renormN n) = true
  | .text s => by intro h; exact h
  | .elem t a cs => by
      simp only [renormN, allTextsN]
      exact renorm_texts_presL cs

theorem renorm_texts_presL :
    ∀ f : List Node, allTextsL normShape f = true → allTextsL normShape (renormL f) = true
  | [] => by intro _; rfl
  | .elem t a cs :: ns => by
      simp only [renormL, allTextsL, allTextsN, Bool.and_eq_true]
      rintro ⟨h1, h2⟩
      exact ⟨renorm_texts_presL cs h1, renorm_texts_presL ns h2⟩
  | .text s :: ns => by
      have hre : renormL (.text s :: ns) = renormCons s (renormL ns) := rfl
      simp only [allTextsL, allTextsN, Bool.and_eq_true]
      rintro ⟨h1, h2⟩
      have ih := renorm_texts_presL ns h2
      rw [hre]
      cases hr : renormL ns with
      | nil =>
          simp only [renormCons]
          by_cases hs : s = ""
          · rw [if_pos hs]; rfl
          · rw [if_neg hs]
            simp only [allTextsL, allTextsN, Bool.and_eq_true]
            exact ⟨h1, True.intro⟩
      | cons m tl =>
          rw [hr] at ih
          cases m with
          | text s2 =>
              simp only [allTextsL, allTextsN, Bool.and_eq_true] at ih
              simp only [renormCons]
              by_cases hss : s ++ s2 = ""
              · rw [if_pos hss]; exact ih.2
              · rw [if_neg hss]
                simp only [allTextsL, allTextsN, Bool.and_eq_true]
                refine ⟨?_, ih.2⟩
                show normShape (s ++ s2).data = true
                rw [String.data_append]
                exact normShape_append s.data s2.data h1 ih.1
          | elem t2 a2 cs2 =>
              simp only [allTextsL, allTextsN, Bool.and_eq_true] at ih
              simp only [renormCons]
              by_cases hs : s = ""
              · rw [if_pos hs]
                simp only [allTextsL, allTextsN, Bool.and_eq_true]
                exact ih
              · rw [if_neg hs]
                simp only [allTextsL, allTextsN, Bool.and_eq_true]
                exact ⟨h1, ih⟩

end

mutual

/-- Re-parsing lands in the re-parse normal form. -/
theorem renormed_estabN : ∀ n : Node, renormedN (renormN n) = true
  | .text s => rfl
  | .elem t a cs => by
      simp only [renormN, renormedN]
      exact renormed_estabL cs

theorem renormed_estabL : ∀ f : List Node, renormedL (renormL f) = true
  | [] => rfl
  | .elem t a cs :: ns => by
      simp only [renormL, renormedL, Bool.and_eq_true]
      exact ⟨renormed_estabN (.elem t a cs), renormed_estabL ns⟩
  | .text s :: ns => by
      have hre : renormL (.text s :: ns) = renormCons s (renormL ns) := rfl
      have ih := renormed_estabL ns
      rw [hre]
      cases hr : renormL ns with
      | nil =>
          simp only [renormCons]
          by_cases hs : s = ""
          · rw [if_pos hs]; rfl
          · rw [if_neg hs]
            simp only [renormedL, textHead, Bool.and_eq_true, Bool.not_eq_true']
            refine ⟨⟨?_, True.intro⟩, True.intro⟩
            simpa using hs
      | cons m tl =>
          rw [hr] at ih
          cases m with
          | text s2 =>
              simp only [renormedL, Bool.and_eq_true, Bool.not_eq_true'] at ih
              simp only [renormCons]
              by_cases hss : s ++ s2 = ""
              · rw [if_pos hss]; exact ih.2
              · rw [if_neg hss]
                simp only [renormedL, Bool.and_eq_true, Bool.not_eq_true']
                refine ⟨⟨?_, ih.1.2⟩, ih.2⟩
                simpa using hss
          | elem t2 a2 cs2 =>
              simp only [renormedL, Bool.and_eq_true] at ih
              simp only [renormCons]
              by_cases hs : s = ""
              · rw [if_pos hs]
                simp only [renormedL, Bool.and_eq_true]
                exact ih
              · rw [if_neg hs]
                simp only [renormedL, textHead, Bool.and_eq_true, Bool.not_eq_true']
                refine ⟨⟨?_, True.intro⟩, ih⟩
                simpa using hs

end

mutual

/-- The re-parse normal form is fixed by re-parsing. -/
theorem renorm_fixN : ∀ n : Node, renormedN n = true → renormN n = n
  | .text s => by intro _; rfl
  | .elem t a cs => by
      intro h
      simp only [renormN]
      rw [renorm_fixL cs (by simpa [renormedN] using h)]

theorem renorm_fixL : ∀ f : List Node, renormedL f = true → renormL f = f
  | [] => by intro _; rfl
  | .elem t a cs :: ns => by
      simp only [renormedL, Bool.and_eq_true]
      rintro ⟨h1, h2⟩
      simp only [renormL]
      rw [renorm_fixN (.elem t a cs) h1, renorm_fixL ns h2]
  | .text s :: ns => by
      have hre : renormL (.text s :: ns) = renormCons s (renormL ns) := rfl
      simp only [renormedL, Bool.and_eq_true, Bool.not_eq_true']
      rintro ⟨⟨hs, hth⟩, h2⟩
      have ih := renorm_fixL ns h2
      rw [hre, ih]
      have hsne : ¬(s = "") := by simpa using hs
      cases ns with
      | nil =>
          simp only [renormCons]
          rw [if_neg hsne]
      | cons m tl =>
          cases m with
          | text s2 => simp [textHead] at hth
          | elem t2 a2 cs2 =>
              simp only [renormCons]
              rw [if_neg hsne]

end

/-- The normal form fixed by every pass of `clean`: no `aria-hidden="true"`
element, no empty element, duplicate-free attribute names, only allow-listed
attributes, normalized text nodes, and the re-parse shape. -/
theorem nfClean_fix (g : List Node)
    (h1 : allElemsL (fun n => !ariaHiddenTrue n) g = true)
    (h2 : allElemsL (fun n => !nfEmpty n) g = true)
    (h3 : allElemsL (fun n => namesNodupB (n.attrsOf.map Prod.fst)) g = true)
    (h4 : allElemsL (fun n => n.attrsOf.all (fun x => nfAttrKept n.tagOf x.1)) g = true)
    (h5 : allTextsL normShape g = true)
    (h6 : renormedL g = true) :
    nfClean g = g := by
  have hhid : allElemsL (fun n => !nfHidden n) g = true := by
    have hc := allElemsL_and _ _ g h1 h4
    refine allElemsL_impl _ _ ?_ g hc
    intro n hn
    simp only [Bool.and_eq_true, Bool.not_eq_true'] at hn
    obtain ⟨ha, hk⟩ := hn
    simp only [Bool.not_eq_true']
    apply nfHidden_false_of
    · cases n with
      | text s => rfl
      | elem t a cs =>
          exact getAttr_none_of_all_kept t a (by simpa [Node.attrsOf, Node.tagOf] using hk)
            "style" (nfAttrKept_style t)
    · cases n with
      | text s => rfl
      | elem t a cs =>
          exact getAttr_none_of_all_kept t a (by simpa [Node.attrsOf, Node.tagOf] using hk)
            "hidden" (nfAttrKept_hidden t)
    · exact ha
  have e1 : removeInvisibleL g = g := removeMatchingL_id nfHidden g hhid
  have e2 : removeEmptyL g = g := removeMatchingL_id nfEmpty g h2
  have e3 : dedupAttrsL g = g := dedup_fixL g h3
  have e4 : cleanAttrsL g = g := clean_fixL g h4
  have e5 : normalizeWsL g = g := normWs_fixL g h5
  have e6 : renormL g = g := renorm_fixL g h6
  unfold nfClean
  rw [e1, e2, e3, e4, e5, e6]

/-- `ariaHiddenTrue` only reads the attribute list. -/
theorem qAria_loc (t : String) (a : List (String × String)) (cs cs2 : List Node)
    (h : (!ariaHiddenTrue (.elem t a cs)) = true) :
    (!ariaHiddenTrue (.elem t a cs2)) = true := h

theorem qAria_dedup (t : String) (a : List (String × String)) (cs cs2 : List Node)
    (h : (!ariaHiddenTrue (.elem t a cs)) = true) :
    (!ariaHiddenTrue (.elem t (dedupAttrs a) cs2)) = true := by
  have e : ariaHiddenTrue (.elem t (dedupAttrs a) cs2) = ariaHiddenTrue (.elem t a cs) := by
    simp only [ariaHiddenTrue, nodeAttr, Node.attrsOf, getAttr_dedupAttrs]
  rw [e]
  exact h

theorem qAria_clean (t : String) (a : List (String × String)) (cs cs2 : List Node)
    (h : (!ariaHiddenTrue (.elem t a cs)) = true) :
    (!ariaHiddenTrue (.elem t (a.filter (fun x => nfAttrKept t x.1)) cs2)) = true := by
  have e : ariaHiddenTrue (.elem t (a.filter (fun x => nfAttrKept t x.1)) cs2)
      = ariaHiddenTrue (.elem t a cs) := by
    simp only [ariaHiddenTrue, nodeAttr, Node.attrsOf,
      getAttr_filter_kept t a "aria-hidden" (nfAttrKept_aria t)]
  rw [e]
  exact h

/-- After one `clean`, the forest is in the normal form of `nfClean_fix`
(on fragile-tag-free input). -/
theorem nfClean_norm (f : List Node) (hg : goodTagsB f = true) :
    allElemsL (fun n => !ariaHiddenTrue n) (nfClean f) = true ∧
    allElemsL (fun n => !nfEmpty n) (nfClean f) = true ∧
    allElemsL (fun n => namesNodupB (n.attrsOf.map Prod.fst)) (nfClean f) = true ∧
    allElemsL (fun n => n.attrsOf.all (fun x => nfAttrKept n.tagOf x.1)) (nfClean f) = true ∧
    allTextsL normShape (nfClean f) = true ∧
    renormedL (nfClean f) = true := by
  have himp : ∀ n : Node, nfHidden n = false → (!ariaHiddenTrue n) = true := by
    intro n h
    simp only [nfHidden, Bool.or_eq_false_iff] at h
    simp [h.1.2]
  -- the five intermediate forests
  have k1a : allElemsL (fun n => !ariaHiddenTrue n) (removeInvisibleL f) = true :=
    removeMatchingL_estab nfHidden _ qAria_loc himp f
  have k1b := removeMatchingL_pres nfEmpty _ qAria_loc (removeInvisibleL f) k1a
  have k1c := dedup_presL _ qAria_dedup _ k1b
  have k1d := clean_presL _ qAria_clean _ k1c
  have k1e := normWs_presL _ qAria_loc _ k1d
  have k1f := renorm_presL _ qAria_loc _ k1e
  have good1 : allElemsL (fun n => !fragileTags.contains n.tagOf) (removeInvisibleL f)
      = true :=
    removeMatchingL_pres nfHidden (fun n => !fragileTags.contains n.tagOf)
      (fun t a cs cs2 h => h) f hg
  have k2a : allElemsL (fun n => !nfEmpty n) (removeEmptyL (removeInvisibleL f)) = true :=
    removeEmptyL_estab (removeInvisibleL f) good1
  have k2b := dedup_empty_presL _ k2a
  have k2c := clean_empty_presL _ k2b
  have k2d := normWs_empty_presL _ k2c
  have k2e := renorm_empty_presL _ k2d
  have k3a : allElemsL (fun n => namesNodupB (n.attrsOf.map Prod.fst))
      (dedupAttrsL (removeEmptyL (removeInvisibleL f))) = true :=
    dedup_estabL _
  have k3b := clean_presL _ (fun t a cs cs2 h => by
    show namesNodupB ((a.filter (fun x => nfAttrKept t x.1)).map Prod.fst) = true
    have h2 : namesNodupB (a.map Prod.fst) = true := h
    rw [namesNodupB_iff] at h2 ⊢
    exact ((List.filter_sublist a).map Prod.fst).nodup h2) _ k3a
  have k3c := normWs_presL (fun n => namesNodupB (n.attrsOf.map Prod.fst))
    (fun t a cs cs2 h => h) _ k3b
  have k3d := renorm_presL (fun n => namesNodupB (n.attrsOf.map Prod.fst))
    (fun t a cs cs2 h => h) _ k3c
  have k4a : allElemsL (fun n => n.attrsOf.all (fun x => nfAttrKept n.tagOf x.1))
      (cleanAttrsL (dedupAttrsL (removeEmptyL (removeInvisibleL f)))) = true :=
    clean_estabL _
  have k4b := normWs_presL (fun n => n.attrsOf.all (fun x => nfAttrKept n.tagOf x.1))
    (fun t a cs cs2 h => h) _ k4a
  have k4c := renorm_presL (fun n => n.attrsOf.all (fun x => nfAttrKept n.tagOf x.1))
    (fun t a cs cs2 h => h) _ k4b
  have k5a : allTextsL normShape
      (normalizeWsL (cleanAttrsL (dedupAttrsL (removeEmptyL (removeInvisibleL f)))))
      = true := normWs_texts_estabL _
  have k5b := renorm_texts_presL _ k5a
  have k6 : renormedL (nfClean f) = true := renormed_estabL _
  exact ⟨k1f, k2e, k3d, k4c, k5b, k6⟩

/-- C5 counterexample: `clean` is not idempotent.  A div whose only content
is an empty `svg` keeps the div on the first run (the svg, present when the
div is tested, witnesses `hasImage`) but loses the svg (empty, not void);
the second run then removes the now-empty div. -/
theorem C5_clean_counterexample :
    nfClean (nfClean [Node.elem "div" [] [Node.elem "svg" [] []]])
      ≠ nfClean [Node.elem "div" [] [Node.elem "svg" [] []]] ∧
    nfClean [Node.elem "div" [] [Node.elem "svg" [] []]]
      = [Node.elem "div" [] []] ∧
    nfClean (nfClean [Node.elem "div" [] [Node.elem "svg" [] []]]) = [] := by
  refine ⟨by decide, by decide, by decide⟩

/-- C5 amended: `NoiseFilter.clean` is idempotent on every document whose
body contains no `svg`, `canvas`, `video`, `textarea` or `select` element —
the five tags that can witness non-emptiness for an ancestor in
`removeEmptyElements` while being removable as empty themselves.  On such
documents one run lands in a normal form (no hidden or empty element
survives its own sweep, attributes deduplicated and allow-listed, text
normalized, serialization shape stable) that every pass of a second run
fixes. -/
theorem C5_clean_amended (f : List Node) (h : goodTagsB f = true) :
    nfClean (nfClean f) = nfClean f := by
  obtain ⟨k1, k2, k3, k4, k5, k6⟩ := nfClean_norm f h
  exact nfClean_fix (nfClean f) k1 k2 k3 k4 k5 k6

/-- A fragile-tag-free body forest. -/
def c5Wit : List Node :=
  [Node.elem "div" [("id", "m"), ("id", "m2"), ("style", "color:red")]
    [Node.elem "p" [("class", "x")] [Node.text "hi  there "], Node.text "  a  b "]]

/-- C5 witness: the amended idempotence at a concrete fragile-tag-free
forest. -/
theorem C5_clean_amended_witness :
    goodTagsB c5Wit = true ∧ nfClean (nfClean c5Wit) = nfClean c5Wit :=
  ⟨by decide, C5_clean_amended c5Wit (by decide)⟩

end MDFlow